import Mathlib

/-!
# The lexer of the untyped lambda calculus (`lang/lambda/lexer.cpp`)

A shallow embedding of `Lexer` and of the operations it calls, followed by the
properties of the lexer that are proved about it.

* The input buffer is a list of characters; the pointers `first` and `last`
  are offsets into it (`last` is the length of the buffer).
* Every read of `*first` is index-checked: a read at an offset outside the
  buffer is the fault `Fault.out_of_range`.
* The two `while` loops run on a fuel that the caller computes from the state
  (the number of characters left, plus one); running out of it is the fault
  `Fault.out_of_fuel`, which is proved never to happen.
* Line and column counters are natural numbers.
* The symbol table and the parser are not among the sources; they are modelled from the
  spec, each definition saying so.
-/

set_option autoImplicit false

namespace Lambda

/-! ## Characters -/

/-- The `<cctype>` classification `isalpha` in the "C" locale. -/
def isalpha (c : Char) : Bool := c.isAlpha

/-- The `<cctype>` classification `isdigit`. -/
def isdigit (c : Char) : Bool := c.isDigit

/-- The `<cctype>` classification `isalnum` in the "C" locale. -/
def isalnum (c : Char) : Bool := c.isAlphanum

/-- The character `'\v'` (vertical tab). -/
def vtab : Char := Char.ofNat 11

/-! ## Symbols, tokens and the symbol table -/

/-- Modelled from the spec: the kind tag of a symbol, `Symbol::Kind` (the enumeration is
declared in a header that is not part of the sources; the lexer names `Eof`, the six
punctuators and `Identifier`, the spec adds `Error`). -/
inductive Symbol.Kind where
  | Eof | Lparen | Rparen | Backslash | Dot | Semicolon | Equal | Identifier | Error
deriving DecidableEq, Repr

/-- Modelled from the spec: a symbol, a spelling with its kind tag. -/
structure Symbol where
  kind : Symbol.Kind
  spelling : List Char
deriving DecidableEq, Repr

/-- Modelled from the spec: a symbol handle (the `Symbol*` a token carries). The canonical
symbol of a fixed kind is `canon kind`; an interned spelling is `text i`, the index of its
entry in the table. Two handles are equal exactly when they denote the same symbol. -/
inductive SymbolRef where
  | canon (kind : Symbol.Kind)
  | text (index : Nat)
deriving DecidableEq, Repr

/-- Modelled from the spec: the symbol table, the interned spellings in the order of their
registration. Nothing is ever deleted. -/
structure symbol_table where
  syms : List Symbol
deriving DecidableEq, Repr

/-- Index of the first entry of `syms` whose spelling is `s`, counted from `base`. -/
def symbol_table.find : List Symbol → List Char → Nat → Option Nat
  | [], _, _ => none
  | e :: es, s, base => if e.spelling = s then some base else symbol_table.find es s (base + 1)

/-- Modelled from the spec: `symbol_table::get(kind)`, the canonical symbol of a fixed kind. -/
def symbol_table.get (_t : symbol_table) (kind : Symbol.Kind) : SymbolRef :=
  SymbolRef.canon kind

/-- Modelled from the spec: `symbol_table::put(kind, first, last)`: if an equal spelling
already exists, return the existing symbol (same handle), otherwise create and register a
new one tagged with `kind`. -/
def symbol_table.put (t : symbol_table) (kind : Symbol.Kind) (s : List Char) :
    SymbolRef × symbol_table :=
  match symbol_table.find t.syms s 0 with
  | some i => (SymbolRef.text i, t)
  | none => (SymbolRef.text t.syms.length, { syms := t.syms ++ [{ kind := kind, spelling := s }] })

/-- Modelled from the spec: `symbol_table::get(first, last)`, interning of a spelling without
a kind argument; the lexer uses it for the offending character of an error token, so a new
symbol is tagged `Error`. -/
def symbol_table.get_text (t : symbol_table) (s : List Char) : SymbolRef × symbol_table :=
  t.put Symbol.Kind.Error s

/-- Modelled from the spec: the spelling of the canonical symbol of a fixed kind: the single
character of a punctuator, nothing for the others. -/
def Symbol.Kind.spelling : Symbol.Kind → List Char
  | .Lparen => ['(']
  | .Rparen => [')']
  | .Backslash => ['\\']
  | .Dot => ['.']
  | .Semicolon => [';']
  | .Equal => ['=']
  | _ => []

/-- Modelled from the spec: the symbol a handle denotes; `none` for a handle that is not of
this table. -/
def symbol_table.deref (t : symbol_table) : SymbolRef → Option Symbol
  | .canon k => some { kind := k, spelling := k.spelling }
  | .text i => t.syms[i]?

/-- Source location, 1-based line and column. -/
structure Location where
  line : Nat
  column : Nat
deriving DecidableEq, Repr

/-- A token: a symbol handle and a source location. -/
structure Token where
  sym : SymbolRef
  loc : Location
deriving DecidableEq, Repr

/-- Modelled from the spec: `Token::spelling()`, the spelling of the token's symbol. -/
def Token.spelling (t : symbol_table) (tok : Token) : List Char :=
  match t.deref tok.sym with
  | some s => s.spelling
  | none => []

/-- Modelled from the spec: the kind of the token's symbol; `none` for a handle that is not
of this table. -/
def Token.kind (t : symbol_table) (tok : Token) : Option Symbol.Kind :=
  (t.deref tok.sym).map Symbol.kind

/-! ## The lexer -/

/-- What can go wrong in the embedding (never in a run, as is proved below). -/
inductive Fault where
  | out_of_range
  | out_of_fuel
deriving DecidableEq, Repr

/-- The state of a `Lexer`: the table, the buffer with the offset `first` into it, the
current token and the current location. -/
structure Lexer where
  table : symbol_table
  buf : List Char
  first : Nat
  tok : Token
  loc : Location
deriving DecidableEq, Repr

/-- `Lexer::Lexer(t, buf)`. The value-initialised token `tok{}` is declared in a header
that is not part of the sources and is a parameter here. -/
def Lexer.init (t : symbol_table) (buf : List Char) (tok0 : Token) : Lexer :=
  { table := t, buf := buf, first := 0, tok := tok0, loc := { line := 1, column := 1 } }

/-- The pointer `last`, one past the end of the buffer. -/
def Lexer.last (lx : Lexer) : Nat := lx.buf.length

/-- The read `*first`, index-checked. -/
def Lexer.deref (lx : Lexer) : Except Fault Char :=
  match lx.buf[lx.first]? with
  | some c => .ok c
  | none => .error Fault.out_of_range

/-- `++first`. -/
def Lexer.advance (lx : Lexer) : Lexer := { lx with first := lx.first + 1 }

/-- `Lexer::is_eof`. -/
def Lexer.is_eof (lx : Lexer) : Bool := lx.first == lx.last

/-- `Lexer::is_char`. -/
def Lexer.is_char (lx : Lexer) (c : Char) : Except Fault Bool :=
  if lx.is_eof then .ok false
  else match lx.deref with
    | .ok x => .ok (x == c)
    | .error e => .error e

/-- `Lexer::is_letter`. -/
def Lexer.is_letter (lx : Lexer) : Except Fault Bool :=
  if lx.is_eof then .ok false
  else match lx.deref with
    | .ok x => .ok (isalpha x)
    | .error e => .error e

/-- `Lexer::is_digit`. -/
def Lexer.is_digit (lx : Lexer) : Except Fault Bool :=
  if lx.is_eof then .ok false
  else match lx.deref with
    | .ok x => .ok (isdigit x)
    | .error e => .error e

/-- `Lexer::is_alphanumeric`. -/
def Lexer.is_alphanumeric (lx : Lexer) : Except Fault Bool :=
  if lx.is_eof then .ok false
  else match lx.deref with
    | .ok x => .ok (isalnum x)
    | .error e => .error e

/-- The condition `is_letter() || is_char('_')` of `Lexer::is_identifier`. -/
def Lexer.is_identifier_start (lx : Lexer) : Except Fault Bool :=
  match lx.is_letter with
  | .ok true => .ok true
  | .ok false => lx.is_char '_'
  | .error e => .error e

/-- The condition `is_alphanumeric() || is_char('_')` of the loop of
`Lexer::is_identifier`. -/
def Lexer.is_identifier_rest (lx : Lexer) : Except Fault Bool :=
  match lx.is_alphanumeric with
  | .ok true => .ok true
  | .ok false => lx.is_char '_'
  | .error e => .error e

/-- The loop `while (is_alphanumeric() || is_char('_')) ++first;`. -/
def Lexer.is_identifier_loop : Nat → Lexer → Except Fault Lexer
  | 0, _ => .error Fault.out_of_fuel
  | fuel + 1, lx =>
    match lx.is_identifier_rest with
    | .ok true => Lexer.is_identifier_loop fuel lx.advance
    | .ok false => .ok lx
    | .error e => .error e

/-- `Lexer::is_identifier`: the result and the state it leaves. -/
def Lexer.is_identifier (lx : Lexer) : Except Fault (Bool × Lexer) :=
  match lx.is_identifier_start with
  | .ok true =>
    match Lexer.is_identifier_loop (lx.advance.last - lx.advance.first + 1) lx.advance with
    | .ok lx1 => .ok (true, lx1)
    | .error e => .error e
  | .ok false => .ok (false, lx)
  | .error e => .error e

/-- `Lexer::consume_horizontal_ws`; it reads `*first` without a test for the end. -/
def Lexer.consume_horizontal_ws (lx : Lexer) : Except Fault (Bool × Lexer) :=
  match lx.deref with
  | .ok c =>
    if c = ' ' ∨ c = '\t' then
      .ok (true, { lx with loc := { lx.loc with column := lx.loc.column + 1 },
                           first := lx.first + 1 })
    else .ok (false, lx)
  | .error e => .error e

/-- `Lexer::consume_vertical_ws`; it reads `*first` without a test for the end. -/
def Lexer.consume_vertical_ws (lx : Lexer) : Except Fault (Bool × Lexer) :=
  match lx.deref with
  | .ok c =>
    if c = '\r' ∨ c = '\n' ∨ c = vtab then
      .ok (true, { lx with loc := { line := lx.loc.line + 1, column := 1 },
                           first := lx.first + 1 })
    else .ok (false, lx)
  | .error e => .error e

/-- The loop condition `!is_eof() && (consume_horizontal_ws() || consume_vertical_ws())` of
`Lexer::consume_ws`, evaluated left to right with short circuit. -/
def Lexer.consume_ws_cond (lx : Lexer) : Except Fault (Bool × Lexer) :=
  if lx.is_eof then .ok (false, lx)
  else match lx.consume_horizontal_ws with
    | .ok (true, lx1) => .ok (true, lx1)
    | .ok (false, lx1) => lx1.consume_vertical_ws
    | .error e => .error e

/-- The loop of `Lexer::consume_ws`. The local `result` is `none` while it is not
initialised. -/
def Lexer.consume_ws_loop : Nat → Lexer → Option Bool → Except Fault (Option Bool × Lexer)
  | 0, _, _ => .error Fault.out_of_fuel
  | fuel + 1, lx, result =>
    match lx.consume_ws_cond with
    | .ok (true, lx1) => Lexer.consume_ws_loop fuel lx1 (some true)
    | .ok (false, lx1) => .ok (result, lx1)
    | .error e => .error e

/-- `Lexer::consume_ws`. The local `bool result;` has no initialiser; the value returned is
`none` when the loop body never ran. -/
def Lexer.consume_ws (lx : Lexer) : Except Fault (Option Bool × Lexer) :=
  Lexer.consume_ws_loop (lx.last - lx.first + 1) lx none

/-- `Lexer::make_eof`. -/
def Lexer.make_eof (lx : Lexer) : Lexer :=
  { lx with tok := { lx.tok with sym := lx.table.get Symbol.Kind.Eof } }

/-- `Lexer::make_punctuation`. -/
def Lexer.make_punctuation (lx : Lexer) (kind : Symbol.Kind) : Lexer :=
  { lx with tok := { loc := lx.loc, sym := lx.table.get kind },
            first := lx.first + 1,
            loc := { lx.loc with column := lx.loc.column + 1 } }

/-- `Lexer::make_identifer(first, last)`. The parameters hide the members of the same
name: `first += tok.spelling().size()` changes the parameter (the local `_first`), not the
scan position. -/
def Lexer.make_identifer (lx : Lexer) (first last : Nat) : Lexer :=
  let r := lx.table.put Symbol.Kind.Identifier ((lx.buf.drop first).take (last - first))
  let tok : Token := { loc := lx.loc, sym := r.1 }
  let _first := first + (tok.spelling r.2).length
  { lx with tok := tok, table := r.2,
            loc := { lx.loc with column := lx.loc.column + (tok.spelling r.2).length } }

/-- `Lexer::make_error`. The range `[first, first + 1)` is read from the buffer. -/
def Lexer.make_error (lx : Lexer) : Except Fault Lexer :=
  match lx.deref with
  | .ok c =>
    let r := lx.table.get_text [c]
    .ok { lx with tok := { loc := lx.loc, sym := r.1 }, table := r.2,
                  first := lx.first + 1,
                  loc := { lx.loc with column := lx.loc.column + 1 } }
  | .error e => .error e

/-- `Lexer::operator()`: lex the next token. The token returned is the field `tok` of the
state returned. -/
def Lexer.operator_call (lx : Lexer) : Except Fault Lexer :=
  match lx.consume_ws with
  | .error e => .error e
  | .ok (_, lx1) =>
    if lx1.is_eof then .ok lx1.make_eof
    else
      let start := lx1.first
      match lx1.deref with
      | .error e => .error e
      | .ok c =>
        if c = '(' then .ok (lx1.make_punctuation Symbol.Kind.Lparen)
        else if c = ')' then .ok (lx1.make_punctuation Symbol.Kind.Rparen)
        else if c = '\\' then .ok (lx1.make_punctuation Symbol.Kind.Backslash)
        else if c = '.' then .ok (lx1.make_punctuation Symbol.Kind.Dot)
        else if c = ';' then .ok (lx1.make_punctuation Symbol.Kind.Semicolon)
        else if c = '=' then .ok (lx1.make_punctuation Symbol.Kind.Equal)
        else
          match lx1.is_identifier with
          | .error e => .error e
          | .ok (true, lx2) => .ok (lx2.make_identifer start lx2.first)
          | .ok (false, lx2) => lx2.make_error

/-! ## Repeated calls -/

/-- The state after `n` calls of `Lexer::operator()`. -/
def Lexer.calls : Nat → Lexer → Except Fault Lexer
  | 0, lx => .ok lx
  | n + 1, lx =>
    match lx.operator_call with
    | .ok lx1 => Lexer.calls n lx1
    | .error e => .error e

/-- The tokens returned by repeated calls of `Lexer::operator()`, up to and including the
first token whose symbol is the canonical `Eof` symbol, with the state reached. -/
def Lexer.run : Nat → Lexer → Except Fault (List Token × Lexer)
  | 0, _ => .error Fault.out_of_fuel
  | fuel + 1, lx =>
    match lx.operator_call with
    | .error e => .error e
    | .ok lx1 =>
      if lx1.tok.sym = lx1.table.get Symbol.Kind.Eof then .ok ([lx1.tok], lx1)
      else
        match Lexer.run fuel lx1 with
        | .ok (ts, lx2) => .ok (lx1.tok :: ts, lx2)
        | .error e => .error e

/-- The whole token sequence of the rest of the buffer, up to and including the first
`Eof`. -/
def Lexer.tokens (lx : Lexer) : Except Fault (List Token × Lexer) :=
  Lexer.run (lx.last - lx.first + 1) lx

/-! ## The parser of expressions

The implementation of `Parser` is not part of the sources (only its declaration and the
grammar in the comment above it are); the part that parses expressions is modelled from the
spec. It runs on the lexer above. -/

/-- Modelled from the spec: a term of the abstract syntax tree: a variable wraps the
interned symbol of an identifier, an abstraction has its bound variable and its body, an
application its function and its argument. -/
inductive Term where
  | Variable (sym : SymbolRef)
  | Abstraction (var : SymbolRef) (body : Term)
  | Application (fn : Term) (arg : Term)
deriving DecidableEq, Repr

/-- Modelled from the spec: why parsing stops: a fault of the lexer, a token that does not
fit the grammar (with the kind that was expected, if one was), or the fuel of the
embedding. -/
inductive ParseError where
  | lexer (f : Fault)
  | mismatch (expected : Option Symbol.Kind) (found : Token)
  | out_of_fuel
deriving DecidableEq, Repr

/-- Modelled from the spec: the state of a `Parser`: the lexer and the lookahead token. (The
context that owns the nodes and the root of the program play no part in expressions.) -/
structure Parser where
  lex : Lexer
  tok : Token
deriving DecidableEq, Repr

/-- Modelled from the spec: `Parser::Parser(lex)`: the lookahead token is populated by an
initial pull. -/
def Parser.init (lex : Lexer) : Except ParseError Parser :=
  match lex.operator_call with
  | .ok lx => .ok { lex := lx, tok := lx.tok }
  | .error f => .error (ParseError.lexer f)

/-- Modelled from the spec: `Parser::consume`: returns the current lookahead token and
advances the lexer by one token. -/
def Parser.consume (p : Parser) : Except ParseError (Token × Parser) :=
  match p.lex.operator_call with
  | .ok lx => .ok (p.tok, { lex := lx, tok := lx.tok })
  | .error f => .error (ParseError.lexer f)

/-- Modelled from the spec: `Parser::match(kind)`: consumes and returns the current token if
the kind of its symbol is `kind`; otherwise it is a parse error, and nothing is consumed. -/
def Parser.match_ (p : Parser) (kind : Symbol.Kind) : Except ParseError (Token × Parser) :=
  if p.tok.kind p.lex.table = some kind then p.consume
  else .error (ParseError.mismatch (some kind) p.tok)

/-- Modelled from the spec: `Parser::parse_variable`, `variable := identifier`: the interned
symbol of the identifier. -/
def Parser.parse_variable (p : Parser) : Except ParseError (SymbolRef × Parser) :=
  match p.match_ Symbol.Kind.Identifier with
  | .ok (tok, p1) => .ok (tok.sym, p1)
  | .error e => .error e

/-- Modelled from the spec: `Parser::parse_abstraction`, `'\' variable '.' expression`; the
body is a whole expression. The parser of expressions is an argument. -/
def Parser.parse_abstraction (expression : Parser → Except ParseError (Term × Parser))
    (p : Parser) : Except ParseError (Term × Parser) :=
  match p.match_ Symbol.Kind.Backslash with
  | .error e => .error e
  | .ok (_, p1) =>
    match p1.parse_variable with
    | .error e => .error e
    | .ok (v, p2) =>
      match p2.match_ Symbol.Kind.Dot with
      | .error e => .error e
      | .ok (_, p3) =>
        match expression p3 with
        | .error e => .error e
        | .ok (body, p4) => .ok (Term.Abstraction v body, p4)

/-- Modelled from the spec: `Parser::parse_compound`, the grouping `'(' expression ')'`: it
fails if `)` is missing. The parser of expressions is an argument. -/
def Parser.parse_compound (expression : Parser → Except ParseError (Term × Parser))
    (p : Parser) : Except ParseError (Term × Parser) :=
  match p.match_ Symbol.Kind.Lparen with
  | .error e => .error e
  | .ok (_, p1) =>
    match expression p1 with
    | .error e => .error e
    | .ok (t, p2) =>
      match p2.match_ Symbol.Kind.Rparen with
      | .error e => .error e
      | .ok (_, p3) => .ok (t, p3)

/-- Modelled from the spec: the lookahead token begins a primary: `(`, `\` or an
identifier. -/
def Parser.at_primary (p : Parser) : Bool :=
  p.tok.kind p.lex.table = some Symbol.Kind.Lparen ||
  p.tok.kind p.lex.table = some Symbol.Kind.Backslash ||
  p.tok.kind p.lex.table = some Symbol.Kind.Identifier

/-- Modelled from the spec: `Parser::parse_primary`: the primary forms are the grouping, the
bare identifier and the abstraction, chosen by the lookahead token. -/
def Parser.parse_primary (expression : Parser → Except ParseError (Term × Parser))
    (p : Parser) : Except ParseError (Term × Parser) :=
  if p.tok.kind p.lex.table = some Symbol.Kind.Lparen then p.parse_compound expression
  else if p.tok.kind p.lex.table = some Symbol.Kind.Backslash then
    p.parse_abstraction expression
  else if p.tok.kind p.lex.table = some Symbol.Kind.Identifier then
    match p.parse_variable with
    | .ok (v, p1) => .ok (Term.Variable v, p1)
    | .error e => .error e
  else .error (ParseError.mismatch none p.tok)

/-- Modelled from the spec: the juxtaposition of `Parser::parse_application`,
`application := primary (application)?`, left-associative: every further primary is the
argument of an application of what has been parsed so far. -/
def Parser.parse_application_loop (primary : Parser → Except ParseError (Term × Parser)) :
    Nat → Term → Parser → Except ParseError (Term × Parser)
  | 0, _, _ => .error ParseError.out_of_fuel
  | fuel + 1, t, p =>
    if p.at_primary then
      match primary p with
      | .ok (t2, p2) =>
        Parser.parse_application_loop primary fuel (Term.Application t t2) p2
      | .error e => .error e
    else .ok (t, p)

/-- Modelled from the spec: `Parser::parse_application`: a primary and the primaries
juxtaposed to it. -/
def Parser.parse_application (primary : Parser → Except ParseError (Term × Parser))
    (fuel : Nat) (p : Parser) : Except ParseError (Term × Parser) :=
  match primary p with
  | .ok (t, p1) => Parser.parse_application_loop primary fuel t p1
  | .error e => .error e

/-- Modelled from the spec: `Parser::parse_expression`, `expression := application`. The
fuel bounds the nesting of expressions and the number of primaries of an application. -/
def Parser.parse_expression : Nat → Parser → Except ParseError (Term × Parser)
  | 0, _ => .error ParseError.out_of_fuel
  | fuel + 1, p =>
    Parser.parse_application (Parser.parse_primary (Parser.parse_expression fuel)) (fuel + 1) p

/-- Parsing of the whole buffer of a lexer as one expression: the parser is constructed on
the lexer and `parse_expression` runs with fuel for every token of the buffer. -/
def parse_expression_of (lex : Lexer) : Except ParseError (Term × Parser) :=
  match Parser.init lex with
  | .ok p => Parser.parse_expression (lex.buf.length + 2) p
  | .error e => .error e

/-- The primaries that follow each other from the state `p`, up to a state whose lookahead
begins no primary. -/
inductive Parser.primaries (primary : Parser → Except ParseError (Term × Parser)) :
    Parser → List Term → Parser → Prop where
  | done (p : Parser) (h : p.at_primary = false) : Parser.primaries primary p [] p
  | more (p p1 p2 : Parser) (t : Term) (ts : List Term) (h : p.at_primary = true)
      (hp : primary p = .ok (t, p1)) (hr : Parser.primaries primary p1 ts p2) :
      Parser.primaries primary p (t :: ts) p2

/-! ## Character classes of the lexer -/

/-- Horizontal whitespace: the cases of the switch of `consume_horizontal_ws`. -/
def is_hspace (c : Char) : Bool := decide (c = ' ' ∨ c = '\t')

/-- Vertical whitespace: the cases of the switch of `consume_vertical_ws`. -/
def is_vspace (c : Char) : Bool := decide (c = '\r' ∨ c = '\n' ∨ c = vtab)

/-- Whitespace: what `consume_ws` consumes. -/
def is_space (c : Char) : Bool := is_hspace c || is_vspace c

/-- The punctuators: the cases of the switch of `operator()`. -/
def punct_kind (c : Char) : Option Symbol.Kind :=
  if c = '(' then some Symbol.Kind.Lparen
  else if c = ')' then some Symbol.Kind.Rparen
  else if c = '\\' then some Symbol.Kind.Backslash
  else if c = '.' then some Symbol.Kind.Dot
  else if c = ';' then some Symbol.Kind.Semicolon
  else if c = '=' then some Symbol.Kind.Equal
  else none

/-- A letter or an underscore. -/
def is_ident_start (c : Char) : Bool := isalpha c || c == '_'

/-- A letter, a digit or an underscore. -/
def is_ident_char (c : Char) : Bool := isalnum c || c == '_'

/-- A table that holds what this lexer interns: every interned spelling that begins with a
letter or an underscore is tagged `Identifier`, every other one `Error`. The empty table is
such a table, and `operator()` keeps a table so. -/
def symbol_table.lexical (t : symbol_table) : Prop :=
  ∀ e ∈ t.syms, e.kind =
    if e.spelling.head?.any is_ident_start then Symbol.Kind.Identifier
    else Symbol.Kind.Error

/-- The location after one more character. -/
def Location.step (l : Location) (c : Char) : Location :=
  if is_vspace c then { line := l.line + 1, column := 1 }
  else { line := l.line, column := l.column + 1 }

/-- The location after a run of characters. -/
def Location.after (l : Location) (cs : List Char) : Location :=
  cs.foldl Location.step l

/-- The rest of the buffer, from the scan position on. -/
def Lexer.rest (lx : Lexer) : List Char := lx.buf.drop lx.first

/-- The state with the scan position moved `n` characters on, at location `l`. -/
def Lexer.moved (lx : Lexer) (n : Nat) (l : Location) : Lexer :=
  { lx with first := lx.first + n, loc := l }

/-- Lexicographic order on locations, line first. -/
def Location.le (a b : Location) : Prop :=
  a.line < b.line ∨ (a.line = b.line ∧ a.column ≤ b.column)

/-- Strict lexicographic order on locations, line first. -/
def Location.lt (a b : Location) : Prop :=
  a.line < b.line ∨ (a.line = b.line ∧ a.column < b.column)

/-- The line of the byte at offset `p` of `s`: one more than the number of line breaks
(CR, LF, VT) before it. -/
def line_at (s : List Char) (p : Nat) : Nat :=
  1 + (s.take p).countP is_vspace

/-- The column of the byte at offset `p` of `s`: one more than the number of bytes between
the last line break before `p` (the start of `s` when there is none) and `p`. -/
def column_at (s : List Char) (p : Nat) : Nat :=
  1 + ((s.take p).reverse.takeWhile (fun c => !is_vspace c)).length

/-- The scan position after the whitespace before the next token: the value of the local
`start` of `operator()`. -/
def Lexer.token_start (lx : Lexer) : Nat :=
  match lx.consume_ws with
  | .ok (_, lx1) => lx1.first
  | .error _ => lx.first

/-- The extents `(start, end)` in the buffer of the tokens returned by repeated calls of
`Lexer::operator()`, up to the first `Eof` (which has none): `start` is the scan position
after the whitespace before the token, `end` the scan position after the call. -/
def Lexer.extents : Nat → Lexer → Except Fault (List (Nat × Nat))
  | 0, _ => .error Fault.out_of_fuel
  | fuel + 1, lx =>
    match lx.operator_call with
    | .error e => .error e
    | .ok lx1 =>
      if lx1.tok.sym = lx1.table.get Symbol.Kind.Eof then .ok []
      else
        match Lexer.extents fuel lx1 with
        | .ok es => .ok ((lx.token_start, lx1.first) :: es)
        | .error e => .error e

/-- The extents of all the tokens of the rest of the buffer. -/
def Lexer.token_extents (lx : Lexer) : Except Fault (List (Nat × Nat)) :=
  Lexer.extents (lx.last - lx.first + 1) lx

/-! ## A reference description of one call

What `operator()` recognises after the whitespace, as a function of the rest of the buffer.
The theorem `Lexer.operator_call_eq_step` shows that `operator()` computes it. -/

/-- What `operator()` finds at a character that is not whitespace. -/
inductive Lexeme where
  | punct (kind : Symbol.Kind)
  | ident (spelling : List Char)
  | error (c : Char)
deriving DecidableEq, Repr

/-- Number of characters of a lexeme. -/
def Lexeme.length : Lexeme → Nat
  | .punct _ => 1
  | .ident sp => sp.length
  | .error _ => 1

/-- The symbol of a lexeme, as the `make_` functions get it from the table. -/
def Lexeme.intern (t : symbol_table) : Lexeme → SymbolRef × symbol_table
  | .punct k => (t.get k, t)
  | .ident sp => t.put Symbol.Kind.Identifier sp
  | .error c => t.get_text [c]

/-- The lexeme at the head of a list that does not begin with whitespace. -/
def next_lexeme : List Char → Option Lexeme
  | [] => none
  | c :: tl =>
    match punct_kind c with
    | some k => some (Lexeme.punct k)
    | none =>
      if is_ident_start c then some (Lexeme.ident (c :: tl.takeWhile is_ident_char))
      else some (Lexeme.error c)

/-- The state after a token of `n` characters with symbol and table `r` that follows the
whitespace `ws`. -/
def Lexer.with_token (lx : Lexer) (ws : List Char) (n : Nat) (r : SymbolRef × symbol_table) :
    Lexer :=
  { table := r.2, buf := lx.buf, first := lx.first + ws.length + n,
    tok := { sym := r.1, loc := lx.loc.after ws },
    loc := { line := (lx.loc.after ws).line, column := (lx.loc.after ws).column + n } }

/-- The state one call of `operator()` leaves, described from the rest of the buffer. -/
def Lexer.step (lx : Lexer) : Lexer :=
  match next_lexeme (lx.rest.dropWhile is_space) with
  | none =>
    (lx.moved (lx.rest.takeWhile is_space).length
      (lx.loc.after (lx.rest.takeWhile is_space))).make_eof
  | some x => lx.with_token (lx.rest.takeWhile is_space) x.length (x.intern lx.table)

/-- The characters of a lexeme. -/
def Lexeme.chars : Lexeme → List Char
  | .punct k => k.spelling
  | .ident sp => sp
  | .error c => [c]

/-- The location of the lexer is the one of its scan position in the buffer, counted from
(1,1) at the start of the buffer, and the scan position is in the buffer. -/
def Lexer.tracked (lx : Lexer) : Prop :=
  lx.first ≤ lx.buf.length ∧
    lx.loc = Location.after { line := 1, column := 1 } (lx.buf.take lx.first)

/-- The handle `r` is the one the table has for the spelling `s`: the index of the first
entry spelled `s`. -/
def symbol_table.interned (t : symbol_table) (r : SymbolRef) (s : List Char) : Prop :=
  ∃ i, r = SymbolRef.text i ∧ symbol_table.find t.syms s 0 = some i

/-- Number of characters of the lexeme found, none at the end of the input. -/
def lexeme_length (o : Option Lexeme) : Nat :=
  match o with
  | none => 0
  | some x => x.length

/-- The two lexers are at corresponding places of the buffers `u ++ v` and `u ++ (w ++ v)`
with the same table. -/
def Lexer.ws_inserted (u w v : List Char) (lx1 lx2 : Lexer) : Prop :=
  lx1.buf = u ++ v ∧ lx2.buf = u ++ (w ++ v) ∧ lx1.table = lx2.table ∧
  lx1.first ≤ (u ++ v).length ∧
  ((lx1.first ≤ u.length ∧ lx2.first = lx1.first) ∨
   (u.length ≤ lx1.first ∧ lx2.first = lx1.first + w.length))

/-- The handle `r` is spelled `s` in the table `t`, and in every table that `t` grows into:
`r` is the canonical symbol of a kind spelled `s`, or the handle the table has for `s`. -/
def symbol_table.spells (t : symbol_table) (r : SymbolRef) (s : List Char) : Prop :=
  (∃ k, r = SymbolRef.canon k ∧ k.spelling = s) ∨ t.interned r s

/-- The kind that the switch of `operator()` and `is_identifier` choose from the first
character that is not whitespace; `none` when no such character is left. -/
def first_char_kind : Option Char → Symbol.Kind
  | none => Symbol.Kind.Eof
  | some c =>
    match punct_kind c with
    | some k => k
    | none => if is_ident_start c then Symbol.Kind.Identifier else Symbol.Kind.Error

/-- The parser after one more token has been pulled from the lexer. -/
def Parser.next (p : Parser) : Parser :=
  { lex := p.lex.step, tok := p.lex.step.tok }

/-- The lexer of the parser is in its buffer and its table holds what the lexer interns. -/
def Parser.sound (p : Parser) : Prop :=
  p.lex.first ≤ p.lex.buf.length ∧ p.lex.table.lexical

/-- The spelling of an identifier: a letter or an underscore, then letters, digits and
underscores. -/
def is_identifier_spelling : List Char → Bool
  | [] => false
  | c :: tl => is_ident_start c && tl.all is_ident_char

/-- The identifiers `xs`, each after one space. -/
def spaced (xs : List (List Char)) : List Char :=
  xs.flatMap (fun x => ' ' :: x)

/-- The kind under which the table already registers the spelling `s`, none when no entry
has this spelling: the tag of the first entry spelled `s`, the one `put` and `get` return. -/
def symbol_table.registered (t : symbol_table) (s : List Char) : Option Symbol.Kind :=
  (symbol_table.find t.syms s 0).bind (fun i => (t.syms[i]?).map Symbol.kind)

/-! ## Basic facts -/

theorem is_ident_start_char {c : Char} (h : is_ident_start c = true) :
    is_ident_char c = true := by
  simp only [is_ident_start, is_ident_char, isalpha, isalnum, Char.isAlphanum,
    Bool.or_eq_true] at h ⊢
  tauto

theorem is_ident_char_not_space {c : Char} (h : is_ident_char c = true) :
    is_space c = false := by
  by_contra hs
  simp only [Bool.not_eq_false, is_space, is_hspace, is_vspace, Bool.or_eq_true,
    decide_eq_true_eq] at hs
  rcases hs with (rfl | rfl) | (rfl | rfl | rfl) <;> revert h <;> decide

theorem is_ident_char_not_punct {c : Char} (h : is_ident_char c = true) :
    punct_kind c = none := by
  by_contra hs
  have : c = '(' ∨ c = ')' ∨ c = '\\' ∨ c = '.' ∨ c = ';' ∨ c = '=' := by
    by_contra hn
    simp only [not_or] at hn
    obtain ⟨h1, h2, h3, h4, h5, h6⟩ := hn
    simp [punct_kind, h1, h2, h3, h4, h5, h6] at hs
  rcases this with rfl | rfl | rfl | rfl | rfl | rfl <;> revert h <;> decide

theorem punct_kind_space {c : Char} (hs : is_space c = true) : punct_kind c = none := by
  simp only [is_space, is_hspace, is_vspace, Bool.or_eq_true, decide_eq_true_eq] at hs
  rcases hs with (rfl | rfl) | (rfl | rfl | rfl) <;> decide

theorem punct_not_space {c : Char} {k : Symbol.Kind} (h : punct_kind c = some k) :
    is_space c = false := by
  by_contra hs
  rw [punct_kind_space (by simpa using hs)] at h
  cases h

theorem drop_cons_getElem? {buf : List Char} {n : Nat} {c : Char} {r : List Char}
    (h : buf.drop n = c :: r) : buf[n]? = some c := by
  have := List.getElem?_drop buf n 0
  rw [h] at this
  simpa using this.symm

theorem drop_cons_lt {buf : List Char} {n : Nat} {c : Char} {r : List Char}
    (h : buf.drop n = c :: r) : n < buf.length := by
  by_contra hn
  rw [List.drop_of_length_le (by omega)] at h
  cases h

theorem drop_cons_succ {buf : List Char} {n : Nat} {c : Char} {r : List Char}
    (h : buf.drop n = c :: r) : buf.drop (n + 1) = r := by
  have : buf.drop (n + 1) = (buf.drop n).drop 1 := by
    rw [List.drop_drop]
  rw [this, h, List.drop_one, List.tail_cons]

theorem drop_append_length {l a b : List Char} {n : Nat} (h : l.drop n = a ++ b) :
    l.drop (n + a.length) = b := by
  rw [← List.drop_drop, h, List.drop_left]

theorem Lexer.deref_of_rest {lx : Lexer} {c : Char} {r : List Char}
    (h : lx.rest = c :: r) : lx.deref = .ok c := by
  simp [Lexer.deref, drop_cons_getElem? h]

theorem Lexer.is_eof_of_rest_cons {lx : Lexer} {c : Char} {r : List Char}
    (h : lx.rest = c :: r) : lx.is_eof = false := by
  have := drop_cons_lt h
  simp only [Lexer.is_eof, Lexer.last, beq_eq_false_iff_ne, ne_eq]
  omega

theorem Lexer.is_eof_of_rest_nil {lx : Lexer} (hle : lx.first ≤ lx.buf.length)
    (h : lx.rest = []) : lx.is_eof = true := by
  have : lx.buf.length ≤ lx.first := by
    simpa [Lexer.rest] using h
  simp only [Lexer.is_eof, Lexer.last, beq_iff_eq]
  omega

theorem Lexer.rest_moved (lx : Lexer) (n : Nat) (l : Location) :
    (lx.moved n l).rest = lx.rest.drop n := by
  simp [Lexer.rest, Lexer.moved, List.drop_drop, Nat.add_comm]

theorem Lexer.moved_zero (lx : Lexer) : lx.moved 0 lx.loc = lx := rfl

theorem Lexer.moved_moved (lx : Lexer) (m n : Nat) (l l' : Location) :
    (lx.moved m l).moved n l' = lx.moved (m + n) l' := by
  simp [Lexer.moved, Nat.add_assoc]

theorem Lexer.rest_cons_moved {lx : Lexer} {c : Char} {r : List Char} (l : Location)
    (h : lx.rest = c :: r) : (lx.moved 1 l).rest = r := by
  rw [Lexer.rest_moved, h]; rfl

theorem Lexer.first_le_of_rest_cons {lx : Lexer} {c : Char} {r : List Char}
    (h : lx.rest = c :: r) : lx.first + 1 ≤ lx.buf.length :=
  drop_cons_lt h

/-! ## The symbol table -/

theorem symbol_table.find_some {l : List Symbol} {s : List Char} :
    ∀ {b i : Nat}, symbol_table.find l s b = some i →
      b ≤ i ∧ (∃ e, l[i - b]? = some e ∧ e.spelling = s) ∧
        ∀ j, j < i - b → ∀ e, l[j]? = some e → e.spelling ≠ s := by
  induction l with
  | nil => intro b i h; simp [symbol_table.find] at h
  | cons a l ih =>
    intro b i h
    simp only [symbol_table.find] at h
    split_ifs at h with ha
    · cases h
      refine ⟨le_refl _, ⟨a, by simp, ha⟩, ?_⟩
      intro j hj
      simp at hj
    · obtain ⟨h1, ⟨e, he, hes⟩, h3⟩ := ih h
      have hi : i - b = (i - (b + 1)) + 1 := by omega
      refine ⟨by omega, ⟨e, by rw [hi]; simpa using he, hes⟩, ?_⟩
      intro j hj e' he'
      cases j with
      | zero =>
        simp only [List.getElem?_cons_zero, Option.some.injEq] at he'
        subst he'
        exact ha
      | succ j =>
        simp only [List.getElem?_cons_succ] at he'
        exact h3 j (by omega) e' he'

theorem symbol_table.find_none {l : List Symbol} {s : List Char} :
    ∀ {b : Nat}, symbol_table.find l s b = none → ∀ e ∈ l, e.spelling ≠ s := by
  induction l with
  | nil => intro b _ e he; simp at he
  | cons a l ih =>
    intro b h e he
    simp only [symbol_table.find] at h
    split_ifs at h with ha
    rcases List.mem_cons.mp he with rfl | he'
    · exact ha
    · exact ih h e he'

/-- The symbol returned by `put` is in the table returned, it is spelled as asked, and it is
an old entry of the table or is tagged as asked. -/
theorem symbol_table.put_deref (t : symbol_table) (k : Symbol.Kind) (s : List Char) :
    ∃ e, (t.put k s).2.deref (t.put k s).1 = some e ∧ e.spelling = s ∧
      (e ∈ t.syms ∨ e.kind = k) := by
  unfold symbol_table.put
  cases h : symbol_table.find t.syms s 0 with
  | none =>
    exact ⟨{ kind := k, spelling := s }, by simp [symbol_table.deref], rfl, Or.inr rfl⟩
  | some i =>
    obtain ⟨_, ⟨e, he, hes⟩, _⟩ := symbol_table.find_some h
    simp only [Nat.sub_zero] at he
    exact ⟨e, by simpa [symbol_table.deref] using he, hes, Or.inl (List.getElem?_mem he)⟩

theorem symbol_table.put_spelling (t : symbol_table) (k : Symbol.Kind) (s : List Char)
    (l : Location) : Token.spelling (t.put k s).2 { sym := (t.put k s).1, loc := l } = s := by
  obtain ⟨e, he, hes, _⟩ := symbol_table.put_deref t k s
  simp [Token.spelling, he, hes]

theorem symbol_table.put_kind_lexical (t : symbol_table) (k : Symbol.Kind) (s : List Char)
    (l : Location) (ht : t.lexical)
    (hk : k = if s.head?.any is_ident_start then Symbol.Kind.Identifier
      else Symbol.Kind.Error) :
    Token.kind (t.put k s).2 { sym := (t.put k s).1, loc := l } = some k := by
  obtain ⟨e, he, hes, hmem⟩ := symbol_table.put_deref t k s
  simp only [Token.kind, he, Option.map_some', Option.some.injEq]
  rcases hmem with hmem | hmem
  · rw [ht e hmem, hes, hk]
  · exact hmem

/-- The kind of the symbol `put` returns: the kind under which the spelling was registered,
the kind asked for when it was not. -/
theorem symbol_table.put_kind (t : symbol_table) (k : Symbol.Kind) (s : List Char)
    (l : Location) :
    Token.kind (t.put k s).2 { sym := (t.put k s).1, loc := l } =
      some ((t.registered s).getD k) := by
  unfold symbol_table.put symbol_table.registered
  cases h : symbol_table.find t.syms s 0 with
  | none => simp [Token.kind, symbol_table.deref]
  | some i =>
    obtain ⟨_, ⟨e, he, _⟩, _⟩ := symbol_table.find_some h
    simp only [Nat.sub_zero] at he
    simp [Token.kind, symbol_table.deref, he]

theorem symbol_table.put_lexical (t : symbol_table) (k : Symbol.Kind) (s : List Char)
    (ht : t.lexical)
    (hk : k = if s.head?.any is_ident_start then Symbol.Kind.Identifier
      else Symbol.Kind.Error) :
    (t.put k s).2.lexical := by
  unfold symbol_table.put
  cases h : symbol_table.find t.syms s 0 with
  | none =>
    intro e he
    simp only [List.mem_append, List.mem_singleton] at he
    rcases he with he | rfl
    · exact ht e he
    · exact hk
  | some i => exact ht

theorem symbol_table.find_append_some {l : List Symbol} {s : List Char} (l' : List Symbol) :
    ∀ {b i : Nat}, symbol_table.find l s b = some i →
      symbol_table.find (l ++ l') s b = some i := by
  induction l with
  | nil => intro b i h; simp [symbol_table.find] at h
  | cons a l ih =>
    intro b i h
    simp only [symbol_table.find, List.cons_append] at h ⊢
    split_ifs at h ⊢ with ha
    · exact h
    · exact ih h

theorem symbol_table.find_append_none {l : List Symbol} {s : List Char} (k : Symbol.Kind) :
    ∀ {b : Nat}, symbol_table.find l s b = none →
      symbol_table.find (l ++ [{ kind := k, spelling := s }]) s b = some (b + l.length) := by
  induction l with
  | nil => intro b _; simp [symbol_table.find]
  | cons a l ih =>
    intro b h
    simp only [symbol_table.find, List.cons_append] at h ⊢
    split_ifs at h ⊢ with ha
    have := ih h
    simp only [List.append_eq, List.length_cons] at this ⊢
    rw [this]
    congr 1
    omega

theorem symbol_table.put_interned (t : symbol_table) (k : Symbol.Kind) (s : List Char) :
    (t.put k s).2.interned (t.put k s).1 s := by
  unfold symbol_table.put
  cases h : symbol_table.find t.syms s 0 with
  | none =>
    refine ⟨t.syms.length, rfl, ?_⟩
    have := symbol_table.find_append_none k h
    simpa using this
  | some i => exact ⟨i, rfl, h⟩

theorem symbol_table.interned_put {t : symbol_table} {r : SymbolRef} {s : List Char}
    (h : t.interned r s) (k : Symbol.Kind) (s' : List Char) : (t.put k s').2.interned r s := by
  obtain ⟨i, hr, hf⟩ := h
  unfold symbol_table.put
  cases symbol_table.find t.syms s' 0 with
  | none => exact ⟨i, hr, symbol_table.find_append_some _ hf⟩
  | some j => exact ⟨i, hr, hf⟩

theorem symbol_table.interned_spelling {t : symbol_table} {r : SymbolRef} {s : List Char}
    (h : t.interned r s) (l : Location) : Token.spelling t { sym := r, loc := l } = s := by
  obtain ⟨i, rfl, hf⟩ := h
  obtain ⟨_, ⟨e, he, hes⟩, _⟩ := symbol_table.find_some hf
  simp only [Nat.sub_zero] at he
  simp [Token.spelling, symbol_table.deref, he, hes]

theorem symbol_table.interned_inj {t : symbol_table} {r r' : SymbolRef} {s s' : List Char}
    (h : t.interned r s) (h' : t.interned r' s') : r = r' ↔ s = s' := by
  obtain ⟨i, rfl, hf⟩ := h
  obtain ⟨i', rfl, hf'⟩ := h'
  constructor
  · intro hi
    simp only [SymbolRef.text.injEq] at hi
    subst hi
    obtain ⟨_, ⟨e, he, hes⟩, _⟩ := symbol_table.find_some hf
    obtain ⟨_, ⟨e', he', hes'⟩, _⟩ := symbol_table.find_some hf'
    rw [he] at he'
    cases he'
    rw [← hes, ← hes']
  · intro hs
    subst hs
    rw [hf] at hf'
    cases hf'
    rfl

/-! ## Whitespace -/

theorem Lexer.consume_ws_cond_space {lx : Lexer} {c : Char} {r : List Char}
    (h : lx.rest = c :: r) (hc : is_space c = true) :
    lx.consume_ws_cond = .ok (true, lx.moved 1 (lx.loc.step c)) := by
  simp only [Lexer.consume_ws_cond, Lexer.is_eof_of_rest_cons h, Lexer.consume_horizontal_ws,
    Lexer.consume_vertical_ws, Lexer.deref_of_rest h]
  by_cases hh : c = ' ' ∨ c = '\t'
  · have hv : is_vspace c = false := by
      rcases hh with rfl | rfl <;> decide
    simp [hh, Lexer.moved, Location.step, hv]
  · have hv : c = '\r' ∨ c = '\n' ∨ c = vtab := by
      simpa [is_space, is_hspace, is_vspace, hh] using hc
    have hv' : is_vspace c = true := by simpa [is_vspace] using hv
    simp [hh, hv, Lexer.moved, Location.step, hv', Lexer.consume_vertical_ws,
      Lexer.deref_of_rest h]

theorem Lexer.consume_ws_cond_other {lx : Lexer} {c : Char} {r : List Char}
    (h : lx.rest = c :: r) (hc : is_space c = false) :
    lx.consume_ws_cond = .ok (false, lx) := by
  simp only [is_space, is_hspace, is_vspace, Bool.or_eq_false_iff, decide_eq_false_iff_not] at hc
  simp [Lexer.consume_ws_cond, Lexer.is_eof_of_rest_cons h, Lexer.consume_horizontal_ws,
    Lexer.consume_vertical_ws, Lexer.deref_of_rest h, hc.1, hc.2]

theorem Lexer.consume_ws_cond_eof {lx : Lexer} (hle : lx.first ≤ lx.buf.length)
    (h : lx.rest = []) : lx.consume_ws_cond = .ok (false, lx) := by
  simp [Lexer.consume_ws_cond, Lexer.is_eof_of_rest_nil hle h]

theorem Lexer.consume_ws_loop_eq (ws r : List Char) (hws : ∀ c ∈ ws, is_space c = true)
    (hr : ∀ c ∈ r.head?, is_space c = false) :
    ∀ (fuel : Nat) (lx : Lexer) (res : Option Bool), lx.rest = ws ++ r →
      lx.first ≤ lx.buf.length → ws.length < fuel →
      Lexer.consume_ws_loop fuel lx res =
        .ok (if ws = [] then res else some true, lx.moved ws.length (lx.loc.after ws)) := by
  induction ws with
  | nil =>
    intro fuel lx res hrest hle hfuel
    obtain ⟨f, rfl⟩ : ∃ f, fuel = f + 1 := ⟨fuel - 1, by simp at hfuel; omega⟩
    cases r with
    | nil =>
      simp [Lexer.consume_ws_loop, Lexer.consume_ws_cond_eof hle (by simpa using hrest),
        Location.after, Lexer.moved_zero]
    | cons c r =>
      have hc : is_space c = false := hr c (by simp)
      simp [Lexer.consume_ws_loop, Lexer.consume_ws_cond_other (by simpa using hrest) hc,
        Location.after, Lexer.moved_zero]
  | cons c ws ih =>
    intro fuel lx res hrest hle hfuel
    obtain ⟨f, rfl⟩ : ∃ f, fuel = f + 1 := ⟨fuel - 1, by simp at hfuel; omega⟩
    have hc : is_space c = true := hws c (by simp)
    have hrest' : lx.rest = c :: (ws ++ r) := by simpa using hrest
    simp only [Lexer.consume_ws_loop, Lexer.consume_ws_cond_space hrest' hc]
    rw [ih (fun x hx => hws x (by simp [hx])) f _ (some true)
      (Lexer.rest_cons_moved _ hrest') (Lexer.first_le_of_rest_cons hrest')
      (by simp at hfuel; omega)]
    simp only [Lexer.moved, Location.after, List.foldl_cons, List.length_cons, reduceCtorEq,
      if_false, if_true, ite_self]
    congr 3
    omega

theorem length_le_of_rest {lx : Lexer} {a b : List Char} (h : lx.rest = a ++ b)
    (hle : lx.first ≤ lx.buf.length) : lx.first + a.length + b.length = lx.buf.length := by
  have := congrArg List.length h
  simp [Lexer.rest] at this
  omega

/-- What `consume_ws` does: it consumes the whitespace `ws` at the scan position. -/
theorem Lexer.consume_ws_eq {lx : Lexer} {ws r : List Char} (hrest : lx.rest = ws ++ r)
    (hws : ∀ c ∈ ws, is_space c = true) (hr : ∀ c ∈ r.head?, is_space c = false)
    (hle : lx.first ≤ lx.buf.length) :
    lx.consume_ws =
      .ok (if ws = [] then none else some true, lx.moved ws.length (lx.loc.after ws)) := by
  have := length_le_of_rest hrest hle
  exact Lexer.consume_ws_loop_eq ws r hws hr _ lx none hrest hle
    (by simp only [Lexer.last]; omega)

/-! ## Identifiers -/

theorem Lexer.is_identifier_rest_cons {lx : Lexer} {c : Char} {r : List Char}
    (h : lx.rest = c :: r) : lx.is_identifier_rest = .ok (is_ident_char c) := by
  simp only [Lexer.is_identifier_rest, Lexer.is_alphanumeric, Lexer.is_char,
    Lexer.is_eof_of_rest_cons h, Lexer.deref_of_rest h, is_ident_char]
  cases isalnum c <;> simp

theorem Lexer.is_identifier_rest_nil {lx : Lexer} (hle : lx.first ≤ lx.buf.length)
    (h : lx.rest = []) : lx.is_identifier_rest = .ok false := by
  simp [Lexer.is_identifier_rest, Lexer.is_alphanumeric, Lexer.is_char,
    Lexer.is_eof_of_rest_nil hle h]

theorem Lexer.is_identifier_start_cons {lx : Lexer} {c : Char} {r : List Char}
    (h : lx.rest = c :: r) : lx.is_identifier_start = .ok (is_ident_start c) := by
  simp only [Lexer.is_identifier_start, Lexer.is_letter, Lexer.is_char,
    Lexer.is_eof_of_rest_cons h, Lexer.deref_of_rest h, is_ident_start]
  cases isalpha c <;> simp

theorem Lexer.is_identifier_loop_eq (run r : List Char)
    (hrun : ∀ c ∈ run, is_ident_char c = true) (hr : ∀ c ∈ r.head?, is_ident_char c = false) :
    ∀ (fuel : Nat) (lx : Lexer), lx.rest = run ++ r → lx.first ≤ lx.buf.length →
      run.length < fuel →
      Lexer.is_identifier_loop fuel lx = .ok (lx.moved run.length lx.loc) := by
  induction run with
  | nil =>
    intro fuel lx hrest hle hfuel
    obtain ⟨f, rfl⟩ : ∃ f, fuel = f + 1 := ⟨fuel - 1, by simp at hfuel; omega⟩
    cases r with
    | nil =>
      simp [Lexer.is_identifier_loop, Lexer.is_identifier_rest_nil hle (by simpa using hrest),
        Lexer.moved_zero]
    | cons c r =>
      have hc : is_ident_char c = false := hr c (by simp)
      simp [Lexer.is_identifier_loop, Lexer.is_identifier_rest_cons (by simpa using hrest), hc,
        Lexer.moved_zero]
  | cons c run ih =>
    intro fuel lx hrest hle hfuel
    obtain ⟨f, rfl⟩ : ∃ f, fuel = f + 1 := ⟨fuel - 1, by simp at hfuel; omega⟩
    have hc : is_ident_char c = true := hrun c (by simp)
    have hrest' : lx.rest = c :: (run ++ r) := by simpa using hrest
    have hadv : lx.advance = lx.moved 1 lx.loc := rfl
    simp only [Lexer.is_identifier_loop, Lexer.is_identifier_rest_cons hrest', hc, hadv]
    rw [ih (fun x hx => hrun x (by simp [hx])) f _
      (Lexer.rest_cons_moved _ hrest') (Lexer.first_le_of_rest_cons hrest')
      (by simp at hfuel; omega)]
    simp only [Lexer.moved, List.length_cons]
    congr 2
    omega

theorem takeWhile_append_dropWhile_head (p : Char → Bool) (l : List Char) :
    ∀ c ∈ (l.dropWhile p).head?, p c = false := by
  induction l with
  | nil => simp
  | cons a l ih =>
    intro c hc
    by_cases ha : p a = true
    · rw [List.dropWhile_cons_of_pos ha] at hc
      exact ih c hc
    · rw [List.dropWhile_cons_of_neg ha] at hc
      simp only [List.head?_cons, Option.mem_def, Option.some.injEq] at hc
      subst hc
      simpa using ha

theorem take_length_takeWhile (p : Char → Bool) (l : List Char) :
    l.take (l.takeWhile p).length = l.takeWhile p := by
  induction l with
  | nil => simp
  | cons a l ih =>
    by_cases ha : p a = true
    · simp [List.takeWhile_cons, ha, ih]
    · simp [List.takeWhile_cons, ha]

theorem drop_length_takeWhile (p : Char → Bool) (l : List Char) :
    l.drop (l.takeWhile p).length = l.dropWhile p := by
  induction l with
  | nil => simp
  | cons a l ih =>
    by_cases ha : p a = true
    · simp [List.takeWhile_cons, List.dropWhile_cons, ha, ih]
    · simp [List.takeWhile_cons, List.dropWhile_cons, ha]

/-- What `is_identifier` does at a letter or underscore: it consumes the maximal run of
letters, digits and underscores. -/
theorem Lexer.is_identifier_eq_true {lx : Lexer} {c : Char} {tl : List Char}
    (hrest : lx.rest = c :: tl) (hc : is_ident_start c = true) :
    lx.is_identifier =
      .ok (true, lx.moved (1 + (tl.takeWhile is_ident_char).length) lx.loc) := by
  have hle := Lexer.first_le_of_rest_cons hrest
  have hadv : lx.advance = lx.moved 1 lx.loc := rfl
  have hrest1 : (lx.moved 1 lx.loc).rest = tl.takeWhile is_ident_char ++ tl.dropWhile is_ident_char := by
    rw [Lexer.rest_cons_moved _ hrest, List.takeWhile_append_dropWhile]
  have hlen := length_le_of_rest hrest1 hle
  have hloop := Lexer.is_identifier_loop_eq (tl.takeWhile is_ident_char)
    (tl.dropWhile is_ident_char) (fun x hx => (List.mem_takeWhile_imp hx))
    (takeWhile_append_dropWhile_head _ _)
    ((lx.moved 1 lx.loc).last - (lx.moved 1 lx.loc).first + 1) (lx.moved 1 lx.loc) hrest1 hle
    (by simp only [Lexer.last]; omega)
  simp only [Lexer.is_identifier, Lexer.is_identifier_start_cons hrest, hc, hadv, hloop,
    Lexer.moved_moved]
  rfl

theorem Lexer.is_identifier_eq_false {lx : Lexer} {c : Char} {tl : List Char}
    (hrest : lx.rest = c :: tl) (hc : is_ident_start c = false) :
    lx.is_identifier = .ok (false, lx) := by
  simp [Lexer.is_identifier, Lexer.is_identifier_start_cons hrest, hc]

/-! ## One call of `operator()` -/

theorem Lexer.first_le_of_rest {lx : Lexer} {ws tl : List Char} {c : Char}
    (h : lx.rest = ws ++ c :: tl) : lx.first ≤ lx.buf.length := by
  by_contra hn
  have : lx.rest = [] := by
    simp only [Lexer.rest]
    exact List.drop_of_length_le (by omega)
  rw [this] at h
  simp at h

theorem Lexer.rest_after_ws {lx : Lexer} {ws r : List Char} (l : Location)
    (h : lx.rest = ws ++ r) : (lx.moved ws.length l).rest = r := by
  rw [Lexer.rest_moved, h, List.drop_left]

theorem head_not_space {c : Char} {tl : List Char} (hc : is_space c = false) :
    ∀ x ∈ (c :: tl).head?, is_space x = false := by
  intro x hx
  simp only [List.head?_cons, Option.mem_def, Option.some.injEq] at hx
  subst hx
  exact hc

/-- At the end of the input (after whitespace) `operator()` makes the `Eof` token. -/
theorem Lexer.operator_call_eof {lx : Lexer} {ws : List Char} (hrest : lx.rest = ws)
    (hws : ∀ c ∈ ws, is_space c = true) (hle : lx.first ≤ lx.buf.length) :
    lx.operator_call = .ok (lx.moved ws.length (lx.loc.after ws)).make_eof := by
  have hrest' : lx.rest = ws ++ [] := by simpa using hrest
  have hlen := length_le_of_rest hrest' hle
  have h1 : (lx.moved ws.length (lx.loc.after ws)).is_eof = true :=
    Lexer.is_eof_of_rest_nil (by simp only [Lexer.moved]; simp at hlen; omega)
      (Lexer.rest_after_ws _ hrest')
  simp only [Lexer.operator_call, Lexer.consume_ws_eq hrest' hws (by simp) hle, h1, if_true]

/-- At a punctuator `operator()` makes the punctuation token. -/
theorem Lexer.operator_call_punct {lx : Lexer} {ws tl : List Char} {c : Char}
    {k : Symbol.Kind} (hrest : lx.rest = ws ++ c :: tl) (hws : ∀ x ∈ ws, is_space x = true)
    (hc : punct_kind c = some k) :
    lx.operator_call = .ok ((lx.moved ws.length (lx.loc.after ws)).make_punctuation k) := by
  have hle := Lexer.first_le_of_rest hrest
  have hr := Lexer.rest_after_ws (lx.loc.after ws) hrest
  simp only [Lexer.operator_call,
    Lexer.consume_ws_eq hrest hws (head_not_space (punct_not_space hc)) hle,
    Lexer.is_eof_of_rest_cons hr, Lexer.deref_of_rest hr]
  simp only [punct_kind] at hc
  split_ifs at hc ⊢ <;> simp_all

/-- At a letter or underscore `operator()` consumes the maximal run of letters, digits and
underscores and makes the identifier token from it. -/
theorem Lexer.operator_call_ident {lx : Lexer} {ws tl : List Char} {c : Char}
    (hrest : lx.rest = ws ++ c :: tl) (hws : ∀ x ∈ ws, is_space x = true)
    (hc : is_ident_start c = true) :
    lx.operator_call =
      .ok ((lx.moved (ws.length + (1 + (tl.takeWhile is_ident_char).length))
              (lx.loc.after ws)).make_identifer
            (lx.first + ws.length)
            (lx.first + (ws.length + (1 + (tl.takeWhile is_ident_char).length)))) := by
  have hle := Lexer.first_le_of_rest hrest
  have hr := Lexer.rest_after_ws (lx.loc.after ws) hrest
  have hic := is_ident_start_char hc
  have hp := is_ident_char_not_punct hic
  simp only [Lexer.operator_call,
    Lexer.consume_ws_eq hrest hws (head_not_space (is_ident_char_not_space hic)) hle,
    Lexer.is_eof_of_rest_cons hr, Lexer.deref_of_rest hr, Lexer.is_identifier_eq_true hr hc,
    Lexer.moved_moved, Bool.false_eq_true, if_false]
  simp only [punct_kind] at hp
  split_ifs at hp ⊢
  rfl

/-- At any other character `operator()` makes the error token of that character. -/
theorem Lexer.operator_call_error {lx : Lexer} {ws tl : List Char} {c : Char}
    (hrest : lx.rest = ws ++ c :: tl) (hws : ∀ x ∈ ws, is_space x = true)
    (hs : is_space c = false) (hp : punct_kind c = none) (hc : is_ident_start c = false) :
    lx.operator_call =
      .ok { table := (lx.table.get_text [c]).2, buf := lx.buf,
            first := lx.first + ws.length + 1,
            tok := { sym := (lx.table.get_text [c]).1, loc := lx.loc.after ws },
            loc := { line := (lx.loc.after ws).line,
                     column := (lx.loc.after ws).column + 1 } } := by
  have hle := Lexer.first_le_of_rest hrest
  have hr := Lexer.rest_after_ws (lx.loc.after ws) hrest
  simp only [Lexer.operator_call, Lexer.consume_ws_eq hrest hws (head_not_space hs) hle,
    Lexer.is_eof_of_rest_cons hr, Lexer.deref_of_rest hr, Lexer.is_identifier_eq_false hr hc,
    Lexer.make_error, Bool.false_eq_true, if_false]
  simp only [punct_kind] at hp
  split_ifs at hp ⊢
  rfl

/-! ## `operator()` computes the reference description -/

theorem Lexer.operator_call_ident_eq {lx : Lexer} {ws tl : List Char} {c : Char}
    (hrest : lx.rest = ws ++ c :: tl) (hws : ∀ x ∈ ws, is_space x = true)
    (hc : is_ident_start c = true) :
    lx.operator_call =
      .ok (lx.with_token ws (c :: tl.takeWhile is_ident_char).length
        (lx.table.put Symbol.Kind.Identifier (c :: tl.takeWhile is_ident_char))) := by
  have hsp : (lx.buf.drop (lx.first + ws.length)).take
      (lx.first + (ws.length + (1 + (tl.takeWhile is_ident_char).length)) -
        (lx.first + ws.length)) = c :: tl.takeWhile is_ident_char := by
    have h1 : lx.buf.drop (lx.first + ws.length) = c :: tl := drop_append_length hrest
    have h2 : lx.first + (ws.length + (1 + (tl.takeWhile is_ident_char).length)) -
        (lx.first + ws.length) = (tl.takeWhile is_ident_char).length + 1 := by omega
    rw [h1, h2, List.take_succ_cons, take_length_takeWhile]
  rw [Lexer.operator_call_ident hrest hws hc]
  simp only [Lexer.make_identifer, Lexer.moved, hsp, symbol_table.put_spelling,
    Lexer.with_token, List.length_cons]
  congr 2
  omega

theorem Lexer.operator_call_ok_le {lx lx' : Lexer} (h : lx.operator_call = .ok lx') :
    lx.first ≤ lx.buf.length := by
  by_contra hn
  have he : lx.is_eof = false := by
    simp only [Lexer.is_eof, Lexer.last, beq_eq_false_iff_ne, ne_eq]; omega
  have hd : lx.deref = .error Fault.out_of_range := by
    have : lx.buf[lx.first]? = none := List.getElem?_eq_none (by omega)
    simp [Lexer.deref, this]
  simp [Lexer.operator_call, Lexer.consume_ws, Lexer.consume_ws_loop, Lexer.consume_ws_cond,
    he, Lexer.consume_horizontal_ws, hd] at h

theorem Lexer.operator_call_eq_step {lx : Lexer} (hle : lx.first ≤ lx.buf.length) :
    lx.operator_call = .ok lx.step := by
  have hsplit : lx.rest = lx.rest.takeWhile is_space ++ lx.rest.dropWhile is_space :=
    (List.takeWhile_append_dropWhile is_space lx.rest).symm
  have hws : ∀ x ∈ lx.rest.takeWhile is_space, is_space x = true :=
    fun x hx => List.mem_takeWhile_imp hx
  have hhead := takeWhile_append_dropWhile_head is_space lx.rest
  unfold Lexer.step
  cases hr : lx.rest.dropWhile is_space with
  | nil =>
    rw [hr, List.append_nil] at hsplit
    have := Lexer.operator_call_eof hsplit hws hle
    simpa [next_lexeme] using this
  | cons c tl =>
    rw [hr] at hsplit hhead
    have hs : is_space c = false := hhead c (by simp)
    cases hk : punct_kind c with
    | some k =>
      simp only [next_lexeme, hk]
      rw [Lexer.operator_call_punct hsplit hws hk]
      simp [Lexer.make_punctuation, Lexer.moved, Lexer.with_token, Lexeme.intern,
        Lexeme.length]
    | none =>
      cases hi : is_ident_start c with
      | true =>
        simp only [next_lexeme, hk, hi, if_true]
        rw [Lexer.operator_call_ident_eq hsplit hws hi]
        rfl
      | false =>
        simp only [next_lexeme, hk, hi, Bool.false_eq_true, if_false]
        rw [Lexer.operator_call_error hsplit hws hs hk hi]
        rfl

theorem Lexer.operator_call_ok_iff {lx lx' : Lexer} :
    lx.operator_call = .ok lx' ↔ lx.first ≤ lx.buf.length ∧ lx' = lx.step := by
  constructor
  · intro h
    have hle := Lexer.operator_call_ok_le h
    rw [Lexer.operator_call_eq_step hle] at h
    exact ⟨hle, (Except.ok.inj h).symm⟩
  · rintro ⟨hle, rfl⟩
    exact Lexer.operator_call_eq_step hle

/-! ## Facts about one call -/

theorem punct_kind_ne_eof {c : Char} {k : Symbol.Kind} (h : punct_kind c = some k) :
    k ≠ Symbol.Kind.Eof := by
  simp only [punct_kind] at h
  split_ifs at h <;> cases h <;> decide

theorem next_lexeme_intern_ne_eof {r : List Char} {x : Lexeme} (t : symbol_table)
    (h : next_lexeme r = some x) : (x.intern t).1 ≠ SymbolRef.canon Symbol.Kind.Eof := by
  cases r with
  | nil => simp [next_lexeme] at h
  | cons c tl =>
    simp only [next_lexeme] at h
    cases hk : punct_kind c with
    | some k =>
      rw [hk] at h
      cases h
      simp only [Lexeme.intern, symbol_table.get, ne_eq, SymbolRef.canon.injEq]
      exact punct_kind_ne_eof hk
    | none =>
      rw [hk] at h
      simp only at h
      split_ifs at h <;> cases h <;>
        simp only [Lexeme.intern, symbol_table.get_text, symbol_table.put] <;>
        split <;> simp

theorem next_lexeme_length_pos {r : List Char} {x : Lexeme} (h : next_lexeme r = some x) :
    0 < x.length := by
  cases r with
  | nil => simp [next_lexeme] at h
  | cons c tl =>
    simp only [next_lexeme] at h
    cases hk : punct_kind c with
    | some k => rw [hk] at h; cases h; simp [Lexeme.length]
    | none =>
      rw [hk] at h
      simp only at h
      split_ifs at h <;> cases h <;> simp [Lexeme.length]

theorem next_lexeme_eq_none {r : List Char} : next_lexeme r = none ↔ r = [] := by
  cases r with
  | nil => simp [next_lexeme]
  | cons c tl =>
    simp only [next_lexeme, reduceCtorEq, iff_false]
    cases punct_kind c with
    | some k => simp
    | none => simp only; split_ifs <;> simp

theorem Lexer.step_of_none {lx : Lexer}
    (h : next_lexeme (lx.rest.dropWhile is_space) = none) :
    lx.step = (lx.moved (lx.rest.takeWhile is_space).length
      (lx.loc.after (lx.rest.takeWhile is_space))).make_eof := by
  unfold Lexer.step
  rw [h]

theorem Lexer.step_of_some {lx : Lexer} {x : Lexeme}
    (h : next_lexeme (lx.rest.dropWhile is_space) = some x) :
    lx.step = lx.with_token (lx.rest.takeWhile is_space) x.length (x.intern lx.table) := by
  unfold Lexer.step
  rw [h]

theorem Lexer.step_buf (lx : Lexer) : lx.step.buf = lx.buf := by
  unfold Lexer.step
  split <;> rfl

theorem Lexer.step_tok_eof_iff (lx : Lexer) :
    lx.step.tok.sym = SymbolRef.canon Symbol.Kind.Eof ↔ lx.rest.dropWhile is_space = [] := by
  unfold Lexer.step
  cases h : next_lexeme (lx.rest.dropWhile is_space) with
  | none =>
    simp only [Lexer.make_eof, symbol_table.get, true_iff]
    exact next_lexeme_eq_none.mp h
  | some x =>
    have h1 := next_lexeme_intern_ne_eof lx.table h
    have h2 : lx.rest.dropWhile is_space ≠ [] := by
      intro h3
      rw [next_lexeme_eq_none.mpr h3] at h
      cases h
    simp only [Lexer.with_token, h1, h2]

theorem dropWhile_nil_takeWhile (p : Char → Bool) (l : List Char)
    (h : l.dropWhile p = []) : l.takeWhile p = l := by
  have := List.takeWhile_append_dropWhile p l
  rw [h, List.append_nil] at this
  exact this

theorem Lexer.step_first_of_eof {lx : Lexer} (hle : lx.first ≤ lx.buf.length)
    (h : lx.rest.dropWhile is_space = []) : lx.step.first = lx.buf.length := by
  have h1 : lx.step.first = lx.first + lx.rest.length := by
    unfold Lexer.step
    rw [h, dropWhile_nil_takeWhile _ _ h]
    rfl
  rw [h1]
  simp only [Lexer.rest, List.length_drop]
  omega

theorem Lexer.step_fixed {lx : Lexer} (hf : lx.first = lx.buf.length)
    (ht : lx.tok.sym = SymbolRef.canon Symbol.Kind.Eof) : lx.step = lx := by
  have hr : lx.rest = [] := by
    simp only [Lexer.rest]
    exact List.drop_of_length_le (by omega)
  unfold Lexer.step
  rw [hr]
  simp only [List.dropWhile_nil, next_lexeme, List.takeWhile_nil, List.length_nil,
    Location.after, List.foldl_nil, Lexer.make_eof, Lexer.moved, symbol_table.get,
    Nat.add_zero]
  rw [← ht]

theorem Lexer.calls_fixed {lx : Lexer} (h : lx.operator_call = .ok lx) :
    ∀ n, Lexer.calls n lx = .ok lx := by
  intro n
  induction n with
  | zero => rfl
  | succ n ih => simp only [Lexer.calls, h, ih]

/-! ## Order of locations -/

theorem Location.le_refl (a : Location) : a.le a := Or.inr ⟨rfl, Nat.le_refl _⟩

theorem Location.le_trans {a b c : Location} (h1 : a.le b) (h2 : b.le c) : a.le c := by
  simp only [Location.le] at *
  omega

theorem Location.lt_of_lt_of_le {a b c : Location} (h1 : a.lt b) (h2 : b.le c) : a.lt c := by
  simp only [Location.le, Location.lt] at *
  omega

theorem Location.le_of_lt {a b : Location} (h : a.lt b) : a.le b := by
  simp only [Location.le, Location.lt] at *
  omega

theorem Location.le_step (l : Location) (c : Char) : l.le (l.step c) := by
  simp only [Location.step]
  split_ifs <;> simp [Location.le]

theorem Location.le_after (ws : List Char) : ∀ l : Location, l.le (l.after ws) := by
  induction ws with
  | nil => intro l; exact Location.le_refl l
  | cons c ws ih =>
    intro l
    exact Location.le_trans (Location.le_step l c) (ih (l.step c))

/-! ## Locations and offsets -/

theorem Location.after_append (l : Location) (a b : List Char) :
    l.after (a ++ b) = (l.after a).after b := by
  simp [Location.after, List.foldl_append]

theorem Location.after_no_vspace (chars : List Char) :
    ∀ l : Location, (∀ c ∈ chars, is_vspace c = false) →
      l.after chars = { line := l.line, column := l.column + chars.length } := by
  induction chars with
  | nil => intro l _; rfl
  | cons c cs ih =>
    intro l h
    have hc : is_vspace c = false := h c (by simp)
    have := ih (l.step c) (fun x hx => h x (by simp [hx]))
    simp only [Location.after, List.foldl_cons] at this ⊢
    rw [this]
    simp only [Location.step, hc, Bool.false_eq_true, if_false, List.length_cons]
    congr 1
    omega

theorem Location.after_origin (l : List Char) :
    Location.after { line := 1, column := 1 } l =
      { line := 1 + l.countP is_vspace,
        column := 1 + (l.reverse.takeWhile (fun c => !is_vspace c)).length } := by
  induction l using List.reverseRecOn with
  | nil => rfl
  | append_singleton l c ih =>
    rw [Location.after_append, ih]
    simp only [Location.after, List.foldl_cons, List.foldl_nil, Location.step,
      List.countP_append, List.reverse_append, List.reverse_cons, List.reverse_nil,
      List.nil_append, List.singleton_append, List.countP_cons, List.countP_nil]
    cases hc : is_vspace c with
    | true =>
      simp only [if_true, List.takeWhile_cons, hc, Bool.not_true, Bool.false_eq_true, if_false,
        List.length_nil, Nat.add_zero, Nat.add_assoc]
    | false =>
      simp only [Bool.false_eq_true, if_false, List.takeWhile_cons, hc, Bool.not_false, if_true,
        List.length_cons, Nat.add_zero, Nat.add_assoc]

theorem not_space_not_vspace {c : Char} (h : is_space c = false) : is_vspace c = false := by
  simp only [is_space, Bool.or_eq_false_iff] at h
  exact h.2

theorem punct_kind_spelling {c : Char} {k : Symbol.Kind} (h : punct_kind c = some k) :
    k.spelling = [c] := by
  simp only [punct_kind] at h
  split_ifs at h <;> cases h <;> simp_all [Symbol.Kind.spelling]

theorem Lexeme.length_chars {r : List Char} {x : Lexeme} (h : next_lexeme r = some x) :
    x.chars.length = x.length := by
  cases r with
  | nil => simp [next_lexeme] at h
  | cons c tl =>
    simp only [next_lexeme] at h
    cases hk : punct_kind c with
    | some k =>
      rw [hk] at h; cases h
      simp [Lexeme.chars, Lexeme.length, punct_kind_spelling hk]
    | none =>
      rw [hk] at h
      simp only at h
      split_ifs at h <;> cases h <;> simp [Lexeme.chars, Lexeme.length]

/-- The characters of the lexeme are at the head of the list, and none of them is
whitespace. -/
theorem next_lexeme_chars {r : List Char} {x : Lexeme} (h : next_lexeme r = some x)
    (hhead : ∀ c ∈ r.head?, is_space c = false) :
    r = x.chars ++ r.drop x.length ∧ ∀ c ∈ x.chars, is_space c = false := by
  cases r with
  | nil => simp [next_lexeme] at h
  | cons c tl =>
    have hs : is_space c = false := hhead c (by simp)
    simp only [next_lexeme] at h
    cases hk : punct_kind c with
    | some k =>
      rw [hk] at h; cases h
      simp [Lexeme.chars, Lexeme.length, punct_kind_spelling hk, hs]
    | none =>
      rw [hk] at h
      simp only at h
      split_ifs at h with hi <;> cases h
      · simp only [Lexeme.chars, Lexeme.length, List.length_cons, List.drop_succ_cons,
          List.cons_append, List.cons.injEq, true_and, List.mem_cons, forall_eq_or_imp, hs]
        constructor
        · rw [drop_length_takeWhile, List.takeWhile_append_dropWhile]
        · intro a ha
          exact is_ident_char_not_space (List.mem_takeWhile_imp ha)
      · simp [Lexeme.chars, Lexeme.length, hs]

theorem Lexeme.intern_spelling {r : List Char} {x : Lexeme} (h : next_lexeme r = some x)
    (t : symbol_table) (l : Location) :
    Token.spelling (x.intern t).2 { sym := (x.intern t).1, loc := l } = x.chars := by
  cases r with
  | nil => simp [next_lexeme] at h
  | cons c tl =>
    simp only [next_lexeme] at h
    cases hk : punct_kind c with
    | some k =>
      rw [hk] at h; cases h
      simp [Lexeme.chars, Lexeme.intern, Token.spelling, symbol_table.get, symbol_table.deref]
    | none =>
      rw [hk] at h
      simp only at h
      split_ifs at h <;> cases h <;>
        simp only [Lexeme.chars, Lexeme.intern, symbol_table.get_text,
          symbol_table.put_spelling]

theorem take_add_of_drop {l a b : List Char} {n : Nat} (h : l.drop n = a ++ b)
    (hn : n ≤ l.length) : l.take (n + a.length) = l.take n ++ a := by
  have h1 : l = l.take n ++ (a ++ b) := by rw [← h, List.take_append_drop]
  have h2 : (l.take n).length = n := List.length_take_of_le hn
  conv_lhs => rw [h1, ← List.append_assoc]
  have h3 : n + a.length = (l.take n ++ a).length := by simp [h2]
  rw [h3, List.take_left]

theorem Lexer.token_start_eq {lx : Lexer} (hle : lx.first ≤ lx.buf.length) :
    lx.token_start = lx.first + (lx.rest.takeWhile is_space).length := by
  have hsplit : lx.rest = lx.rest.takeWhile is_space ++ lx.rest.dropWhile is_space :=
    (List.takeWhile_append_dropWhile is_space lx.rest).symm
  simp only [Lexer.token_start, Lexer.consume_ws_eq hsplit
    (fun x hx => List.mem_takeWhile_imp hx) (takeWhile_append_dropWhile_head is_space lx.rest)
    hle, Lexer.moved]

/-- The split of the rest of the buffer by one call that finds a lexeme. -/
theorem Lexer.rest_split {lx : Lexer} {x : Lexeme}
    (hx : next_lexeme (lx.rest.dropWhile is_space) = some x) :
    lx.rest = lx.rest.takeWhile is_space ++
      (x.chars ++ (lx.rest.dropWhile is_space).drop x.length) := by
  have h1 := (next_lexeme_chars hx (takeWhile_append_dropWhile_head is_space lx.rest)).1
  rw [← h1, List.takeWhile_append_dropWhile]

theorem Lexer.step_first_le {lx : Lexer} (hle : lx.first ≤ lx.buf.length) :
    lx.first ≤ lx.step.first ∧ lx.step.first ≤ lx.step.buf.length := by
  rw [Lexer.step_buf]
  cases hx : next_lexeme (lx.rest.dropWhile is_space) with
  | none =>
    rw [Lexer.step_first_of_eof hle (next_lexeme_eq_none.mp hx)]
    omega
  | some x =>
    have h1 := Lexer.rest_split hx
    have h2 := length_le_of_rest h1 hle
    have h3 := Lexeme.length_chars hx
    rw [Lexer.step_of_some hx]
    simp only [Lexer.with_token]
    simp only [List.length_append] at h2
    omega

theorem Lexer.step_tracked {lx : Lexer} (h : lx.tracked) : lx.step.tracked := by
  obtain ⟨hle, hloc⟩ := h
  refine ⟨(Lexer.step_first_le hle).2, ?_⟩
  cases hx : next_lexeme (lx.rest.dropWhile is_space) with
  | none =>
    have hd := next_lexeme_eq_none.mp hx
    have hr : lx.rest = lx.rest.takeWhile is_space ++ [] := by
      rw [List.append_nil, dropWhile_nil_takeWhile _ _ hd]
    have ht := take_add_of_drop hr hle
    rw [Lexer.step_of_none hx]
    simp only [Lexer.make_eof, Lexer.moved]
    rw [ht, Location.after_append, ← hloc]
  | some x =>
    have h1 := Lexer.rest_split hx
    have h2 := (next_lexeme_chars hx (takeWhile_append_dropWhile_head is_space lx.rest)).2
    have h3 := Lexeme.length_chars hx
    have ht : lx.buf.take (lx.first + (lx.rest.takeWhile is_space ++ x.chars).length) =
        lx.buf.take lx.first ++ (lx.rest.takeWhile is_space ++ x.chars) :=
      take_add_of_drop (by rw [List.append_assoc]; exact h1) hle
    rw [Lexer.step_of_some hx]
    simp only [Lexer.with_token]
    have h4 : lx.first + (lx.rest.takeWhile is_space).length + x.length =
        lx.first + (lx.rest.takeWhile is_space ++ x.chars).length := by
      simp only [List.length_append]; omega
    rw [h4, ht, Location.after_append, Location.after_append, ← hloc,
      Location.after_no_vspace x.chars _ (fun c hc => not_space_not_vspace (h2 c hc)), h3]

theorem Lexer.calls_tracked : ∀ (n : Nat) {lx0 lx : Lexer}, lx0.tracked →
    Lexer.calls n lx0 = .ok lx → lx.tracked ∧ lx.buf = lx0.buf := by
  intro n
  induction n with
  | zero =>
    intro lx0 lx h0 h
    simp only [Lexer.calls, Except.ok.injEq] at h
    subst h
    exact ⟨h0, rfl⟩
  | succ n ih =>
    intro lx0 lx h0 h
    simp only [Lexer.calls, Lexer.operator_call_eq_step h0.1] at h
    have := ih (Lexer.step_tracked h0) h
    exact ⟨this.1, by rw [this.2, Lexer.step_buf]⟩

theorem Lexer.init_tracked (t : symbol_table) (s : List Char) (tok0 : Token) :
    (Lexer.init t s tok0).tracked :=
  ⟨Nat.zero_le _, rfl⟩

theorem takeWhile_append_of_all (p : Char → Bool) (a b : List Char)
    (ha : ∀ c ∈ a, p c = true) : (a ++ b).takeWhile p = a ++ b.takeWhile p := by
  induction a with
  | nil => rfl
  | cons x a ih =>
    have hx : p x = true := ha x (by simp)
    simp [List.takeWhile_cons, hx, ih (fun c hc => ha c (by simp [hc]))]

theorem hspace_not_vspace {c : Char} (h : is_hspace c = true) : is_vspace c = false := by
  simp only [is_hspace, decide_eq_true_eq] at h
  rcases h with rfl | rfl <;> decide

theorem hspace_is_space {c : Char} (h : is_hspace c = true) : is_space c = true := by
  simp [is_space, h]

theorem line_column_hspace (u w v : List Char) (hw : ∀ c ∈ w, is_hspace c = true) :
    column_at (u ++ w ++ v) (u.length + w.length) = column_at (u ++ v) u.length + w.length ∧
    line_at (u ++ w ++ v) (u.length + w.length) = line_at (u ++ v) u.length := by
  have h1 : (u ++ w ++ v).take (u.length + w.length) = u ++ w := by
    have : u.length + w.length = (u ++ w).length := by simp
    rw [this, List.take_left]
  have h2 : (u ++ v).take u.length = u := List.take_left u v
  have h3 : ∀ c ∈ w, is_vspace c = false := fun c hc => hspace_not_vspace (hw c hc)
  simp only [column_at, line_at, h1, h2, List.reverse_append, List.countP_append]
  constructor
  · rw [takeWhile_append_of_all _ _ _ (fun c hc => by simp [h3 c (List.mem_reverse.mp hc)])]
    simp only [List.length_append, List.length_reverse]
    omega
  · have : w.countP is_vspace = 0 := by
      rw [List.countP_eq_zero]
      intro c hc
      simp [h3 c hc]
    omega

/-! ## Interned symbols along a run -/

theorem punct_kind_ne_identifier {c : Char} {k : Symbol.Kind} (h : punct_kind c = some k) :
    k ≠ Symbol.Kind.Identifier := by
  simp only [punct_kind] at h
  split_ifs at h <;> cases h <;> decide

theorem Lexeme.intern_interned_mono {t : symbol_table} {r : SymbolRef} {s : List Char}
    (h : t.interned r s) (x : Lexeme) : (x.intern t).2.interned r s := by
  cases x with
  | punct k => exact h
  | ident sp => exact symbol_table.interned_put h _ _
  | error c => exact symbol_table.interned_put h _ _

theorem Lexer.step_interned_mono {lx : Lexer} {r : SymbolRef} {s : List Char}
    (h : lx.table.interned r s) : lx.step.table.interned r s := by
  cases hx : next_lexeme (lx.rest.dropWhile is_space) with
  | none => rw [Lexer.step_of_none hx]; exact h
  | some x => rw [Lexer.step_of_some hx]; exact Lexeme.intern_interned_mono h x

theorem Lexer.calls_interned_mono {r : SymbolRef} {s : List Char} :
    ∀ (n : Nat) {lx0 lx : Lexer}, lx0.table.interned r s → Lexer.calls n lx0 = .ok lx →
      lx.table.interned r s := by
  intro n
  induction n with
  | zero =>
    intro lx0 lx h0 h
    simp only [Lexer.calls, Except.ok.injEq] at h
    subst h
    exact h0
  | succ n ih =>
    intro lx0 lx h0 h
    simp only [Lexer.calls] at h
    cases hc : lx0.operator_call with
    | error e => rw [hc] at h; cases h
    | ok lx1 =>
      rw [hc] at h
      obtain ⟨_, rfl⟩ := Lexer.operator_call_ok_iff.mp hc
      exact ih (Lexer.step_interned_mono h0) h

/-- A token of kind `Identifier` returned by a call carries the handle that the table has for
its spelling. -/
theorem Lexer.step_identifier_interned {lx : Lexer}
    (hk : lx.step.tok.kind lx.step.table = some Symbol.Kind.Identifier) :
    lx.step.table.interned lx.step.tok.sym (lx.step.tok.spelling lx.step.table) := by
  cases hx : next_lexeme (lx.rest.dropWhile is_space) with
  | none =>
    rw [Lexer.step_of_none hx] at hk
    simp [Lexer.make_eof, Lexer.moved, Token.kind, symbol_table.get, symbol_table.deref] at hk
  | some x =>
    rw [Lexer.step_of_some hx] at hk ⊢
    simp only [Lexer.with_token] at hk ⊢
    cases hr : lx.rest.dropWhile is_space with
    | nil => rw [hr] at hx; simp [next_lexeme] at hx
    | cons c tl =>
      rw [hr] at hx
      simp only [next_lexeme] at hx
      cases hp : punct_kind c with
      | some k =>
        rw [hp] at hx; cases hx
        simp only [Lexeme.intern, Token.kind, symbol_table.get, symbol_table.deref,
          Option.map_some', Option.some.injEq] at hk
        exact absurd hk (punct_kind_ne_identifier hp)
      | none =>
        rw [hp] at hx
        simp only at hx
        split_ifs at hx <;> cases hx <;>
          simp only [Lexeme.intern, symbol_table.get_text, symbol_table.put_spelling] <;>
          exact symbol_table.put_interned _ _ _

/-! ## Whitespace inserted into a list -/

theorem dropWhile_append_of_all (p : Char → Bool) (a b : List Char)
    (ha : ∀ c ∈ a, p c = true) : (a ++ b).dropWhile p = b.dropWhile p := by
  induction a with
  | nil => rfl
  | cons x a ih =>
    have hx : p x = true := ha x (by simp)
    simp [List.dropWhile_cons, hx, ih (fun c hc => ha c (by simp [hc]))]

theorem all_of_le_takeWhile (p : Char → Bool) (x y : List Char)
    (h : x.length ≤ ((x ++ y).takeWhile p).length) : ∀ c ∈ x, p c = true := by
  induction x with
  | nil => intro c hc; simp at hc
  | cons a x ih =>
    by_cases ha : p a = true
    · simp only [List.cons_append, List.takeWhile_cons, ha, if_true, List.length_cons,
        Nat.add_le_add_iff_right] at h
      intro c hc
      rcases List.mem_cons.mp hc with rfl | hc'
      · exact ha
      · exact ih h c hc'
    · simp [List.takeWhile_cons, ha] at h

theorem takeWhile_short (p : Char → Bool) (x y : List Char)
    (h : ((x ++ y).takeWhile p).length < x.length) :
    x.dropWhile p ≠ [] ∧ ∀ z, (x ++ z).takeWhile p = x.takeWhile p ∧
      (x ++ z).dropWhile p = x.dropWhile p ++ z := by
  induction x with
  | nil => simp at h
  | cons a x ih =>
    by_cases ha : p a = true
    · simp only [List.cons_append, List.takeWhile_cons, ha, if_true, List.length_cons,
        Nat.add_lt_add_iff_right] at h
      obtain ⟨h1, h2⟩ := ih h
      refine ⟨by simpa [List.dropWhile_cons, ha] using h1, fun z => ?_⟩
      simp [List.takeWhile_cons, List.dropWhile_cons, ha, (h2 z).1, (h2 z).2]
    · refine ⟨by simp [List.dropWhile_cons, ha], fun z => ?_⟩
      simp [List.takeWhile_cons, List.dropWhile_cons, ha]

theorem takeWhile_insert (p : Char → Bool) (x y w : List Char)
    (hw : ∀ c ∈ w.head?, p c = false) (h : ((x ++ y).takeWhile p).length ≤ x.length) :
    (x ++ (w ++ y)).takeWhile p = (x ++ y).takeWhile p := by
  induction x with
  | nil =>
    have h1 : y.takeWhile p = [] := by
      simpa using h
    cases w with
    | nil => rfl
    | cons c w =>
      have hc : p c = false := hw c (by simp)
      simp [h1, List.takeWhile_cons, hc]
  | cons a x ih =>
    by_cases ha : p a = true
    · simp only [List.cons_append, List.takeWhile_cons, ha, if_true, List.length_cons,
        Nat.add_le_add_iff_right] at h ⊢
      rw [ih h]
    · simp [List.takeWhile_cons, ha]

theorem hspace_not_ident_char {c : Char} (h : is_hspace c = true) : is_ident_char c = false := by
  by_contra hc
  have := is_ident_char_not_space (by simpa using hc)
  rw [hspace_is_space h] at this
  cases this

/-- A lexeme that ends in `x1` is still found when whitespace is inserted after `x1`. -/
theorem next_lexeme_insert (x1 y w : List Char) (hw : ∀ c ∈ w, is_hspace c = true)
    (x : Lexeme) (h : next_lexeme (x1 ++ y) = some x) (hne : x1 ≠ [])
    (hL : x.length ≤ x1.length) : next_lexeme (x1 ++ (w ++ y)) = some x := by
  cases x1 with
  | nil => exact absurd rfl hne
  | cons c tl =>
    simp only [List.cons_append, next_lexeme] at h ⊢
    cases hp : punct_kind c with
    | some k => rw [hp] at h; exact h
    | none =>
      rw [hp] at h
      simp only at h ⊢
      split_ifs at h ⊢ with hi
      · cases h
        simp only [Lexeme.length, List.length_cons, Nat.add_le_add_iff_right] at hL
        rw [takeWhile_insert is_ident_char tl y w ?_ hL]
        intro d hd
        cases w with
        | nil => simp at hd
        | cons e w =>
          simp only [List.head?_cons, Option.mem_def, Option.some.injEq] at hd
          subst hd
          exact hspace_not_ident_char (hw _ (by simp))
      · exact h

theorem next_lexeme_not_ident_length {c : Char} {tl : List Char} {x : Lexeme}
    (h : next_lexeme (c :: tl) = some x) (hc : is_ident_start c = false) : x.length = 1 := by
  simp only [next_lexeme] at h
  cases hp : punct_kind c with
  | some k => rw [hp] at h; cases h; rfl
  | none =>
    rw [hp] at h
    simp only [hc, Bool.false_eq_true, if_false] at h
    cases h
    rfl

/-! ## Whitespace inserted into the buffer -/

theorem Lexer.step_first (lx : Lexer) :
    lx.step.first = lx.first + (lx.rest.takeWhile is_space).length +
      lexeme_length (next_lexeme (lx.rest.dropWhile is_space)) := by
  cases hx : next_lexeme (lx.rest.dropWhile is_space) with
  | none => rw [Lexer.step_of_none hx]; rfl
  | some x => rw [Lexer.step_of_some hx]; rfl

theorem Lexer.step_congr {lx1 lx2 : Lexer} (ht : lx1.table = lx2.table)
    (hl : next_lexeme (lx1.rest.dropWhile is_space) =
      next_lexeme (lx2.rest.dropWhile is_space)) :
    lx1.step.table = lx2.step.table ∧ lx1.step.tok.sym = lx2.step.tok.sym := by
  cases hx : next_lexeme (lx1.rest.dropWhile is_space) with
  | none =>
    rw [Lexer.step_of_none hx, Lexer.step_of_none (hl ▸ hx)]
    exact ⟨ht, by simp [Lexer.make_eof, symbol_table.get]⟩
  | some x =>
    rw [Lexer.step_of_some hx, Lexer.step_of_some (hl ▸ hx)]
    simp [Lexer.with_token, ht]

theorem drop_insert_after (u w v : List Char) (n : Nat) (h : u.length ≤ n) :
    (u ++ (w ++ v)).drop (n + w.length) = (u ++ v).drop n := by
  obtain ⟨k, rfl⟩ : ∃ k, n = u.length + k := ⟨n - u.length, by omega⟩
  rw [List.drop_append, Nat.add_assoc, List.drop_append, Nat.add_comm k, List.drop_append]

theorem Lexer.ws_inserted_step {u w v : List Char} {lx1 lx2 : Lexer}
    (hw : ∀ c ∈ w, is_hspace c = true) (h : Lexer.ws_inserted u w v lx1 lx2)
    (hin : ∀ c, (u ++ v)[lx1.token_start]? = some c → is_ident_start c = true →
      ¬ (lx1.token_start < u.length ∧ u.length < lx1.step.first)) :
    lx2.first ≤ lx2.buf.length ∧ lx1.step.tok.sym = lx2.step.tok.sym ∧
      Lexer.ws_inserted u w v lx1.step lx2.step := by
  obtain ⟨hb1, hb2, ht, hle, hcase⟩ := h
  have hle1 : lx1.first ≤ lx1.buf.length := by rw [hb1]; exact hle
  have hstep1 := Lexer.step_first_le hle1
  rw [Lexer.step_buf, hb1] at hstep1
  have hws : ∀ c ∈ w, is_space c = true := fun c hc => hspace_is_space (hw c hc)
  have hlen2 : lx2.first ≤ lx2.buf.length := by
    rw [hb2]
    simp only [List.length_append] at hle ⊢
    rcases hcase with ⟨h1, h2⟩ | ⟨h1, h2⟩ <;> omega
  refine ⟨hlen2, ?_⟩
  rcases hcase with ⟨hA, hf⟩ | ⟨hB, hf⟩
  · -- the scan position is before the place of insertion
    have hr1 : lx1.rest = u.drop lx1.first ++ v := by
      simp only [Lexer.rest, hb1]
      exact List.drop_append_of_le_length hA
    have hr2 : lx2.rest = u.drop lx1.first ++ (w ++ v) := by
      simp only [Lexer.rest, hb2, hf]
      exact List.drop_append_of_le_length hA
    have hxl : (u.drop lx1.first).length = u.length - lx1.first := List.length_drop _ _
    by_cases hx : (u.drop lx1.first).length ≤ (lx1.rest.takeWhile is_space).length
    · -- the place of insertion is in the whitespace before the token
      have hall := all_of_le_takeWhile is_space _ _ (by rw [← hr1]; exact hx)
      have hd1 : lx1.rest.dropWhile is_space = v.dropWhile is_space := by
        rw [hr1, dropWhile_append_of_all _ _ _ hall]
      have hd2 : lx2.rest.dropWhile is_space = v.dropWhile is_space := by
        rw [hr2, dropWhile_append_of_all _ _ _ hall, dropWhile_append_of_all _ _ _ hws]
      have ht1 : lx1.rest.takeWhile is_space = u.drop lx1.first ++ v.takeWhile is_space := by
        rw [hr1, takeWhile_append_of_all _ _ _ hall]
      have ht2 : lx2.rest.takeWhile is_space =
          u.drop lx1.first ++ (w ++ v.takeWhile is_space) := by
        rw [hr2, takeWhile_append_of_all _ _ _ hall, takeWhile_append_of_all _ _ _ hws]
      have hl : next_lexeme (lx1.rest.dropWhile is_space) =
          next_lexeme (lx2.rest.dropWhile is_space) := by rw [hd1, hd2]
      have hc := Lexer.step_congr ht hl
      have hf1 := Lexer.step_first lx1
      have hf2 := Lexer.step_first lx2
      rw [← hl, ht2, hf] at hf2
      rw [ht1] at hf1
      simp only [List.length_append] at hf1 hf2
      refine ⟨hc.2, by rw [Lexer.step_buf, hb1], by rw [Lexer.step_buf, hb2], hc.1,
        hstep1.2, Or.inr ⟨by omega, by omega⟩⟩
    · -- the token begins before the place of insertion
      have hx' : ((u.drop lx1.first ++ v).takeWhile is_space).length <
          (u.drop lx1.first).length := by rw [← hr1]; omega
      obtain ⟨hne, hsplit⟩ := takeWhile_short is_space _ _ hx'
      have ht1 : lx1.rest.takeWhile is_space = (u.drop lx1.first).takeWhile is_space := by
        rw [hr1]; exact (hsplit v).1
      have ht2 : lx2.rest.takeWhile is_space = (u.drop lx1.first).takeWhile is_space := by
        rw [hr2]; exact (hsplit (w ++ v)).1
      have hd1 : lx1.rest.dropWhile is_space = (u.drop lx1.first).dropWhile is_space ++ v := by
        rw [hr1]; exact (hsplit v).2
      have hd2 : lx2.rest.dropWhile is_space =
          (u.drop lx1.first).dropWhile is_space ++ (w ++ v) := by
        rw [hr2]; exact (hsplit (w ++ v)).2
      have hsum : ((u.drop lx1.first).takeWhile is_space).length +
          ((u.drop lx1.first).dropWhile is_space).length = (u.drop lx1.first).length := by
        rw [← List.length_append, List.takeWhile_append_dropWhile]
      have hf1 := Lexer.step_first lx1
      rw [ht1] at hf1
      have hts := Lexer.token_start_eq hle1
      rw [ht1] at hts
      obtain ⟨c, tl, hx1⟩ : ∃ c tl, (u.drop lx1.first).dropWhile is_space = c :: tl := by
        cases hq : (u.drop lx1.first).dropWhile is_space with
        | nil => exact absurd hq hne
        | cons c tl => exact ⟨c, tl, rfl⟩
      obtain ⟨x, hxl1⟩ : ∃ x, next_lexeme (lx1.rest.dropWhile is_space) = some x := by
        cases hq : next_lexeme (lx1.rest.dropWhile is_space) with
        | none =>
          have := next_lexeme_eq_none.mp hq
          rw [hd1, hx1] at this
          simp at this
        | some x => exact ⟨x, rfl⟩
      rw [hxl1] at hf1
      simp only [lexeme_length] at hf1
      have hlen1 : ((u.drop lx1.first).dropWhile is_space).length = tl.length + 1 := by
        rw [hx1]; rfl
      have hL : x.length ≤ ((u.drop lx1.first).dropWhile is_space).length := by
        cases hi : is_ident_start c with
        | false =>
          have h1 : next_lexeme (c :: (tl ++ v)) = some x := by
            rw [← hxl1, hd1, hx1]; rfl
          rw [next_lexeme_not_ident_length h1 hi]
          omega
        | true =>
          have hget : (u ++ v)[lx1.token_start]? = some c := by
            have h1 : (u ++ v).drop lx1.first =
                (u.drop lx1.first).takeWhile is_space ++ (c :: (tl ++ v)) := by
              have h2 : (u ++ v).drop lx1.first = lx1.rest := by
                simp only [Lexer.rest, hb1]
              rw [h2]
              conv_lhs => rw [← List.takeWhile_append_dropWhile is_space lx1.rest]
              rw [ht1, hd1, hx1]
              rfl
            rw [hts]
            exact drop_cons_getElem? (drop_append_length h1)
          have := hin c hget hi
          rw [hts, hf1] at this
          omega
      have hl : next_lexeme (lx1.rest.dropWhile is_space) =
          next_lexeme (lx2.rest.dropWhile is_space) := by
        rw [hd2, next_lexeme_insert _ v w hw x (by rw [← hd1]; exact hxl1) hne hL, hxl1]
      have hc := Lexer.step_congr ht hl
      have hf2 := Lexer.step_first lx2
      rw [← hl, ht2, hf, hxl1] at hf2
      simp only [lexeme_length] at hf2
      refine ⟨hc.2, by rw [Lexer.step_buf, hb1], by rw [Lexer.step_buf, hb2], hc.1,
        hstep1.2, Or.inl ⟨by omega, by omega⟩⟩
  · -- the scan position is after the place of insertion
    have hr : lx2.rest = lx1.rest := by
      simp only [Lexer.rest, hb1, hb2, hf]
      exact drop_insert_after u w v lx1.first hB
    have hl : next_lexeme (lx1.rest.dropWhile is_space) =
        next_lexeme (lx2.rest.dropWhile is_space) := by rw [hr]
    have hc := Lexer.step_congr ht hl
    have hf1 := Lexer.step_first lx1
    have hf2 := Lexer.step_first lx2
    rw [hr, hf] at hf2
    refine ⟨hc.2, by rw [Lexer.step_buf, hb1], by rw [Lexer.step_buf, hb2], hc.1,
      hstep1.2, Or.inr ⟨by omega, by omega⟩⟩

/-! ## Runs -/

theorem Lexer.run_succ {lx : Lexer} (hle : lx.first ≤ lx.buf.length) (fuel : Nat) :
    Lexer.run (fuel + 1) lx =
      if lx.step.tok.sym = SymbolRef.canon Symbol.Kind.Eof then .ok ([lx.step.tok], lx.step)
      else
        match Lexer.run fuel lx.step with
        | .ok (ts, lx2) => .ok (lx.step.tok :: ts, lx2)
        | .error e => .error e := by
  simp only [Lexer.run, Lexer.operator_call_eq_step hle, symbol_table.get]

theorem Lexer.extents_succ {lx : Lexer} (hle : lx.first ≤ lx.buf.length) (fuel : Nat) :
    Lexer.extents (fuel + 1) lx =
      if lx.step.tok.sym = SymbolRef.canon Symbol.Kind.Eof then .ok []
      else
        match Lexer.extents fuel lx.step with
        | .ok es => .ok ((lx.token_start, lx.step.first) :: es)
        | .error e => .error e := by
  simp only [Lexer.extents, Lexer.operator_call_eq_step hle, symbol_table.get]

theorem Lexer.step_progress {lx : Lexer}
    (h : lx.step.tok.sym ≠ SymbolRef.canon Symbol.Kind.Eof) : lx.first < lx.step.first := by
  cases hx : next_lexeme (lx.rest.dropWhile is_space) with
  | none => exact absurd ((Lexer.step_tok_eof_iff lx).mpr (next_lexeme_eq_none.mp hx)) h
  | some x =>
    have := next_lexeme_length_pos hx
    rw [Lexer.step_first, hx]
    simp only [lexeme_length]
    omega

/-- A run with as much fuel as there are characters left, and one more, returns. -/
theorem Lexer.run_total : ∀ (fuel : Nat) (lx : Lexer), lx.first ≤ lx.buf.length →
    lx.buf.length - lx.first < fuel → ∃ r, Lexer.run fuel lx = .ok r := by
  intro fuel
  induction fuel with
  | zero => intro lx _ h; omega
  | succ f ih =>
    intro lx hle hf
    rw [Lexer.run_succ hle]
    by_cases he : lx.step.tok.sym = SymbolRef.canon Symbol.Kind.Eof
    · exact ⟨_, by rw [if_pos he]⟩
    · have hp := Lexer.step_progress he
      have hs := (Lexer.step_first_le hle).2
      obtain ⟨⟨ts, lx2⟩, hr⟩ := ih lx.step hs (by rw [Lexer.step_buf] at hs ⊢; omega)
      exact ⟨_, by rw [if_neg he, hr]⟩

theorem Lexer.run_mono : ∀ (fuel : Nat) (lx : Lexer) (r : List Token × Lexer),
    Lexer.run fuel lx = .ok r → ∀ k, Lexer.run (fuel + k) lx = .ok r := by
  intro fuel
  induction fuel with
  | zero => intro lx r h; simp [Lexer.run] at h
  | succ f ih =>
    intro lx r h k
    have hk : f + 1 + k = (f + k) + 1 := by omega
    rw [hk]
    simp only [Lexer.run] at h ⊢
    cases hc : lx.operator_call with
    | error e => rw [hc] at h; cases h
    | ok lx1 =>
      rw [hc] at h
      simp only at h ⊢
      split_ifs at h ⊢ with he
      · exact h
      · cases hr : Lexer.run f lx1 with
        | error e => rw [hr] at h; cases h
        | ok q =>
          rw [hr] at h
          rw [ih lx1 q hr k]
          exact h

theorem Lexer.token_start_add (lx : Lexer) (hle : lx.first ≤ lx.buf.length) :
    lx.step.first =
      lx.token_start + lexeme_length (next_lexeme (lx.rest.dropWhile is_space)) := by
  rw [Lexer.step_first, Lexer.token_start_eq hle]

/-- Whitespace inserted at a place that is not strictly inside an identifier changes neither
the symbols returned nor the table. -/
theorem Lexer.ws_inserted_run {u w v : List Char} (hw : ∀ c ∈ w, is_hspace c = true) :
    ∀ (fuel : Nat) (lx1 lx2 : Lexer) (ts1 : List Token) (e1 : Lexer) (es : List (Nat × Nat)),
      Lexer.ws_inserted u w v lx1 lx2 → Lexer.run fuel lx1 = .ok (ts1, e1) →
      Lexer.extents fuel lx1 = .ok es →
      (∀ e ∈ es, ((u ++ v)[e.1]?).any is_ident_start = true →
        ¬ (e.1 < u.length ∧ u.length < e.2)) →
      ∃ ts2 e2, Lexer.run fuel lx2 = .ok (ts2, e2) ∧
        ts2.map Token.sym = ts1.map Token.sym ∧ e2.table = e1.table := by
  intro fuel
  induction fuel with
  | zero => intro lx1 lx2 ts1 e1 es _ h; simp [Lexer.run] at h
  | succ f ih =>
    intro lx1 lx2 ts1 e1 es hrel hrun hext hin
    have hle1 : lx1.first ≤ lx1.buf.length := by rw [hrel.1]; exact hrel.2.2.2.1
    rw [Lexer.run_succ hle1] at hrun
    rw [Lexer.extents_succ hle1] at hext
    by_cases he : lx1.step.tok.sym = SymbolRef.canon Symbol.Kind.Eof
    · rw [if_pos he] at hrun
      have hd := next_lexeme_eq_none.mpr ((Lexer.step_tok_eof_iff lx1).mp he)
      have hts := Lexer.token_start_add lx1 hle1
      rw [hd] at hts
      simp only [lexeme_length, Nat.add_zero] at hts
      obtain ⟨hle2, hsym, hrel'⟩ := Lexer.ws_inserted_step hw hrel
        (fun c _ _ => by rw [hts]; omega)
      simp only [Except.ok.injEq, Prod.mk.injEq] at hrun
      obtain ⟨rfl, rfl⟩ := hrun
      refine ⟨[lx2.step.tok], lx2.step, ?_, by simp [hsym], hrel'.2.2.1.symm⟩
      rw [Lexer.run_succ hle2, if_pos (hsym ▸ he)]
    · rw [if_neg he] at hrun hext
      cases hr : Lexer.run f lx1.step with
      | error e => rw [hr] at hrun; cases hrun
      | ok q =>
        obtain ⟨ts, lx3⟩ := q
        rw [hr] at hrun
        simp only [Except.ok.injEq, Prod.mk.injEq] at hrun
        obtain ⟨rfl, rfl⟩ := hrun
        cases hx : Lexer.extents f lx1.step with
        | error e => rw [hx] at hext; cases hext
        | ok es' =>
          rw [hx] at hext
          simp only [Except.ok.injEq] at hext
          subst hext
          obtain ⟨hle2, hsym, hrel'⟩ := Lexer.ws_inserted_step hw hrel
            (fun c hc hi => hin (lx1.token_start, lx1.step.first) (by simp)
              (by simp [hc, hi]))
          obtain ⟨ts2, e2, hrun2, hmap, htab⟩ := ih lx1.step lx2.step ts lx3 es' hrel' hr hx
            (fun e hmem => hin e (by simp [hmem]))
          refine ⟨lx2.step.tok :: ts2, e2, ?_, by simp [hsym, hmap], htab⟩
          rw [Lexer.run_succ hle2, if_neg (hsym ▸ he), hrun2]

theorem map_kind_of_map_sym {ts1 ts2 : List Token} (t : symbol_table)
    (h : ts2.map Token.sym = ts1.map Token.sym) :
    ts2.map (Token.kind t) = ts1.map (Token.kind t) ∧
    ts2.map (Token.spelling t) = ts1.map (Token.spelling t) := by
  have hk : Token.kind t = (fun r => (t.deref r).map Symbol.kind) ∘ Token.sym := rfl
  have hs : Token.spelling t =
      (fun r => match t.deref r with | some s => s.spelling | none => []) ∘ Token.sym := rfl
  rw [hk, hs, ← List.map_map, ← List.map_map, ← List.map_map, ← List.map_map, h]
  exact ⟨rfl, rfl⟩

/-- The token sequence of `u ++ w ++ v` is that of `u ++ v` when `w` is a run of spaces and
tabs and the offset `|u|` is not strictly inside an identifier of `u ++ v`. -/
theorem Lexer.tokens_ws_inserted (t : symbol_table) (tok0 : Token) (u w v : List Char)
    (es : List (Nat × Nat)) (hw : ∀ c ∈ w, is_hspace c = true)
    (hes : (Lexer.init t (u ++ v) tok0).token_extents = .ok es)
    (hin : ∀ e ∈ es, ((u ++ v)[e.1]?).any is_ident_start = true →
      ¬ (e.1 < u.length ∧ u.length < e.2)) :
    ∃ ts1 lx1 ts2 lx2,
      (Lexer.init t (u ++ v) tok0).tokens = .ok (ts1, lx1) ∧
      (Lexer.init t (u ++ w ++ v) tok0).tokens = .ok (ts2, lx2) ∧
      ts2.map Token.sym = ts1.map Token.sym ∧ lx2.table = lx1.table := by
  have hrel : Lexer.ws_inserted u w v (Lexer.init t (u ++ v) tok0)
      (Lexer.init t (u ++ (w ++ v)) tok0) :=
    ⟨rfl, rfl, rfl, Nat.zero_le _, Or.inl ⟨Nat.zero_le _, rfl⟩⟩
  obtain ⟨⟨ts1, lx1⟩, h1⟩ := Lexer.run_total ((u ++ v).length + 1)
    (Lexer.init t (u ++ v) tok0) (Nat.zero_le _) (by simp [Lexer.init])
  obtain ⟨ts2, lx2, h2, hmap, htab⟩ := Lexer.ws_inserted_run hw _ _ _ ts1 lx1 es hrel h1 hes hin
  refine ⟨ts1, lx1, ts2, lx2, h1, ?_, hmap, htab⟩
  have := Lexer.run_mono _ _ _ h2 w.length
  rw [List.append_assoc]
  simp only [Lexer.tokens, Lexer.last, Lexer.init, Nat.sub_zero, List.length_append] at this ⊢
  rw [← this]
  congr 1
  omega

/-! ## Extents of the tokens -/

theorem Lexer.extents_total : ∀ (fuel : Nat) (lx : Lexer), lx.first ≤ lx.buf.length →
    lx.buf.length - lx.first < fuel → ∃ es, Lexer.extents fuel lx = .ok es := by
  intro fuel
  induction fuel with
  | zero => intro lx _ h; omega
  | succ f ih =>
    intro lx hle hf
    rw [Lexer.extents_succ hle]
    by_cases he : lx.step.tok.sym = SymbolRef.canon Symbol.Kind.Eof
    · exact ⟨_, by rw [if_pos he]⟩
    · have hp := Lexer.step_progress he
      have hs := (Lexer.step_first_le hle).2
      obtain ⟨es, hr⟩ := ih lx.step hs (by rw [Lexer.step_buf] at hs ⊢; omega)
      exact ⟨_, by rw [if_neg he, hr]⟩

theorem Lexer.calls_succ {lx : Lexer} (hle : lx.first ≤ lx.buf.length) (n : Nat) :
    Lexer.calls (n + 1) lx = Lexer.calls n lx.step := by
  simp only [Lexer.calls, Lexer.operator_call_eq_step hle]

theorem Lexer.step_step_of_eof {lx : Lexer} (hle : lx.first ≤ lx.buf.length)
    (he : lx.step.tok.sym = SymbolRef.canon Symbol.Kind.Eof) : lx.step.step = lx.step := by
  have hf := Lexer.step_first_of_eof hle ((Lexer.step_tok_eof_iff lx).mp he)
  rw [← Lexer.step_buf lx] at hf
  exact Lexer.step_fixed hf he

theorem Lexer.calls_of_eof {lx : Lexer} (hle : lx.first ≤ lx.buf.length)
    (he : lx.step.tok.sym = SymbolRef.canon Symbol.Kind.Eof) (n : Nat) :
    Lexer.calls n lx.step = .ok lx.step := by
  apply Lexer.calls_fixed
  rw [Lexer.operator_call_eq_step (Lexer.step_first_le hle).2, Lexer.step_step_of_eof hle he]

theorem Lexer.calls_first_le : ∀ (n : Nat) {lx0 lx : Lexer}, lx0.first ≤ lx0.buf.length →
    Lexer.calls n lx0 = .ok lx → lx0.first ≤ lx.first ∧ lx.first ≤ lx.buf.length := by
  intro n
  induction n with
  | zero =>
    intro lx0 lx hle h
    simp only [Lexer.calls, Except.ok.injEq] at h
    subst h
    exact ⟨Nat.le_refl _, hle⟩
  | succ n ih =>
    intro lx0 lx hle h
    rw [Lexer.calls_succ hle] at h
    have h1 := Lexer.step_first_le hle
    have h2 := ih h1.2 h
    exact ⟨Nat.le_trans h1.1 h2.1, h2.2⟩

/-- Every extent listed is the extent of the token of some call. -/
theorem Lexer.calls_of_mem_extents : ∀ (fuel : Nat) (lx0 : Lexer) (es : List (Nat × Nat)),
    lx0.first ≤ lx0.buf.length → Lexer.extents fuel lx0 = .ok es → ∀ e ∈ es,
      ∃ n lx, Lexer.calls n lx0 = .ok lx ∧
        lx.step.tok.sym ≠ SymbolRef.canon Symbol.Kind.Eof ∧
        e = (lx.token_start, lx.step.first) := by
  intro fuel
  induction fuel with
  | zero => intro lx0 es _ h; simp [Lexer.extents] at h
  | succ f ih =>
    intro lx0 es hle hext e he
    rw [Lexer.extents_succ hle] at hext
    by_cases heof : lx0.step.tok.sym = SymbolRef.canon Symbol.Kind.Eof
    · rw [if_pos heof] at hext
      cases hext
      simp at he
    · rw [if_neg heof] at hext
      cases hx : Lexer.extents f lx0.step with
      | error err => rw [hx] at hext; cases hext
      | ok es' =>
        rw [hx] at hext
        simp only [Except.ok.injEq] at hext
        subst hext
        rcases List.mem_cons.mp he with rfl | he'
        · exact ⟨0, lx0, rfl, heof, rfl⟩
        · obtain ⟨n, lx, hc, hne, heq⟩ := ih lx0.step es' (Lexer.step_first_le hle).2 hx e he'
          exact ⟨n + 1, lx, by rw [Lexer.calls_succ hle]; exact hc, hne, heq⟩

/-- The extent of the token of every call that does not return `Eof` is listed. -/
theorem Lexer.mem_extents_of_calls : ∀ (n fuel : Nat) (lx0 lx : Lexer) (es : List (Nat × Nat)),
    lx0.first ≤ lx0.buf.length → Lexer.calls n lx0 = .ok lx →
    lx.step.tok.sym ≠ SymbolRef.canon Symbol.Kind.Eof → Lexer.extents fuel lx0 = .ok es →
    (lx.token_start, lx.step.first) ∈ es := by
  intro n
  induction n with
  | zero =>
    intro fuel lx0 lx es hle hc hne hext
    simp only [Lexer.calls, Except.ok.injEq] at hc
    subst hc
    cases fuel with
    | zero => simp [Lexer.extents] at hext
    | succ f =>
      rw [Lexer.extents_succ hle, if_neg hne] at hext
      cases hx : Lexer.extents f lx0.step with
      | error err => rw [hx] at hext; cases hext
      | ok es' =>
        rw [hx] at hext
        simp only [Except.ok.injEq] at hext
        subst hext
        simp
  | succ n ih =>
    intro fuel lx0 lx es hle hc hne hext
    rw [Lexer.calls_succ hle] at hc
    cases fuel with
    | zero => simp [Lexer.extents] at hext
    | succ f =>
      rw [Lexer.extents_succ hle] at hext
      by_cases heof : lx0.step.tok.sym = SymbolRef.canon Symbol.Kind.Eof
      · exfalso
        rw [Lexer.calls_of_eof hle heof n] at hc
        simp only [Except.ok.injEq] at hc
        subst hc
        rw [Lexer.step_step_of_eof hle heof] at hne
        exact hne heof
      · rw [if_neg heof] at hext
        cases hx : Lexer.extents f lx0.step with
        | error err => rw [hx] at hext; cases hext
        | ok es' =>
          rw [hx] at hext
          simp only [Except.ok.injEq] at hext
          subst hext
          exact List.mem_cons_of_mem _
            (ih f lx0.step lx es' (Lexer.step_first_le hle).2 hc hne hx)

/-! ## Whitespace that is the only separator -/

theorem takeWhile_long (p : Char → Bool) (a b : List Char)
    (h : a.length < ((a ++ b).takeWhile p).length) :
    (∀ c ∈ a, p c = true) ∧ b.head?.any p = true := by
  have hall := all_of_le_takeWhile p a b (Nat.le_of_lt h)
  refine ⟨hall, ?_⟩
  rw [takeWhile_append_of_all p a b hall, List.length_append] at h
  cases b with
  | nil => simp at h
  | cons d b =>
    by_cases hd : p d = true
    · simp [hd]
    · simp [List.takeWhile_cons, hd] at h

theorem Lexer.ws_inserted_calls {u w v : List Char} (hw : ∀ c ∈ w, is_hspace c = true) :
    ∀ (n : Nat) (lx1 lx2 lx1' : Lexer), Lexer.ws_inserted u w v lx1 lx2 →
      Lexer.calls n lx1 = .ok lx1' → lx1'.token_start < u.length →
      ∃ lx2', Lexer.calls n lx2 = .ok lx2' ∧ Lexer.ws_inserted u w v lx1' lx2' ∧
        lx1'.first ≤ u.length ∧ lx2'.first = lx1'.first := by
  intro n
  induction n with
  | zero =>
    intro lx1 lx2 lx1' hrel hc hts
    simp only [Lexer.calls, Except.ok.injEq] at hc
    subst hc
    have hle1 : lx1.first ≤ lx1.buf.length := by rw [hrel.1]; exact hrel.2.2.2.1
    have h1 := Lexer.token_start_eq hle1
    refine ⟨lx2, rfl, hrel, ?_⟩
    rcases hrel.2.2.2.2 with ⟨hA, hf⟩ | ⟨hB, hf⟩
    · exact ⟨hA, hf⟩
    · omega
  | succ n ih =>
    intro lx1 lx2 lx1' hrel hc hts
    have hle1 : lx1.first ≤ lx1.buf.length := by rw [hrel.1]; exact hrel.2.2.2.1
    rw [Lexer.calls_succ hle1] at hc
    have hmono := Lexer.calls_first_le n (Lexer.step_first_le hle1).2 hc
    have h1 := Lexer.token_start_eq hmono.2
    obtain ⟨hle2, _, hrel'⟩ := Lexer.ws_inserted_step hw hrel (fun c _ _ => by omega)
    obtain ⟨lx2', hc2, hr2⟩ := ih lx1.step lx2.step lx1' hrel' hc hts
    exact ⟨lx2', by rw [Lexer.calls_succ hle2]; exact hc2, hr2⟩

/-- When the place of insertion is strictly inside an identifier of `u ++ v`, the
identifier of `u ++ (w ++ v)` that begins at the same offset ends at the inserted
whitespace, and `v` begins with a letter, a digit or an underscore. -/
theorem Lexer.ws_inserted_split {u w v : List Char} {lx1 lx2 : Lexer}
    (hw : ∀ c ∈ w, is_hspace c = true) (hne : w ≠ [])
    (h : Lexer.ws_inserted u w v lx1 lx2) (hA : lx1.first ≤ u.length)
    (hf : lx2.first = lx1.first)
    (hi : ((u ++ v)[lx1.token_start]?).any is_ident_start = true)
    (h1 : lx1.token_start < u.length) (h2 : u.length < lx1.step.first) :
    lx2.step.tok.sym ≠ SymbolRef.canon Symbol.Kind.Eof ∧
      lx2.token_start = lx1.token_start ∧ lx2.step.first = u.length ∧
      v.head?.any is_ident_char = true := by
  obtain ⟨hb1, hb2, ht, hle, _⟩ := h
  have hle1 : lx1.first ≤ lx1.buf.length := by rw [hb1]; exact hle
  have hle2 : lx2.first ≤ lx2.buf.length := by
    rw [hb2, hf]
    simp only [List.length_append] at hle ⊢
    omega
  have hr1 : lx1.rest = u.drop lx1.first ++ v := by
    simp only [Lexer.rest, hb1]
    exact List.drop_append_of_le_length hA
  have hr2 : lx2.rest = u.drop lx1.first ++ (w ++ v) := by
    simp only [Lexer.rest, hb2, hf]
    exact List.drop_append_of_le_length hA
  have hxl : (u.drop lx1.first).length = u.length - lx1.first := List.length_drop _ _
  have hts := Lexer.token_start_eq hle1
  have hx' : ((u.drop lx1.first ++ v).takeWhile is_space).length <
      (u.drop lx1.first).length := by rw [← hr1]; omega
  obtain ⟨hne1, hsplit⟩ := takeWhile_short is_space _ _ hx'
  have ht1 : lx1.rest.takeWhile is_space = (u.drop lx1.first).takeWhile is_space := by
    rw [hr1]; exact (hsplit v).1
  have ht2 : lx2.rest.takeWhile is_space = (u.drop lx1.first).takeWhile is_space := by
    rw [hr2]; exact (hsplit (w ++ v)).1
  have hd1 : lx1.rest.dropWhile is_space = (u.drop lx1.first).dropWhile is_space ++ v := by
    rw [hr1]; exact (hsplit v).2
  have hd2 : lx2.rest.dropWhile is_space =
      (u.drop lx1.first).dropWhile is_space ++ (w ++ v) := by
    rw [hr2]; exact (hsplit (w ++ v)).2
  have hsum : ((u.drop lx1.first).takeWhile is_space).length +
      ((u.drop lx1.first).dropWhile is_space).length = (u.drop lx1.first).length := by
    rw [← List.length_append, List.takeWhile_append_dropWhile]
  rw [ht1] at hts
  obtain ⟨c, tl, hx1⟩ : ∃ c tl, (u.drop lx1.first).dropWhile is_space = c :: tl := by
    cases hq : (u.drop lx1.first).dropWhile is_space with
    | nil => exact absurd hq hne1
    | cons c tl => exact ⟨c, tl, rfl⟩
  have hlen1 : ((u.drop lx1.first).dropWhile is_space).length = tl.length + 1 := by
    rw [hx1]; rfl
  have hget : (u ++ v)[lx1.token_start]? = some c := by
    have h3 : (u ++ v).drop lx1.first =
        (u.drop lx1.first).takeWhile is_space ++ (c :: (tl ++ v)) := by
      have h4 : (u ++ v).drop lx1.first = lx1.rest := by
        simp only [Lexer.rest, hb1]
      rw [h4]
      conv_lhs => rw [← List.takeWhile_append_dropWhile is_space lx1.rest]
      rw [ht1, hd1, hx1]
      rfl
    rw [hts]
    exact drop_cons_getElem? (drop_append_length h3)
  have hc : is_ident_start c = true := by
    rw [hget] at hi
    simpa using hi
  have hp := is_ident_char_not_punct (is_ident_start_char hc)
  have hl1 : next_lexeme (lx1.rest.dropWhile is_space) =
      some (Lexeme.ident (c :: (tl ++ v).takeWhile is_ident_char)) := by
    rw [hd1, hx1]
    simp [next_lexeme, hp, hc]
  have hf1 := Lexer.step_first lx1
  rw [ht1, hl1] at hf1
  simp only [lexeme_length, Lexeme.length, List.length_cons] at hf1
  obtain ⟨hall, hv⟩ := takeWhile_long is_ident_char tl v (by omega)
  have hwhead : (w ++ v).takeWhile is_ident_char = [] := by
    cases w with
    | nil => exact absurd rfl hne
    | cons d w =>
      have hd : is_ident_char d = false := hspace_not_ident_char (hw d (by simp))
      simp [List.takeWhile_cons, hd]
  have hl2 : next_lexeme (lx2.rest.dropWhile is_space) = some (Lexeme.ident (c :: tl)) := by
    rw [hd2, hx1]
    simp only [List.cons_append, next_lexeme, hp, hc, if_true]
    rw [takeWhile_append_of_all _ _ _ hall, hwhead, List.append_nil]
  have hf2 := Lexer.step_first lx2
  rw [ht2, hl2, hf] at hf2
  simp only [lexeme_length, Lexeme.length, List.length_cons] at hf2
  have hts2 := Lexer.token_start_eq hle2
  rw [ht2, hf] at hts2
  refine ⟨?_, by rw [hts2, hts], by omega, hv⟩
  intro he
  have := (Lexer.step_tok_eof_iff lx2).mp he
  rw [this] at hl2
  simp [next_lexeme] at hl2

/-- When no identifier of `u ++ (w ++ v)` that ends at the whitespace `w` is followed there by
a letter, a digit or an underscore, the place of `w` is not strictly inside an identifier of
`u ++ v`. -/
theorem Lexer.not_inside_of_separated (t : symbol_table) (tok0 : Token) (u w v : List Char)
    (es1 es2 : List (Nat × Nat)) (hw : ∀ c ∈ w, is_hspace c = true) (hne : w ≠ [])
    (hes1 : (Lexer.init t (u ++ v) tok0).token_extents = .ok es1)
    (hes2 : (Lexer.init t (u ++ (w ++ v)) tok0).token_extents = .ok es2)
    (hsep : ∀ e ∈ es2, ((u ++ (w ++ v))[e.1]?).any is_ident_start = true →
      e.2 = u.length → v.head?.any is_ident_char = false) :
    ∀ e ∈ es1, ((u ++ v)[e.1]?).any is_ident_start = true →
      ¬ (e.1 < u.length ∧ u.length < e.2) := by
  intro e he hi ⟨h1, h2⟩
  have hrel : Lexer.ws_inserted u w v (Lexer.init t (u ++ v) tok0)
      (Lexer.init t (u ++ (w ++ v)) tok0) :=
    ⟨rfl, rfl, rfl, Nat.zero_le _, Or.inl ⟨Nat.zero_le _, rfl⟩⟩
  obtain ⟨n, lx1, hc1, _, rfl⟩ := Lexer.calls_of_mem_extents _ _ _ (Nat.zero_le _) hes1 e he
  obtain ⟨lx2, hc2, hrel', hA, hf⟩ := Lexer.ws_inserted_calls hw n _ _ lx1 hrel hc1 h1
  obtain ⟨hne2, hts, hend, hv⟩ := Lexer.ws_inserted_split hw hne hrel' hA hf hi h1 h2
  have hmem := Lexer.mem_extents_of_calls n _ _ lx2 es2 (Nat.zero_le _) hc2 hne2 hes2
  have hchar : (u ++ (w ++ v))[lx2.token_start]? = (u ++ v)[lx1.token_start]? := by
    rw [hts, List.getElem?_append_left h1, List.getElem?_append_left h1]
  have := hsep _ hmem (by rw [hchar]; exact hi) hend
  rw [hv] at this
  cases this

theorem symbol_table.put_of_interned {t : symbol_table} {r : SymbolRef} {s : List Char}
    (h : t.interned r s) (k : Symbol.Kind) : (t.put k s).2 = t := by
  obtain ⟨i, _, hf⟩ := h
  simp [symbol_table.put, hf]

/-- A call whose token is spelled like a spelling that the table has leaves the table as it
is. -/
theorem Lexer.step_table_of_interned {lx : Lexer} {r : SymbolRef}
    (h : lx.table.interned r (lx.step.tok.spelling lx.step.table)) :
    lx.step.table = lx.table := by
  cases hx : next_lexeme (lx.rest.dropWhile is_space) with
  | none => rw [Lexer.step_of_none hx]; rfl
  | some x =>
    have hsp : lx.step.tok.spelling lx.step.table = x.chars := by
      rw [Lexer.step_of_some hx]
      exact Lexeme.intern_spelling hx lx.table _
    rw [hsp] at h
    rw [Lexer.step_of_some hx]
    simp only [Lexer.with_token]
    cases x with
    | punct k => rfl
    | ident sp => exact symbol_table.put_of_interned h _
    | error c => exact symbol_table.put_of_interned h _

/-- A call of `operator()` keeps a table that holds what this lexer interns so. -/
theorem Lexer.step_lexical {lx : Lexer} (h : lx.table.lexical) : lx.step.table.lexical := by
  cases hx : next_lexeme (lx.rest.dropWhile is_space) with
  | none => rw [Lexer.step_of_none hx]; exact h
  | some x =>
    rw [Lexer.step_of_some hx]
    simp only [Lexer.with_token]
    cases hr : lx.rest.dropWhile is_space with
    | nil => rw [hr] at hx; simp [next_lexeme] at hx
    | cons c tl =>
      have hs : is_space c = false :=
        takeWhile_append_dropWhile_head is_space lx.rest c (by rw [hr]; simp)
      rw [hr] at hx
      simp only [next_lexeme] at hx
      cases hp : punct_kind c with
      | some k => rw [hp] at hx; cases hx; exact h
      | none =>
        rw [hp] at hx
        simp only at hx
        split_ifs at hx with hi <;> cases hx
        · exact symbol_table.put_lexical _ _ _ h (by simp [hi])
        · exact symbol_table.put_lexical _ _ _ h (by simp [hi])

theorem symbol_table.lexical_empty : symbol_table.lexical { syms := [] } := by
  intro e he
  cases he

/-! ## The three kinds of token -/

/-- C1: when the first non-whitespace character at the scan position is a letter or an
underscore, one call of `operator()` returns a token whose spelling is that character
followed by the maximal run of letters, digits and underscores after it (the character after
the run, if any, is none of these), at the location of that character; the scan position
advances over the whitespace and by exactly the length of the spelling (once, although
`make_identifer` adds the length to its own parameter too), the column by the length of the
spelling, the line stays. The symbol is the one `put(Identifier, start, end)` returns for the
spelling: the kind of the token is the kind under which the table already registers the
spelling, and `Identifier` when it registers none; so it is `Identifier` on a table that holds
what this lexer interns. -/
theorem identifier_token (lx : Lexer) (ws tl : List Char) (c : Char)
    (hrest : lx.buf.drop lx.first = ws ++ c :: tl) (hws : ∀ x ∈ ws, is_space x = true)
    (hc : isalpha c = true ∨ c = '_') :
    ∃ lx', lx.operator_call = .ok lx' ∧
      (lx'.tok.sym, lx'.table) =
        lx.table.put Symbol.Kind.Identifier (c :: tl.takeWhile is_ident_char) ∧
      lx'.tok.spelling lx'.table = c :: tl.takeWhile is_ident_char ∧
      (∀ d, lx'.buf[lx'.first]? = some d → is_ident_char d = false) ∧
      lx'.buf = lx.buf ∧
      lx'.tok.loc = lx.loc.after ws ∧
      lx'.first = lx.first + ws.length + (lx'.tok.spelling lx'.table).length ∧
      lx'.loc.column = lx'.tok.loc.column + (lx'.tok.spelling lx'.table).length ∧
      lx'.loc.line = lx'.tok.loc.line ∧
      lx'.tok.kind lx'.table =
        some ((lx.table.registered (c :: tl.takeWhile is_ident_char)).getD
          Symbol.Kind.Identifier) ∧
      (lx.table.lexical → lx'.tok.kind lx'.table = some Symbol.Kind.Identifier ∧
        lx'.table.lexical) := by
  have hc' : is_ident_start c = true := by
    rcases hc with h | h <;> simp [is_ident_start, h]
  have hrest' : lx.rest = ws ++ c :: tl := hrest
  have hle := length_le_of_rest hrest' (Lexer.first_le_of_rest hrest')
  have hsp : (lx.buf.drop (lx.first + ws.length)).take
      (lx.first + (ws.length + (1 + (tl.takeWhile is_ident_char).length)) -
        (lx.first + ws.length)) = c :: tl.takeWhile is_ident_char := by
    have h1 : lx.buf.drop (lx.first + ws.length) = c :: tl := by
      rw [← List.drop_drop, hrest, List.drop_left]
    have h2 : lx.first + (ws.length + (1 + (tl.takeWhile is_ident_char).length)) -
        (lx.first + ws.length) = (tl.takeWhile is_ident_char).length + 1 := by omega
    rw [h1, h2, List.take_succ_cons, take_length_takeWhile]
  refine ⟨_, Lexer.operator_call_ident hrest' hws hc', ?_⟩
  simp only [Lexer.make_identifer, Lexer.moved, hsp, symbol_table.put_spelling]
  refine ⟨trivial, trivial, ?_, trivial, trivial, ?_, trivial, trivial,
    symbol_table.put_kind _ _ _ _, ?_⟩
  · intro d hd
    have h0 : lx.buf.drop lx.first =
        (ws ++ c :: tl.takeWhile is_ident_char) ++ tl.dropWhile is_ident_char := by
      rw [hrest]; simp
    have h1 := drop_append_length h0
    have h2 : lx.first + (ws ++ c :: tl.takeWhile is_ident_char).length =
        lx.first + (ws.length + (1 + (tl.takeWhile is_ident_char).length)) := by
      simp; omega
    rw [h2] at h1
    have h4 := List.getElem?_drop lx.buf
      (lx.first + (ws.length + (1 + (tl.takeWhile is_ident_char).length))) 0
    rw [h1] at h4
    simp only [Nat.add_zero] at h4
    rw [← h4, ← List.head?_eq_getElem?] at hd
    exact takeWhile_append_dropWhile_head is_ident_char tl d hd
  · simp only [List.length_cons]; omega
  · intro ht
    have hk : Symbol.Kind.Identifier =
        if (c :: tl.takeWhile is_ident_char).head?.any is_ident_start then
          Symbol.Kind.Identifier else Symbol.Kind.Error := by
      simp [hc']
    exact ⟨symbol_table.put_kind_lexical _ _ _ _ ht hk, symbol_table.put_lexical _ _ _ ht hk⟩

theorem identifier_token_witness :
    ∃ lx', (Lexer.init ⟨[]⟩ [' ', 'a', '1', '_', '.'] ⟨.canon .Eof, ⟨0, 0⟩⟩).operator_call
        = .ok lx' ∧
      lx'.tok.spelling lx'.table = ['a', '1', '_'] ∧
      lx'.tok.loc = ⟨1, 2⟩ ∧ lx'.first = 4 ∧ lx'.loc = ⟨1, 5⟩ ∧
      lx'.tok.kind lx'.table = some Symbol.Kind.Identifier := by
  obtain ⟨lx', h1, _, h2, _, _, h5, h6, h7, h8, _, h9⟩ :=
    identifier_token (Lexer.init ⟨[]⟩ [' ', 'a', '1', '_', '.'] ⟨.canon .Eof, ⟨0, 0⟩⟩)
      [' '] ['1', '_', '.'] 'a' (by decide) (by decide) (by decide)
  have h2' : lx'.tok.spelling lx'.table = ['a', '1', '_'] := h2
  have h5' : lx'.tok.loc = ⟨1, 2⟩ := h5
  rw [h2', h5'] at h7
  rw [h2'] at h6
  rw [h5'] at h8
  refine ⟨lx', h1, h2', h5', h6, ?_, (h9 (by intro e he; cases he)).1⟩
  cases hl : lx'.loc
  rw [hl] at h7 h8
  simp only at h7 h8
  rw [h7, h8]
  rfl

/-- C1, as stated for every lexer state, fails: the kind of an interned symbol is the one
under which its spelling was first registered, and the table is handed in by the caller. On a
table that registers the spelling `a` under the kind `Error`, the input `a` begins with a
letter and one call returns the token spelled `a`, of kind `Error`, not `Identifier`. -/
theorem identifier_token_counterexample :
    (∃ lx', (Lexer.init ⟨[⟨Symbol.Kind.Error, ['a']⟩]⟩ ['a']
        ⟨.canon .Eof, ⟨0, 0⟩⟩).operator_call = .ok lx' ∧
      lx'.tok.spelling lx'.table = ['a'] ∧
      lx'.tok.kind lx'.table = some Symbol.Kind.Error) ∧
    ¬ ∀ (lx lx' : Lexer) (ws tl : List Char) (c : Char),
      lx.buf.drop lx.first = ws ++ c :: tl → (∀ x ∈ ws, is_space x = true) →
      (isalpha c = true ∨ c = '_') → lx.operator_call = .ok lx' →
      lx'.tok.kind lx'.table = some Symbol.Kind.Identifier :=
  ⟨⟨_, rfl, rfl, rfl⟩, fun h =>
    absurd (h (Lexer.init ⟨[⟨Symbol.Kind.Error, ['a']⟩]⟩ ['a'] ⟨.canon .Eof, ⟨0, 0⟩⟩)
      (Lexer.init ⟨[⟨Symbol.Kind.Error, ['a']⟩]⟩ ['a'] ⟨.canon .Eof, ⟨0, 0⟩⟩).step
      [] [] 'a' rfl (by simp) (by decide) rfl) (by decide)⟩

/-- C2: when the first non-whitespace character at the scan position is one of the
punctuators `( ) \ . ; =`, one call of `operator()` returns the canonical symbol of the kind
`Lparen`, `Rparen`, `Backslash`, `Dot`, `Semicolon`, `Equal` respectively, at the location of
that character; the scan position advances over the whitespace and one character past the
punctuator, the column by one, the line stays, and the table is left as it was. -/
theorem punctuation_token (lx : Lexer) (ws tl : List Char) (c : Char) (k : Symbol.Kind)
    (hrest : lx.buf.drop lx.first = ws ++ c :: tl) (hws : ∀ x ∈ ws, is_space x = true)
    (hc : (c, k) ∈ [('(', Symbol.Kind.Lparen), (')', Symbol.Kind.Rparen),
      ('\\', Symbol.Kind.Backslash), ('.', Symbol.Kind.Dot), (';', Symbol.Kind.Semicolon),
      ('=', Symbol.Kind.Equal)]) :
    ∃ lx', lx.operator_call = .ok lx' ∧
      lx'.tok.sym = lx.table.get k ∧
      lx'.tok.kind lx'.table = some k ∧
      lx'.tok.loc = lx.loc.after ws ∧
      lx'.first = lx.first + ws.length + 1 ∧
      lx'.loc.column = lx'.tok.loc.column + 1 ∧
      lx'.loc.line = lx'.tok.loc.line ∧
      lx'.buf = lx.buf ∧ lx'.table = lx.table := by
  have hk : punct_kind c = some k := by
    simp only [List.mem_cons, Prod.mk.injEq, List.mem_nil_iff, or_false] at hc
    rcases hc with ⟨rfl, rfl⟩ | ⟨rfl, rfl⟩ | ⟨rfl, rfl⟩ | ⟨rfl, rfl⟩ | ⟨rfl, rfl⟩ | ⟨rfl, rfl⟩ <;>
      decide
  refine ⟨_, Lexer.operator_call_punct (show lx.rest = _ from hrest) hws hk, ?_⟩
  simp [Lexer.make_punctuation, Lexer.moved, Token.kind, symbol_table.get, symbol_table.deref]

theorem punctuation_token_witness :
    ∃ lx', (Lexer.init ⟨[]⟩ ['\t', '\\', 'x'] ⟨.canon .Eof, ⟨0, 0⟩⟩).operator_call = .ok lx' ∧
      lx'.tok.sym = symbol_table.get ⟨[]⟩ Symbol.Kind.Backslash ∧
      lx'.tok.kind lx'.table = some Symbol.Kind.Backslash ∧
      lx'.tok.loc = Location.after ⟨1, 1⟩ ['\t'] ∧
      lx'.first = 0 + ['\t'].length + 1 ∧
      lx'.loc.column = lx'.tok.loc.column + 1 ∧
      lx'.loc.line = lx'.tok.loc.line ∧
      lx'.buf = ['\t', '\\', 'x'] ∧ lx'.table = ⟨[]⟩ :=
  punctuation_token (Lexer.init ⟨[]⟩ ['\t', '\\', 'x'] ⟨.canon .Eof, ⟨0, 0⟩⟩)
    ['\t'] ['x'] '\\' Symbol.Kind.Backslash (by decide) (by decide) (by decide)

/-- C3: when the first non-whitespace character `c` at the scan position is neither a
punctuator nor a letter nor an underscore, one call of `operator()` returns (it does not
fail) a token whose spelling is the one character `c`, at the location of `c`; the scan
position advances over the whitespace and one character past `c`, the column by one, the
line stays. The symbol is the one `get(first, first + 1)` returns for the character: the
kind of the token is the kind under which the table already registers the one-character
spelling, and `Error` when it registers none; so it is `Error` on a table that holds what
this lexer interns.
In particular the input `@` on the empty table gives an `Error` token at (1,1) and then the
`Eof` token. -/
theorem error_token :
    (∀ (lx : Lexer) (ws tl : List Char) (c : Char),
      lx.buf.drop lx.first = ws ++ c :: tl → (∀ x ∈ ws, is_space x = true) →
      is_space c = false → punct_kind c = none → ¬ (isalpha c = true ∨ c = '_') →
      ∃ lx', lx.operator_call = .ok lx' ∧
        (lx'.tok.sym, lx'.table) = lx.table.get_text [c] ∧
        lx'.tok.spelling lx'.table = [c] ∧
        lx'.tok.loc = lx.loc.after ws ∧
        lx'.first = lx.first + ws.length + 1 ∧
        lx'.loc.column = lx'.tok.loc.column + 1 ∧
        lx'.loc.line = lx'.tok.loc.line ∧
        lx'.buf = lx.buf ∧
        lx'.tok.kind lx'.table = some ((lx.table.registered [c]).getD Symbol.Kind.Error) ∧
        (lx.table.lexical → lx'.tok.kind lx'.table = some Symbol.Kind.Error ∧
          lx'.table.lexical)) ∧
    (∀ tok0 : Token, ∃ lx1 lx2,
      (Lexer.init ⟨[]⟩ ['@'] tok0).operator_call = .ok lx1 ∧
      lx1.tok.kind lx1.table = some Symbol.Kind.Error ∧
      lx1.tok.spelling lx1.table = ['@'] ∧
      lx1.tok.loc = ⟨1, 1⟩ ∧
      lx1.operator_call = .ok lx2 ∧
      lx2.tok.sym = lx2.table.get Symbol.Kind.Eof ∧
      lx2.tok.kind lx2.table = some Symbol.Kind.Eof) := by
  constructor
  · intro lx ws tl c hrest hws hs hp hc
    have hc' : is_ident_start c = false := by
      simp only [not_or] at hc
      simp [is_ident_start, hc.1, hc.2]
    refine ⟨_, Lexer.operator_call_error (show lx.rest = _ from hrest) hws hs hp hc', ?_⟩
    simp only [symbol_table.get_text, symbol_table.put_spelling]
    refine ⟨trivial, trivial, trivial, trivial, trivial, trivial, trivial,
      symbol_table.put_kind _ _ _ _, ?_⟩
    intro ht
    have hk : Symbol.Kind.Error =
        if ([c] : List Char).head?.any is_ident_start then
          Symbol.Kind.Identifier else Symbol.Kind.Error := by
      simp [hc']
    exact ⟨symbol_table.put_kind_lexical _ _ _ _ ht hk, symbol_table.put_lexical _ _ _ ht hk⟩
  · intro tok0
    exact ⟨_, _, rfl, rfl, rfl, rfl, rfl, rfl, rfl⟩

theorem error_token_witness :
    ∃ lx', (Lexer.init ⟨[]⟩ [' ', '7', 'a'] ⟨.canon .Eof, ⟨0, 0⟩⟩).operator_call = .ok lx' ∧
      lx'.tok.spelling lx'.table = ['7'] ∧
      lx'.tok.loc = ⟨1, 2⟩ ∧ lx'.first = 2 ∧
      lx'.tok.kind lx'.table = some Symbol.Kind.Error := by
  obtain ⟨lx', h1, _, h2, h3, h4, _, _, _, _, h8⟩ :=
    error_token.1 (Lexer.init ⟨[]⟩ [' ', '7', 'a'] ⟨.canon .Eof, ⟨0, 0⟩⟩)
      [' '] ['a'] '7' (by decide) (by decide) (by decide) (by decide) (by decide)
  exact ⟨lx', h1, h2, h3, h4, (h8 (by intro e he; cases he)).1⟩

/-- C3, as stated for every lexer state, fails: the kind of an interned symbol is the one
under which its spelling was first registered, and the table is handed in by the caller. On a
table that registers the spelling `@` under the kind `Identifier`, one call on the input `@`
returns the token spelled `@`, of kind `Identifier`, not `Error`. -/
theorem error_token_counterexample :
    (∃ lx', (Lexer.init ⟨[⟨Symbol.Kind.Identifier, ['@']⟩]⟩ ['@']
        ⟨.canon .Eof, ⟨0, 0⟩⟩).operator_call = .ok lx' ∧
      lx'.tok.spelling lx'.table = ['@'] ∧
      lx'.tok.kind lx'.table = some Symbol.Kind.Identifier) ∧
    ¬ ∀ (lx lx' : Lexer) (ws tl : List Char) (c : Char),
      lx.buf.drop lx.first = ws ++ c :: tl → (∀ x ∈ ws, is_space x = true) →
      is_space c = false → punct_kind c = none → ¬ (isalpha c = true ∨ c = '_') →
      lx.operator_call = .ok lx' → lx'.tok.kind lx'.table = some Symbol.Kind.Error :=
  ⟨⟨_, rfl, rfl, rfl⟩, fun h =>
    absurd (h (Lexer.init ⟨[⟨Symbol.Kind.Identifier, ['@']⟩]⟩ ['@'] ⟨.canon .Eof, ⟨0, 0⟩⟩)
      (Lexer.init ⟨[⟨Symbol.Kind.Identifier, ['@']⟩]⟩ ['@'] ⟨.canon .Eof, ⟨0, 0⟩⟩).step
      [] [] '@' rfl (by simp) (by decide) (by decide) (by decide) rfl) (by decide)⟩

/-! ## The end of the input -/

/-- C5: once a call of `operator()` has returned the canonical `Eof` symbol, every later call
succeeds and leaves the whole state as it was: the token returned (symbol and location), the
scan position, the current location and the symbol table. -/
theorem eof_idempotent (lx lx1 : Lexer) (h1 : lx.operator_call = .ok lx1)
    (he : lx1.tok.sym = lx1.table.get Symbol.Kind.Eof) :
    lx1.operator_call = .ok lx1 ∧
    ∀ n, ∃ lx2, Lexer.calls n lx1 = .ok lx2 ∧ lx2.tok = lx1.tok ∧ lx2.first = lx1.first ∧
      lx2.loc = lx1.loc ∧ lx2.table = lx1.table := by
  obtain ⟨hle, rfl⟩ := Lexer.operator_call_ok_iff.mp h1
  have hd := (Lexer.step_tok_eof_iff lx).mp he
  have hf := Lexer.step_first_of_eof hle hd
  rw [← Lexer.step_buf lx] at hf
  have hfix : lx.step.operator_call = .ok lx.step := by
    rw [Lexer.operator_call_eq_step (by omega), Lexer.step_fixed hf he]
  exact ⟨hfix, fun n => ⟨lx.step, Lexer.calls_fixed hfix n, rfl, rfl, rfl, rfl⟩⟩

theorem eof_idempotent_witness :
    Lexer.operator_call
        { table := ⟨[⟨.Identifier, ['a']⟩]⟩, buf := ['a', ' '], first := 2,
          tok := ⟨.canon .Eof, ⟨1, 1⟩⟩, loc := ⟨1, 3⟩ } =
      .ok { table := ⟨[⟨.Identifier, ['a']⟩]⟩, buf := ['a', ' '], first := 2,
            tok := ⟨.canon .Eof, ⟨1, 1⟩⟩, loc := ⟨1, 3⟩ } ∧
    ∀ n, ∃ lx2, Lexer.calls n
        { table := ⟨[⟨.Identifier, ['a']⟩]⟩, buf := ['a', ' '], first := 2,
          tok := ⟨.canon .Eof, ⟨1, 1⟩⟩, loc := ⟨1, 3⟩ } = .ok lx2 ∧
      lx2.tok = ⟨.canon .Eof, ⟨1, 1⟩⟩ ∧ lx2.first = 2 ∧ lx2.loc = ⟨1, 3⟩ ∧
      lx2.table = ⟨[⟨.Identifier, ['a']⟩]⟩ :=
  eof_idempotent
    { table := ⟨[⟨.Identifier, ['a']⟩]⟩, buf := ['a', ' '], first := 1,
      tok := ⟨.text 0, ⟨1, 1⟩⟩, loc := ⟨1, 2⟩ }
    { table := ⟨[⟨.Identifier, ['a']⟩]⟩, buf := ['a', ' '], first := 2,
      tok := ⟨.canon .Eof, ⟨1, 1⟩⟩, loc := ⟨1, 3⟩ } rfl (by decide)

/-- C6: evaluation of the lexer at the inputs `a  ` and `a\n`, and at the empty input:
the call that reaches the end of the input returns the canonical `Eof` symbol, but the
location of the token it returns is not the current location (1,4), (2,1): `make_eof`
assigns only `tok.sym`, so the token keeps the location (1,1) of the token before it, and
on the empty input the location of the value-initialised token. -/
theorem eof_token_location_stale : ∀ tok0 : Token,
    (∃ lx1 lx2, (Lexer.init ⟨[]⟩ ['a', ' ', ' '] tok0).operator_call = .ok lx1 ∧
      lx1.operator_call = .ok lx2 ∧ lx2.tok.sym = lx2.table.get Symbol.Kind.Eof ∧
      lx2.loc = ⟨1, 4⟩ ∧ lx2.tok.loc = ⟨1, 1⟩) ∧
    (∃ lx1 lx2, (Lexer.init ⟨[]⟩ ['a', '\n'] tok0).operator_call = .ok lx1 ∧
      lx1.operator_call = .ok lx2 ∧ lx2.tok.sym = lx2.table.get Symbol.Kind.Eof ∧
      lx2.loc = ⟨2, 1⟩ ∧ lx2.tok.loc = ⟨1, 1⟩) ∧
    (∃ lx1, (Lexer.init ⟨[]⟩ [] tok0).operator_call = .ok lx1 ∧
      lx1.tok.sym = lx1.table.get Symbol.Kind.Eof ∧
      lx1.loc = ⟨1, 1⟩ ∧ lx1.tok.loc = tok0.loc) :=
  fun _ =>
    ⟨⟨_, _, rfl, rfl, rfl, rfl, rfl⟩, ⟨_, _, rfl, rfl, rfl, rfl, rfl⟩, ⟨_, rfl, rfl, rfl, rfl⟩⟩

/-! ## Locations of successive tokens -/

/-- C10: the locations of the tokens returned by two successive calls of `operator()` are in
lexicographic (line, column) order, `Eof` tokens included, and strictly so when neither of
the two is the `Eof` token. -/
theorem location_monotone (lx lx1 lx2 : Lexer) (h1 : lx.operator_call = .ok lx1)
    (h2 : lx1.operator_call = .ok lx2) :
    lx1.tok.loc.le lx2.tok.loc ∧
    (lx1.tok.sym ≠ lx1.table.get Symbol.Kind.Eof → lx2.tok.sym ≠ lx2.table.get Symbol.Kind.Eof →
      lx1.tok.loc.lt lx2.tok.loc) := by
  obtain ⟨hle, rfl⟩ := Lexer.operator_call_ok_iff.mp h1
  obtain ⟨hle1, rfl⟩ := Lexer.operator_call_ok_iff.mp h2
  cases hx2 : next_lexeme (lx.step.rest.dropWhile is_space) with
  | none =>
    have hd := next_lexeme_eq_none.mp hx2
    have hloc : lx.step.step.tok.loc = lx.step.tok.loc := by
      rw [Lexer.step_of_none hx2]
      rfl
    rw [hloc]
    refine ⟨Location.le_refl _, fun _ hne => ?_⟩
    exact absurd ((Lexer.step_tok_eof_iff lx.step).mpr hd) hne
  | some x2 =>
    have hloc : lx.step.step.tok.loc =
        lx.step.loc.after (lx.step.rest.takeWhile is_space) := by
      rw [Lexer.step_of_some hx2]
      rfl
    cases hx1 : next_lexeme (lx.rest.dropWhile is_space) with
    | none =>
      exfalso
      have hd := next_lexeme_eq_none.mp hx1
      have hf := Lexer.step_first_of_eof hle hd
      have hr : lx.step.rest = [] := by
        simp only [Lexer.rest]
        exact List.drop_of_length_le (by rw [Lexer.step_buf]; omega)
      rw [hr] at hx2
      simp [next_lexeme] at hx2
    | some x1 =>
      have hpos := next_lexeme_length_pos hx1
      have hlt : lx.step.tok.loc.lt lx.step.loc := by
        rw [Lexer.step_of_some hx1]
        exact Or.inr ⟨rfl, Nat.lt_add_of_pos_right hpos⟩
      have := Location.lt_of_lt_of_le hlt
        (Location.le_after (lx.step.rest.takeWhile is_space) lx.step.loc)
      rw [hloc]
      exact ⟨Location.le_of_lt this, fun _ _ => this⟩

theorem location_monotone_witness :
    Location.le ⟨1, 1⟩ ⟨2, 1⟩ ∧
    (SymbolRef.text 0 ≠ symbol_table.get ⟨[⟨.Identifier, ['a']⟩]⟩ Symbol.Kind.Eof →
      SymbolRef.text 1 ≠
        symbol_table.get ⟨[⟨.Identifier, ['a']⟩, ⟨.Identifier, ['b']⟩]⟩ Symbol.Kind.Eof →
      Location.lt ⟨1, 1⟩ ⟨2, 1⟩) :=
  location_monotone (Lexer.init ⟨[]⟩ ['a', '\n', 'b'] ⟨.canon .Eof, ⟨0, 0⟩⟩)
    { table := ⟨[⟨.Identifier, ['a']⟩]⟩, buf := ['a', '\n', 'b'], first := 1,
      tok := ⟨.text 0, ⟨1, 1⟩⟩, loc := ⟨1, 2⟩ }
    { table := ⟨[⟨.Identifier, ['a']⟩, ⟨.Identifier, ['b']⟩]⟩, buf := ['a', '\n', 'b'],
      first := 3, tok := ⟨.text 1, ⟨2, 1⟩⟩, loc := ⟨2, 2⟩ }
    rfl rfl

/-! ## Location of a token -/

/-- C4: on an input `s` lexed from its start, every token other than `Eof` that the lexer
returns is spelled by the bytes of `s` at the offset `p` where its first character is, and
its location is the line `1 +` the number of CR, LF and VT bytes of `s` before `p` and the
column `1 +` the number of bytes between the last such byte before `p` (or the start of `s`)
and `p`. So a run of spaces and tabs before a token raises its column by the length of the
run and leaves its line; `a\nb` has its tokens at (1,1) and (2,1); and in `a\r\nb` the CR and
the LF are two line breaks: `b` is at (3,1). -/
theorem token_location :
    (∀ (t : symbol_table) (s : List Char) (tok0 : Token) (n : Nat) (lx lx' : Lexer),
      Lexer.calls n (Lexer.init t s tok0) = .ok lx → lx.operator_call = .ok lx' →
      lx'.tok.sym ≠ lx'.table.get Symbol.Kind.Eof →
      0 < (lx'.tok.spelling lx'.table).length ∧
      (s.drop lx.token_start).take (lx'.tok.spelling lx'.table).length =
        lx'.tok.spelling lx'.table ∧
      lx'.tok.loc = ⟨line_at s lx.token_start, column_at s lx.token_start⟩) ∧
    (∀ u w v : List Char, (∀ c ∈ w, c = ' ' ∨ c = '\t') →
      column_at (u ++ w ++ v) (u.length + w.length) = column_at (u ++ v) u.length + w.length ∧
      line_at (u ++ w ++ v) (u.length + w.length) = line_at (u ++ v) u.length) ∧
    (∀ (t : symbol_table) (tok0 : Token), ∃ lx1 lx2,
      (Lexer.init t ['a', '\n', 'b'] tok0).operator_call = .ok lx1 ∧
      lx1.operator_call = .ok lx2 ∧ lx1.tok.loc = ⟨1, 1⟩ ∧ lx2.tok.loc = ⟨2, 1⟩) ∧
    (∀ (t : symbol_table) (tok0 : Token), ∃ lx1 lx2,
      (Lexer.init t ['a', '\r', '\n', 'b'] tok0).operator_call = .ok lx1 ∧
      lx1.operator_call = .ok lx2 ∧ lx1.tok.loc = ⟨1, 1⟩ ∧ lx2.tok.loc = ⟨3, 1⟩) := by
  refine ⟨?_, ?_, ?_, ?_⟩
  · intro t s tok0 n lx lx' hn hc hne
    obtain ⟨⟨hle, hloc⟩, hbuf⟩ := Lexer.calls_tracked n (Lexer.init_tracked t s tok0) hn
    obtain ⟨_, rfl⟩ := Lexer.operator_call_ok_iff.mp hc
    have hbuf' : lx.buf = s := hbuf
    cases hx : next_lexeme (lx.rest.dropWhile is_space) with
    | none =>
      exact absurd ((Lexer.step_tok_eof_iff lx).mpr (next_lexeme_eq_none.mp hx)) hne
    | some x =>
      have hsplit := Lexer.rest_split hx
      have hsp : lx.step.tok.spelling lx.step.table = x.chars := by
        rw [Lexer.step_of_some hx]
        exact Lexeme.intern_spelling hx lx.table _
      have hst := Lexer.token_start_eq hle
      have hdrop : s.drop lx.token_start =
          x.chars ++ (lx.rest.dropWhile is_space).drop x.length := by
        rw [hst, ← hbuf']
        exact drop_append_length hsplit
      have htake : s.take lx.token_start = s.take lx.first ++ lx.rest.takeWhile is_space := by
        rw [hst, ← hbuf']
        exact take_add_of_drop hsplit hle
      refine ⟨?_, ?_, ?_⟩
      · rw [hsp, Lexeme.length_chars hx]
        exact next_lexeme_length_pos hx
      · rw [hsp, hdrop, List.take_left]
      · have h1 : lx.step.tok.loc = lx.loc.after (lx.rest.takeWhile is_space) := by
          rw [Lexer.step_of_some hx]
          rfl
        rw [h1, hloc, ← Location.after_append, hbuf', ← htake, Location.after_origin]
        rfl
  · intro u w v hw
    exact line_column_hspace u w v (fun c hc => by simpa [is_hspace] using hw c hc)
  · intro t tok0
    exact ⟨_, _, rfl, rfl, rfl, rfl⟩
  · intro t tok0
    exact ⟨_, _, rfl, rfl, rfl, rfl⟩

theorem token_location_witness :
    0 < (Token.spelling ⟨[⟨.Identifier, ['a']⟩, ⟨.Identifier, ['b']⟩]⟩
      ⟨.text 1, ⟨3, 1⟩⟩).length ∧
    (['a', '\r', '\n', 'b'].drop (Lexer.token_start
        { table := ⟨[⟨.Identifier, ['a']⟩]⟩, buf := ['a', '\r', '\n', 'b'], first := 1,
          tok := ⟨.text 0, ⟨1, 1⟩⟩, loc := ⟨1, 2⟩ })).take
        (Token.spelling ⟨[⟨.Identifier, ['a']⟩, ⟨.Identifier, ['b']⟩]⟩
          ⟨.text 1, ⟨3, 1⟩⟩).length =
      Token.spelling ⟨[⟨.Identifier, ['a']⟩, ⟨.Identifier, ['b']⟩]⟩ ⟨.text 1, ⟨3, 1⟩⟩ ∧
    (⟨3, 1⟩ : Location) =
      ⟨line_at ['a', '\r', '\n', 'b'] (Lexer.token_start
        { table := ⟨[⟨.Identifier, ['a']⟩]⟩, buf := ['a', '\r', '\n', 'b'], first := 1,
          tok := ⟨.text 0, ⟨1, 1⟩⟩, loc := ⟨1, 2⟩ }),
       column_at ['a', '\r', '\n', 'b'] (Lexer.token_start
        { table := ⟨[⟨.Identifier, ['a']⟩]⟩, buf := ['a', '\r', '\n', 'b'], first := 1,
          tok := ⟨.text 0, ⟨1, 1⟩⟩, loc := ⟨1, 2⟩ })⟩ :=
  token_location.1 ⟨[]⟩ ['a', '\r', '\n', 'b'] ⟨.canon .Eof, ⟨0, 0⟩⟩ 1
    { table := ⟨[⟨.Identifier, ['a']⟩]⟩, buf := ['a', '\r', '\n', 'b'], first := 1,
      tok := ⟨.text 0, ⟨1, 1⟩⟩, loc := ⟨1, 2⟩ }
    { table := ⟨[⟨.Identifier, ['a']⟩, ⟨.Identifier, ['b']⟩]⟩, buf := ['a', '\r', '\n', 'b'],
      first := 4, tok := ⟨.text 1, ⟨3, 1⟩⟩, loc := ⟨3, 2⟩ }
    rfl rfl (by decide)

/-! ## Interning of identifiers -/

/-- C7: on one symbol table (with `put` and `get` as the spec describes them), two tokens of
kind `Identifier` returned by the lexer, the second by a later call than the first, have
equal symbols if and only if their spellings are equal, the spelling of the first is still
the same in the later table, and when the spellings are equal the call that returns the
second leaves the table as it was. In particular `foo foo` on the empty table gives two
`Identifier` tokens with equal symbols, and the second adds no entry to the table. -/
theorem identifier_interning :
    (∀ (lx lx1 lx2 lx3 : Lexer) (n : Nat),
      lx.operator_call = .ok lx1 → Lexer.calls n lx1 = .ok lx2 → lx2.operator_call = .ok lx3 →
      lx1.tok.kind lx1.table = some Symbol.Kind.Identifier →
      lx3.tok.kind lx3.table = some Symbol.Kind.Identifier →
      (lx1.tok.sym = lx3.tok.sym ↔
        lx1.tok.spelling lx1.table = lx3.tok.spelling lx3.table) ∧
      lx1.tok.spelling lx3.table = lx1.tok.spelling lx1.table ∧
      (lx1.tok.spelling lx1.table = lx3.tok.spelling lx3.table → lx3.table = lx2.table)) ∧
    (∀ tok0 : Token, ∃ lx1 lx2,
      (Lexer.init ⟨[]⟩ ['f', 'o', 'o', ' ', 'f', 'o', 'o'] tok0).operator_call = .ok lx1 ∧
      lx1.operator_call = .ok lx2 ∧
      lx1.tok.kind lx1.table = some Symbol.Kind.Identifier ∧
      lx2.tok.kind lx2.table = some Symbol.Kind.Identifier ∧
      lx1.tok.spelling lx1.table = ['f', 'o', 'o'] ∧
      lx2.tok.spelling lx2.table = ['f', 'o', 'o'] ∧
      lx1.tok.sym = lx2.tok.sym ∧
      lx1.table = ⟨[⟨Symbol.Kind.Identifier, ['f', 'o', 'o']⟩]⟩ ∧
      lx2.table = lx1.table) := by
  constructor
  · intro lx lx1 lx2 lx3 n h1 hn h3 hk1 hk3
    obtain ⟨_, rfl⟩ := Lexer.operator_call_ok_iff.mp h1
    obtain ⟨_, rfl⟩ := Lexer.operator_call_ok_iff.mp h3
    have i1 := Lexer.step_identifier_interned hk1
    have i3 := Lexer.step_identifier_interned hk3
    have i12 := Lexer.calls_interned_mono n i1 hn
    have i13 := Lexer.step_interned_mono i12
    refine ⟨symbol_table.interned_inj i13 i3, symbol_table.interned_spelling i13 _, ?_⟩
    intro hsp
    rw [hsp] at i12
    exact Lexer.step_table_of_interned i12
  · intro tok0
    exact ⟨_, _, rfl, rfl, rfl, rfl, rfl, rfl, rfl, rfl, rfl⟩

theorem identifier_interning_witness :
    ((SymbolRef.text 0 = SymbolRef.text 1 ↔
        Token.spelling ⟨[⟨.Identifier, ['a']⟩]⟩ ⟨.text 0, ⟨1, 1⟩⟩ =
          Token.spelling ⟨[⟨.Identifier, ['a']⟩, ⟨.Identifier, ['b']⟩]⟩ ⟨.text 1, ⟨1, 5⟩⟩) ∧
      Token.spelling ⟨[⟨.Identifier, ['a']⟩, ⟨.Identifier, ['b']⟩]⟩ ⟨.text 0, ⟨1, 1⟩⟩ =
        Token.spelling ⟨[⟨.Identifier, ['a']⟩]⟩ ⟨.text 0, ⟨1, 1⟩⟩ ∧
      (Token.spelling ⟨[⟨.Identifier, ['a']⟩]⟩ ⟨.text 0, ⟨1, 1⟩⟩ =
          Token.spelling ⟨[⟨.Identifier, ['a']⟩, ⟨.Identifier, ['b']⟩]⟩ ⟨.text 1, ⟨1, 5⟩⟩ →
        (⟨[⟨.Identifier, ['a']⟩, ⟨.Identifier, ['b']⟩]⟩ : symbol_table) =
          ⟨[⟨.Identifier, ['a']⟩]⟩)) :=
  identifier_interning.1 (Lexer.init ⟨[]⟩ ['a', ' ', '.', ' ', 'b'] ⟨.canon .Eof, ⟨0, 0⟩⟩)
    { table := ⟨[⟨.Identifier, ['a']⟩]⟩, buf := ['a', ' ', '.', ' ', 'b'], first := 1,
      tok := ⟨.text 0, ⟨1, 1⟩⟩, loc := ⟨1, 2⟩ }
    { table := ⟨[⟨.Identifier, ['a']⟩]⟩, buf := ['a', ' ', '.', ' ', 'b'], first := 3,
      tok := ⟨.canon .Dot, ⟨1, 3⟩⟩, loc := ⟨1, 4⟩ }
    { table := ⟨[⟨.Identifier, ['a']⟩, ⟨.Identifier, ['b']⟩]⟩,
      buf := ['a', ' ', '.', ' ', 'b'], first := 5,
      tok := ⟨.text 1, ⟨1, 5⟩⟩, loc := ⟨1, 6⟩ }
    1 rfl rfl rfl rfl rfl

/-! ## Whitespace between tokens -/

/-- C8: for an input `s = u ++ v` and the offset `|u|` in it, when that offset is not strictly
inside an identifier token of `s` (a token that begins with a letter or an underscore; the
other tokens have one character), inserting a run `w` of spaces and tabs at the offset
gives an input whose token sequence, up to and including the first `Eof`, has the same kinds
and the same spellings in the same order; indeed the same symbols, and the same table at the
end. -/
theorem whitespace_insertion (t : symbol_table) (tok0 : Token) (u w v : List Char)
    (es : List (Nat × Nat)) (hw : ∀ c ∈ w, c = ' ' ∨ c = '\t')
    (hes : (Lexer.init t (u ++ v) tok0).token_extents = .ok es)
    (hin : ∀ e ∈ es, ((u ++ v)[e.1]?).any (fun c => isalpha c || c == '_') = true →
      ¬ (e.1 < u.length ∧ u.length < e.2)) :
    ∃ ts1 lx1 ts2 lx2,
      (Lexer.init t (u ++ v) tok0).tokens = .ok (ts1, lx1) ∧
      (Lexer.init t (u ++ w ++ v) tok0).tokens = .ok (ts2, lx2) ∧
      ts2.map (Token.kind lx2.table) = ts1.map (Token.kind lx1.table) ∧
      ts2.map (Token.spelling lx2.table) = ts1.map (Token.spelling lx1.table) ∧
      ts2.map Token.sym = ts1.map Token.sym ∧ lx2.table = lx1.table := by
  obtain ⟨ts1, lx1, ts2, lx2, h1, h2, hmap, htab⟩ :=
    Lexer.tokens_ws_inserted t tok0 u w v es
      (fun c hc => by simpa [is_hspace] using hw c hc) hes hin
  refine ⟨ts1, lx1, ts2, lx2, h1, h2, ?_, ?_, hmap, htab⟩
  · rw [htab]; exact (map_kind_of_map_sym lx1.table hmap).1
  · rw [htab]; exact (map_kind_of_map_sym lx1.table hmap).2

theorem whitespace_insertion_witness :
    ∃ ts1 lx1 ts2 lx2,
      (Lexer.init ⟨[]⟩ (['a', 'b'] ++ ['(', 'c']) ⟨.canon .Eof, ⟨0, 0⟩⟩).tokens
        = .ok (ts1, lx1) ∧
      (Lexer.init ⟨[]⟩ (['a', 'b'] ++ [' ', '\t'] ++ ['(', 'c']) ⟨.canon .Eof, ⟨0, 0⟩⟩).tokens
        = .ok (ts2, lx2) ∧
      ts2.map (Token.kind lx2.table) = ts1.map (Token.kind lx1.table) ∧
      ts2.map (Token.spelling lx2.table) = ts1.map (Token.spelling lx1.table) ∧
      ts2.map Token.sym = ts1.map Token.sym ∧ lx2.table = lx1.table :=
  whitespace_insertion ⟨[]⟩ ⟨.canon .Eof, ⟨0, 0⟩⟩ ['a', 'b'] [' ', '\t'] ['(', 'c']
    [(0, 2), (2, 3), (3, 4)] (by decide) rfl (by decide)

/-- C9, as stated, fails: in `a b` the space lies between the two tokens `a` and `b`
(extents (0,1) and (2,3)), and deleting it gives `ab`, which is one identifier: the kinds
and the spellings of the two token sequences differ. -/
theorem whitespace_removal_counterexample :
    ∃ ts1 lx1 ts2 lx2,
      (Lexer.init ⟨[]⟩ (['a'] ++ [' '] ++ ['b']) ⟨.canon .Eof, ⟨0, 0⟩⟩).token_extents
        = .ok [(0, 1), (2, 3)] ∧
      (Lexer.init ⟨[]⟩ (['a'] ++ [' '] ++ ['b']) ⟨.canon .Eof, ⟨0, 0⟩⟩).tokens
        = .ok (ts1, lx1) ∧
      (Lexer.init ⟨[]⟩ (['a'] ++ ['b']) ⟨.canon .Eof, ⟨0, 0⟩⟩).tokens = .ok (ts2, lx2) ∧
      ts1.map (Token.kind lx1.table) =
        [some Symbol.Kind.Identifier, some Symbol.Kind.Identifier, some Symbol.Kind.Eof] ∧
      ts2.map (Token.kind lx2.table) = [some Symbol.Kind.Identifier, some Symbol.Kind.Eof] ∧
      ts1.map (Token.spelling lx1.table) = [['a'], ['b'], []] ∧
      ts2.map (Token.spelling lx2.table) = [['a', 'b'], []] ∧
      ts2.map (Token.kind lx2.table) ≠ ts1.map (Token.kind lx1.table) ∧
      ts2.map (Token.spelling lx2.table) ≠ ts1.map (Token.spelling lx1.table) :=
  ⟨_, _, _, _, rfl, rfl, rfl, rfl, rfl, rfl, rfl, by decide, by decide⟩

/-- C9, amended: for an input `s = u ++ w ++ v` where `w` is a run of spaces and tabs,
deleting `w` gives an input whose token sequence, up to and including the first `Eof`, has
the same kinds and the same spellings in the same order (indeed the same symbols and the
same table at the end), provided `w` is not the only separator of an identifier and a
letter, digit or underscore: no identifier token of `s` (a token that begins with a letter
or an underscore) that ends where `w` begins is followed right after `w` by a letter, a
digit or an underscore. -/
theorem whitespace_removal (t : symbol_table) (tok0 : Token) (u w v : List Char)
    (es : List (Nat × Nat)) (hw : ∀ c ∈ w, c = ' ' ∨ c = '\t')
    (hes : (Lexer.init t (u ++ w ++ v) tok0).token_extents = .ok es)
    (hsep : ∀ e ∈ es, ((u ++ w ++ v)[e.1]?).any (fun c => isalpha c || c == '_') = true →
      e.2 = u.length → v.head?.any (fun c => isalnum c || c == '_') = false) :
    ∃ ts1 lx1 ts2 lx2,
      (Lexer.init t (u ++ w ++ v) tok0).tokens = .ok (ts1, lx1) ∧
      (Lexer.init t (u ++ v) tok0).tokens = .ok (ts2, lx2) ∧
      ts2.map (Token.kind lx2.table) = ts1.map (Token.kind lx1.table) ∧
      ts2.map (Token.spelling lx2.table) = ts1.map (Token.spelling lx1.table) ∧
      ts2.map Token.sym = ts1.map Token.sym ∧ lx2.table = lx1.table := by
  have hw' : ∀ c ∈ w, is_hspace c = true := fun c hc => by simpa [is_hspace] using hw c hc
  by_cases hne : w = []
  · subst hne
    obtain ⟨⟨ts, lx⟩, h⟩ := Lexer.run_total ((u ++ v).length + 1)
      (Lexer.init t (u ++ v) tok0) (Nat.zero_le _) (by simp [Lexer.init])
    have h' : (Lexer.init t (u ++ v) tok0).tokens = .ok (ts, lx) := h
    exact ⟨ts, lx, ts, lx, by simpa using h', h', rfl, rfl, rfl, rfl⟩
  · obtain ⟨es1, hes1⟩ := Lexer.extents_total ((u ++ v).length + 1)
      (Lexer.init t (u ++ v) tok0) (Nat.zero_le _) (by simp [Lexer.init])
    rw [List.append_assoc] at hes hsep
    have hin := Lexer.not_inside_of_separated t tok0 u w v es1 es hw' hne hes1 hes hsep
    obtain ⟨ts1, lx1, ts2, lx2, h1, h2, hmap, htab⟩ :=
      Lexer.tokens_ws_inserted t tok0 u w v es1 hw' hes1 hin
    refine ⟨ts2, lx2, ts1, lx1, h2, h1, ?_, ?_, hmap.symm, htab.symm⟩
    · rw [htab]; exact (map_kind_of_map_sym lx1.table hmap.symm).1
    · rw [htab]; exact (map_kind_of_map_sym lx1.table hmap.symm).2

theorem whitespace_removal_witness :
    ∃ ts1 lx1 ts2 lx2,
      (Lexer.init ⟨[]⟩ (['a'] ++ [' ', ' '] ++ ['(', 'b']) ⟨.canon .Eof, ⟨0, 0⟩⟩).tokens
        = .ok (ts1, lx1) ∧
      (Lexer.init ⟨[]⟩ (['a'] ++ ['(', 'b']) ⟨.canon .Eof, ⟨0, 0⟩⟩).tokens = .ok (ts2, lx2) ∧
      ts2.map (Token.kind lx2.table) = ts1.map (Token.kind lx1.table) ∧
      ts2.map (Token.spelling lx2.table) = ts1.map (Token.spelling lx1.table) ∧
      ts2.map Token.sym = ts1.map Token.sym ∧ lx2.table = lx1.table :=
  whitespace_removal ⟨[]⟩ ⟨.canon .Eof, ⟨0, 0⟩⟩ ['a'] [' ', ' '] ['(', 'b']
    [(0, 1), (3, 4), (4, 5)] (by decide) rfl (by decide)

/-! ## What `consume_ws` consumes -/

theorem is_space_iff (c : Char) :
    is_space c = true ↔ c = ' ' ∨ c = '\t' ∨ c = '\r' ∨ c = '\n' ∨ c = vtab := by
  simp only [is_space, is_hspace, is_vspace, Bool.or_eq_true, decide_eq_true_eq]
  tauto

theorem Lexer.consume_ws_total {lx : Lexer} (hle : lx.first ≤ lx.buf.length) :
    lx.consume_ws =
      .ok (if lx.rest.takeWhile is_space = [] then none else some true,
        lx.moved (lx.rest.takeWhile is_space).length
          (lx.loc.after (lx.rest.takeWhile is_space))) :=
  Lexer.consume_ws_eq (List.takeWhile_append_dropWhile is_space lx.rest).symm
    (fun _ hx => List.mem_takeWhile_imp hx) (takeWhile_append_dropWhile_head is_space lx.rest)
    hle

/-- C14: from a state whose scan position is in the buffer, `consume_ws` consumes exactly
the maximal prefix of the rest of the input made of space, tab, CR, LF and VT: afterwards
the scan position is at the end of the input or at a character that is none of the five, and
nothing else of the state has changed but the location, which is the location after the
consumed characters one by one, where a space or a tab adds one to the column and leaves the
line, and a CR, LF or VT adds one to the line and sets the column to 1. No other character
is whitespace, form feed included. -/
theorem consume_ws_maximal :
    (∀ lx : Lexer, lx.first ≤ lx.last →
      ∃ r lx', lx.consume_ws = .ok (r, lx') ∧
        lx'.first = lx.first + ((lx.buf.drop lx.first).takeWhile is_space).length ∧
        lx.buf.drop lx'.first = (lx.buf.drop lx.first).dropWhile is_space ∧
        (lx'.first = lx.last ∨ ∃ c, lx.buf[lx'.first]? = some c ∧ is_space c = false) ∧
        lx'.loc = lx.loc.after ((lx.buf.drop lx.first).takeWhile is_space) ∧
        lx'.buf = lx.buf ∧ lx'.table = lx.table ∧ lx'.tok = lx.tok) ∧
    (∀ c : Char, is_space c = true ↔ c = ' ' ∨ c = '\t' ∨ c = '\r' ∨ c = '\n' ∨ c = vtab) ∧
    is_space (Char.ofNat 12) = false ∧
    (∀ (l : Location) (c : Char) (cs : List Char),
      l.after [] = l ∧ l.after (c :: cs) = (l.step c).after cs) ∧
    (∀ (l : Location) (c : Char), c = ' ' ∨ c = '\t' →
      l.step c = { line := l.line, column := l.column + 1 }) ∧
    (∀ (l : Location) (c : Char), c = '\r' ∨ c = '\n' ∨ c = vtab →
      l.step c = { line := l.line + 1, column := 1 }) := by
  refine ⟨?_, is_space_iff, by decide, fun l c cs => ⟨rfl, rfl⟩, ?_, ?_⟩
  · intro lx hle
    have hle' : lx.first ≤ lx.buf.length := hle
    refine ⟨_, _, Lexer.consume_ws_total hle', rfl, ?_, ?_, rfl, rfl, rfl, rfl⟩
    · have := drop_append_length (List.takeWhile_append_dropWhile is_space lx.rest).symm
      exact this
    · have hd : lx.buf.drop (lx.first + (lx.rest.takeWhile is_space).length) =
          lx.rest.dropWhile is_space :=
        drop_append_length (List.takeWhile_append_dropWhile is_space lx.rest).symm
      cases hr : lx.rest.dropWhile is_space with
      | nil =>
        left
        rw [hr] at hd
        have h1 := length_le_of_rest
          (show lx.rest = lx.rest.takeWhile is_space ++ [] by
            rw [List.append_nil, dropWhile_nil_takeWhile _ _ hr]) hle'
        simp only [Lexer.moved, Lexer.last]
        simp only [List.length_nil, Nat.add_zero] at h1
        exact h1
      | cons c tl =>
        right
        rw [hr] at hd
        refine ⟨c, drop_cons_getElem? hd, ?_⟩
        exact takeWhile_append_dropWhile_head is_space lx.rest c (by rw [hr]; simp)
  · intro l c hc
    have hv : is_vspace c = false := by
      rcases hc with rfl | rfl <;> decide
    simp [Location.step, hv]
  · intro l c hc
    have hv : is_vspace c = true := by
      simpa [is_vspace] using hc
    simp [Location.step, hv]

theorem consume_ws_maximal_witness :
    ∃ r lx', (Lexer.init ⟨[]⟩ [' ', '\n', '\t', 'a', ' '] ⟨.canon .Eof, ⟨0, 0⟩⟩).consume_ws
        = .ok (r, lx') ∧
      lx'.first = 3 ∧ lx'.loc = ⟨2, 2⟩ ∧
      (lx'.first = 5 ∨ ∃ c, [' ', '\n', '\t', 'a', ' '][lx'.first]? = some c ∧
        is_space c = false) := by
  obtain ⟨r, lx', h1, h2, _, h4, h5, _⟩ :=
    consume_ws_maximal.1 (Lexer.init ⟨[]⟩ [' ', '\n', '\t', 'a', ' '] ⟨.canon .Eof, ⟨0, 0⟩⟩)
      (by decide)
  exact ⟨r, lx', h1, h2, h5, h4⟩

/-- C18: evaluation of `consume_ws` where it consumes nothing: at the end of the input and
at a character that is not whitespace the loop body never runs, and the value returned is
that of the local `bool result;`, which has no initialiser (`none` here), not `false`; the
value is `true` when whitespace was consumed. -/
theorem consume_ws_result_uninitialised : ∀ tok0 : Token,
    (Lexer.init ⟨[]⟩ [] tok0).consume_ws = .ok (none, Lexer.init ⟨[]⟩ [] tok0) ∧
    (Lexer.init ⟨[]⟩ ['a'] tok0).consume_ws = .ok (none, Lexer.init ⟨[]⟩ ['a'] tok0) ∧
    (∃ lx', (Lexer.init ⟨[]⟩ [' ', 'a'] tok0).consume_ws = .ok (some true, lx') ∧
      lx'.first = 1) :=
  fun _ => ⟨rfl, rfl, ⟨_, rfl, rfl⟩⟩

/-! ## The scan position stays in the buffer -/

theorem Lexer.calls_total : ∀ (n : Nat) (lx0 : Lexer), lx0.first ≤ lx0.buf.length →
    ∃ lx, Lexer.calls n lx0 = .ok lx ∧ lx.first ≤ lx.buf.length ∧ lx.buf = lx0.buf ∧
      lx0.first ≤ lx.first := by
  intro n
  induction n with
  | zero => intro lx0 hle; exact ⟨lx0, rfl, hle, rfl, Nat.le_refl _⟩
  | succ n ih =>
    intro lx0 hle
    have hs := Lexer.step_first_le hle
    obtain ⟨lx, hc, h1, h2, h3⟩ := ih lx0.step hs.2
    exact ⟨lx, by rw [Lexer.calls_succ hle]; exact hc, h1, by rw [h2, Lexer.step_buf],
      Nat.le_trans hs.1 h3⟩

theorem Lexer.operator_call_out_of_range {lx : Lexer} (h : lx.buf.length < lx.first) :
    lx.operator_call = .error Fault.out_of_range := by
  have he : lx.is_eof = false := by
    simp only [Lexer.is_eof, Lexer.last, beq_eq_false_iff_ne, ne_eq]; omega
  have hd : lx.deref = .error Fault.out_of_range := by
    have : lx.buf[lx.first]? = none := List.getElem?_eq_none (by omega)
    simp [Lexer.deref, this]
  simp [Lexer.operator_call, Lexer.consume_ws, Lexer.consume_ws_loop, Lexer.consume_ws_cond,
    he, Lexer.consume_horizontal_ws, hd]

/-- C17: on every input, after any number of calls of `operator()` from the constructed
lexer the scan position is in the buffer (`first <= last`), and no call has faulted; from
every state with `first <= last`, `consume_ws` and the whole call return without taking the
out-of-range branch of a read of `*first` (a fault of any read inside would be the result),
and leave `first <= last` with `first` not moved back; at a state with `first < last` each
function that reads `*first` returns. The index check is a real one: from a state with
`last < first` the call faults at its first read. -/
theorem scan_position_in_buffer :
    (∀ (t : symbol_table) (s : List Char) (tok0 : Token) (n : Nat),
      ∃ lx, Lexer.calls n (Lexer.init t s tok0) = .ok lx ∧ lx.first ≤ lx.last ∧
        lx.last = s.length) ∧
    (∀ lx : Lexer, lx.first ≤ lx.last →
      ∃ r lxw lx', lx.consume_ws = .ok (r, lxw) ∧ lxw.first ≤ lxw.last ∧
        lx.operator_call = .ok lx' ∧ lx.first ≤ lx'.first ∧ lx'.first ≤ lx'.last ∧
        lx'.last = lx.last) ∧
    (∀ lx : Lexer, lx.first < lx.last →
      (∃ c, lx.deref = .ok c) ∧ (∃ r, lx.consume_horizontal_ws = .ok r) ∧
      (∃ r, lx.consume_vertical_ws = .ok r) ∧ (∃ r, lx.is_identifier = .ok r) ∧
      (∃ r, lx.make_error = .ok r)) ∧
    (∀ lx : Lexer, lx.last < lx.first → lx.operator_call = .error Fault.out_of_range) := by
  refine ⟨?_, ?_, ?_, fun lx h => Lexer.operator_call_out_of_range h⟩
  rotate_left 2
  · intro lx hlt
    obtain ⟨c, tl, hr⟩ : ∃ c tl, lx.rest = c :: tl := by
      cases hq : lx.rest with
      | nil =>
        have := congrArg List.length hq
        simp only [Lexer.rest, List.length_drop, List.length_nil, Lexer.last] at this hlt
        omega
      | cons c tl => exact ⟨c, tl, rfl⟩
    have hd := Lexer.deref_of_rest hr
    refine ⟨⟨c, hd⟩, ?_, ?_, ?_, ?_⟩
    rotate_left 3
    · simp only [Lexer.make_error, hd]
      exact ⟨_, rfl⟩
    · simp only [Lexer.consume_horizontal_ws, hd]
      split_ifs <;> exact ⟨_, rfl⟩
    · simp only [Lexer.consume_vertical_ws, hd]
      split_ifs <;> exact ⟨_, rfl⟩
    · cases hi : is_ident_start c with
      | true => exact ⟨_, Lexer.is_identifier_eq_true hr hi⟩
      | false => exact ⟨_, Lexer.is_identifier_eq_false hr hi⟩
  · intro t s tok0 n
    obtain ⟨lx, hc, h1, h2, _⟩ := Lexer.calls_total n (Lexer.init t s tok0) (Nat.zero_le _)
    exact ⟨lx, hc, h1, by simp only [Lexer.last, h2]; rfl⟩
  · intro lx hle
    have hle' : lx.first ≤ lx.buf.length := hle
    have hs := Lexer.step_first_le hle'
    refine ⟨_, _, lx.step, Lexer.consume_ws_total hle', ?_, Lexer.operator_call_eq_step hle',
      hs.1, hs.2, by simp only [Lexer.last, Lexer.step_buf]⟩
    have h1 := length_le_of_rest (List.takeWhile_append_dropWhile is_space lx.rest).symm hle'
    simp only [Lexer.moved, Lexer.last]
    omega

theorem scan_position_in_buffer_witness :
    ∃ r lxw lx', (Lexer.init ⟨[]⟩ [' ', '7'] ⟨.canon .Eof, ⟨0, 0⟩⟩).consume_ws
        = .ok (r, lxw) ∧ lxw.first ≤ lxw.last ∧
      (Lexer.init ⟨[]⟩ [' ', '7'] ⟨.canon .Eof, ⟨0, 0⟩⟩).operator_call = .ok lx' ∧
      (Lexer.init ⟨[]⟩ [' ', '7'] ⟨.canon .Eof, ⟨0, 0⟩⟩).first ≤ lx'.first ∧
      lx'.first ≤ lx'.last ∧
      lx'.last = (Lexer.init ⟨[]⟩ [' ', '7'] ⟨.canon .Eof, ⟨0, 0⟩⟩).last :=
  scan_position_in_buffer.2.1 (Lexer.init ⟨[]⟩ [' ', '7'] ⟨.canon .Eof, ⟨0, 0⟩⟩) (by decide)

/-! ## The characters of the tokens -/

theorem symbol_table.spells_spelling {t : symbol_table} {tok : Token} {s : List Char}
    (h : t.spells tok.sym s) : tok.spelling t = s := by
  rcases h with ⟨k, hk, hs⟩ | h
  · simp [Token.spelling, symbol_table.deref, hk, hs]
  · exact symbol_table.interned_spelling h tok.loc

theorem Lexer.step_spells_mono {lx : Lexer} {r : SymbolRef} {s : List Char}
    (h : lx.table.spells r s) : lx.step.table.spells r s := by
  rcases h with h | h
  · exact Or.inl h
  · exact Or.inr (Lexer.step_interned_mono h)

/-- The token of a call that finds a lexeme is spelled by the characters of the lexeme. -/
theorem Lexer.step_spells {lx : Lexer} {x : Lexeme}
    (hx : next_lexeme (lx.rest.dropWhile is_space) = some x) :
    lx.step.table.spells lx.step.tok.sym x.chars := by
  rw [Lexer.step_of_some hx]
  simp only [Lexer.with_token]
  cases hr : lx.rest.dropWhile is_space with
  | nil => rw [hr] at hx; simp [next_lexeme] at hx
  | cons c tl =>
    rw [hr] at hx
    simp only [next_lexeme] at hx
    cases hp : punct_kind c with
    | some k =>
      rw [hp] at hx; cases hx
      exact Or.inl ⟨k, rfl, rfl⟩
    | none =>
      rw [hp] at hx
      simp only at hx
      split_ifs at hx <;> cases hx <;> exact Or.inr (symbol_table.put_interned _ _ _)

theorem Lexer.step_rest (lx : Lexer) :
    lx.step.rest = (lx.rest.dropWhile is_space).drop
      (lexeme_length (next_lexeme (lx.rest.dropWhile is_space))) := by
  have h0 : lx.buf.drop (lx.first + (lx.rest.takeWhile is_space).length) =
      lx.rest.dropWhile is_space :=
    drop_append_length (List.takeWhile_append_dropWhile is_space lx.rest).symm
  show lx.step.buf.drop lx.step.first = _
  rw [Lexer.step_buf, Lexer.step_first, ← List.drop_drop, h0]

theorem filter_not_space_of_all {l : List Char} (h : ∀ c ∈ l, is_space c = true) :
    l.filter (fun c => !is_space c) = [] := by
  rw [List.filter_eq_nil_iff]
  intro c hc
  simp [h c hc]

theorem filter_not_space_of_none {l : List Char} (h : ∀ c ∈ l, is_space c = false) :
    l.filter (fun c => !is_space c) = l := by
  rw [List.filter_eq_self]
  intro c hc
  simp [h c hc]

/-- The characters of the rest that are not whitespace are those of the lexeme found and
those of the rest after the call. -/
theorem Lexer.filter_rest (lx : Lexer) :
    lx.rest.filter (fun c => !is_space c) =
      (match next_lexeme (lx.rest.dropWhile is_space) with
        | none => []
        | some x => x.chars) ++ lx.step.rest.filter (fun c => !is_space c) := by
  have hws : ∀ c ∈ lx.rest.takeWhile is_space, is_space c = true :=
    fun _ hx => List.mem_takeWhile_imp hx
  rw [Lexer.step_rest lx]
  cases hx : next_lexeme (lx.rest.dropWhile is_space) with
  | none =>
    have hd := next_lexeme_eq_none.mp hx
    rw [hd]
    have hall : ∀ c ∈ lx.rest, is_space c = true := by
      rw [← dropWhile_nil_takeWhile _ _ hd]; exact hws
    simp [filter_not_space_of_all hall]
  | some x =>
    have h1 := next_lexeme_chars hx (takeWhile_append_dropWhile_head is_space lx.rest)
    simp only [lexeme_length]
    conv_lhs => rw [← List.takeWhile_append_dropWhile is_space lx.rest, h1.1]
    rw [List.filter_append, List.filter_append, filter_not_space_of_all hws,
      filter_not_space_of_none h1.2, List.nil_append]

theorem filter_ne_eof_cons (tk : Token) (ts : List Token) :
    (tk :: ts).filter (fun tk => decide (tk.sym ≠ SymbolRef.canon Symbol.Kind.Eof)) =
      if tk.sym = SymbolRef.canon Symbol.Kind.Eof then
        ts.filter (fun tk => decide (tk.sym ≠ SymbolRef.canon Symbol.Kind.Eof))
      else tk :: ts.filter (fun tk => decide (tk.sym ≠ SymbolRef.canon Symbol.Kind.Eof)) := by
  by_cases h : tk.sym = SymbolRef.canon Symbol.Kind.Eof <;> simp [List.filter_cons, h]

theorem Lexer.run_spelled : ∀ (fuel : Nat) (lx : Lexer) (ts : List Token) (e : Lexer),
    lx.first ≤ lx.buf.length → Lexer.run fuel lx = .ok (ts, e) →
    (∀ r s, lx.table.spells r s → e.table.spells r s) ∧
    ((ts.filter (fun tk => decide (tk.sym ≠ SymbolRef.canon Symbol.Kind.Eof))).map
        (Token.spelling e.table)).flatten = lx.rest.filter (fun c => !is_space c) ∧
    (ts.filter (fun tk => decide (tk.sym ≠ SymbolRef.canon Symbol.Kind.Eof))).length ≤
      (lx.rest.filter (fun c => !is_space c)).length := by
  intro fuel
  induction fuel with
  | zero => intro lx ts e _ h; simp [Lexer.run] at h
  | succ f ih =>
    intro lx ts e hle hrun
    rw [Lexer.run_succ hle] at hrun
    have hfilter := Lexer.filter_rest lx
    by_cases he : lx.step.tok.sym = SymbolRef.canon Symbol.Kind.Eof
    · rw [if_pos he] at hrun
      simp only [Except.ok.injEq, Prod.mk.injEq] at hrun
      obtain ⟨rfl, rfl⟩ := hrun
      have hd := (Lexer.step_tok_eof_iff lx).mp he
      have hall : ∀ c ∈ lx.rest, is_space c = true := by
        rw [← dropWhile_nil_takeWhile _ _ hd]
        exact fun _ hx => List.mem_takeWhile_imp hx
      refine ⟨fun r s h => Lexer.step_spells_mono h, ?_, ?_⟩
      · rw [filter_ne_eof_cons, if_pos he, filter_not_space_of_all hall]
        rfl
      · rw [filter_ne_eof_cons, if_pos he]
        exact Nat.zero_le _
    · rw [if_neg he] at hrun
      cases hr : Lexer.run f lx.step with
      | error err => rw [hr] at hrun; cases hrun
      | ok q =>
        obtain ⟨ts', e'⟩ := q
        rw [hr] at hrun
        simp only [Except.ok.injEq, Prod.mk.injEq] at hrun
        obtain ⟨rfl, rfl⟩ := hrun
        obtain ⟨hmono, hflat, hcount⟩ := ih lx.step ts' e' (Lexer.step_first_le hle).2 hr
        obtain ⟨x, hx⟩ : ∃ x, next_lexeme (lx.rest.dropWhile is_space) = some x := by
          cases hq : next_lexeme (lx.rest.dropWhile is_space) with
          | none =>
            exact absurd ((Lexer.step_tok_eof_iff lx).mpr (next_lexeme_eq_none.mp hq)) he
          | some x => exact ⟨x, rfl⟩
        have hsp : lx.step.tok.spelling e'.table = x.chars :=
          symbol_table.spells_spelling (hmono _ _ (Lexer.step_spells hx))
        have hpos : 0 < x.chars.length := by
          rw [Lexeme.length_chars hx]; exact next_lexeme_length_pos hx
        rw [hx] at hfilter
        simp only at hfilter
        refine ⟨fun r s h => hmono r s (Lexer.step_spells_mono h), ?_, ?_⟩
        · rw [filter_ne_eof_cons, if_neg he, List.map_cons, List.flatten_cons, hsp, hflat,
            hfilter]
        · rw [filter_ne_eof_cons, if_neg he, hfilter, List.length_cons, List.length_append]
          omega

/-! ## Lossless lexing -/

/-- C16: for every input `s`, the spellings of the tokens other than `Eof` returned by
repeated calls of `operator()`, concatenated in order (the spelling of a punctuation symbol
being its single character), are `s` with every space, tab, CR, LF and VT removed: no
character of the input is skipped or taken twice. -/
theorem lexing_lossless (t : symbol_table) (s : List Char) (tok0 : Token) :
    ∃ ts lx, (Lexer.init t s tok0).tokens = .ok (ts, lx) ∧
      ((ts.filter (fun tk => decide (tk.sym ≠ lx.table.get Symbol.Kind.Eof))).map
        (Token.spelling lx.table)).flatten = s.filter (fun c => !is_space c) := by
  obtain ⟨⟨ts, lx⟩, h⟩ := Lexer.run_total (s.length + 1) (Lexer.init t s tok0)
    (Nat.zero_le _) (by simp [Lexer.init])
  exact ⟨ts, lx, h, (Lexer.run_spelled _ _ ts lx (Nat.zero_le _) h).2.1⟩

/-! ## Progress -/

theorem Lexer.calls_eof_or_advanced : ∀ (k : Nat) (lx0 lx : Lexer),
    lx0.first ≤ lx0.buf.length → Lexer.calls (k + 1) lx0 = .ok lx →
    lx.tok.sym = SymbolRef.canon Symbol.Kind.Eof ∨ lx0.first + (k + 1) ≤ lx.first := by
  intro k
  induction k with
  | zero =>
    intro lx0 lx hle hc
    rw [Lexer.calls_succ hle] at hc
    simp only [Lexer.calls, Except.ok.injEq] at hc
    subst hc
    by_cases he : lx0.step.tok.sym = SymbolRef.canon Symbol.Kind.Eof
    · exact Or.inl he
    · exact Or.inr (Lexer.step_progress he)
  | succ k ih =>
    intro lx0 lx hle hc
    rw [Lexer.calls_succ hle] at hc
    by_cases he : lx0.step.tok.sym = SymbolRef.canon Symbol.Kind.Eof
    · rw [Lexer.calls_of_eof hle he] at hc
      simp only [Except.ok.injEq] at hc
      subst hc
      exact Or.inl he
    · have hp := Lexer.step_progress he
      rcases ih lx0.step lx (Lexer.step_first_le hle).2 hc with h | h
      · exact Or.inl h
      · exact Or.inr (by omega)

/-- C11: on every input `s` of `n` characters (whatever they are), every call of `operator()`
returns a token; a call that returns a token other than `Eof` moves the scan position at
least one character on; the tokens before the first `Eof` are at most as many as the
characters of `s` that are not whitespace; and the call number `n + 1` and every later one
return `Eof`. -/
theorem lexer_progress (t : symbol_table) (s : List Char) (tok0 : Token) :
    (∀ k, ∃ lx lx', Lexer.calls k (Lexer.init t s tok0) = .ok lx ∧
      lx.operator_call = .ok lx') ∧
    (∀ k lx lx', Lexer.calls k (Lexer.init t s tok0) = .ok lx → lx.operator_call = .ok lx' →
      lx'.tok.sym ≠ lx'.table.get Symbol.Kind.Eof → lx.first + 1 ≤ lx'.first) ∧
    (∃ ts lx, (Lexer.init t s tok0).tokens = .ok (ts, lx) ∧
      (ts.filter (fun tk => decide (tk.sym ≠ lx.table.get Symbol.Kind.Eof))).length ≤
        (s.filter (fun c => !is_space c)).length) ∧
    (∀ k lx, s.length + 1 ≤ k → Lexer.calls k (Lexer.init t s tok0) = .ok lx →
      lx.tok.sym = lx.table.get Symbol.Kind.Eof) := by
  refine ⟨?_, ?_, ?_, ?_⟩
  · intro k
    obtain ⟨lx, hc, hle, _⟩ := Lexer.calls_total k (Lexer.init t s tok0) (Nat.zero_le _)
    exact ⟨lx, lx.step, hc, Lexer.operator_call_eq_step hle⟩
  · intro k lx lx' _ hc hne
    obtain ⟨_, rfl⟩ := Lexer.operator_call_ok_iff.mp hc
    exact Lexer.step_progress hne
  · obtain ⟨⟨ts, lx⟩, h⟩ := Lexer.run_total (s.length + 1) (Lexer.init t s tok0)
      (Nat.zero_le _) (by simp [Lexer.init])
    exact ⟨ts, lx, h, (Lexer.run_spelled _ _ ts lx (Nat.zero_le _) h).2.2⟩
  · intro k lx hk hc
    obtain ⟨j, rfl⟩ : ∃ j, k = j + 1 := ⟨k - 1, by omega⟩
    have hle := (Lexer.calls_first_le (j + 1) (Nat.zero_le _) hc).2
    have hbuf := (Lexer.calls_total (j + 1) (Lexer.init t s tok0) (Nat.zero_le _))
    obtain ⟨lx2, hc2, _, hb, _⟩ := hbuf
    rw [hc] at hc2
    cases hc2
    rcases Lexer.calls_eof_or_advanced j _ lx (Nat.zero_le _) hc with h | h
    · exact h
    · exfalso
      rw [hb] at hle
      simp only [Lexer.init] at h hle
      omega

theorem lexer_progress_witness :
    (1 : Nat) + 1 ≤ 3 ∧
    SymbolRef.canon Symbol.Kind.Eof =
      symbol_table.get ⟨[⟨.Error, ['@']⟩, ⟨.Error, ['1']⟩, ⟨.Identifier, ['a']⟩]⟩
        Symbol.Kind.Eof :=
  ⟨(lexer_progress ⟨[]⟩ ['@', ' ', '1', 'a'] ⟨.canon .Eof, ⟨0, 0⟩⟩).2.1 1
      { table := ⟨[⟨.Error, ['@']⟩]⟩, buf := ['@', ' ', '1', 'a'], first := 1,
        tok := ⟨.text 0, ⟨1, 1⟩⟩, loc := ⟨1, 2⟩ }
      { table := ⟨[⟨.Error, ['@']⟩, ⟨.Error, ['1']⟩]⟩, buf := ['@', ' ', '1', 'a'],
        first := 3, tok := ⟨.text 1, ⟨1, 3⟩⟩, loc := ⟨1, 4⟩ }
      rfl rfl (by decide),
    (lexer_progress ⟨[]⟩ ['@', ' ', '1', 'a'] ⟨.canon .Eof, ⟨0, 0⟩⟩).2.2.2 5
      { table := ⟨[⟨.Error, ['@']⟩, ⟨.Error, ['1']⟩, ⟨.Identifier, ['a']⟩]⟩,
        buf := ['@', ' ', '1', 'a'], first := 4,
        tok := ⟨.canon .Eof, ⟨1, 4⟩⟩, loc := ⟨1, 5⟩ }
      (by decide) rfl⟩

/-! ## The kind of a token -/

theorem Lexer.step_kind {lx : Lexer} (ht : lx.table.lexical) :
    lx.step.tok.kind lx.step.table =
      some (first_char_kind (lx.rest.dropWhile is_space).head?) := by
  cases hr : lx.rest.dropWhile is_space with
  | nil =>
    have hx : next_lexeme (lx.rest.dropWhile is_space) = none := by rw [hr]; rfl
    rw [Lexer.step_of_none hx]
    rfl
  | cons c tl =>
    simp only [List.head?_cons, first_char_kind]
    cases hp : punct_kind c with
    | some k =>
      have hx : next_lexeme (lx.rest.dropWhile is_space) = some (Lexeme.punct k) := by
        rw [hr]; simp [next_lexeme, hp]
      rw [Lexer.step_of_some hx]
      rfl
    | none =>
      cases hi : is_ident_start c with
      | true =>
        have hx : next_lexeme (lx.rest.dropWhile is_space) =
            some (Lexeme.ident (c :: tl.takeWhile is_ident_char)) := by
          rw [hr]; simp [next_lexeme, hp, hi]
        rw [Lexer.step_of_some hx]
        simp only [if_true]
        exact symbol_table.put_kind_lexical _ _ _ _ ht (by simp [hi])
      | false =>
        have hx : next_lexeme (lx.rest.dropWhile is_space) = some (Lexeme.error c) := by
          rw [hr]; simp [next_lexeme, hp, hi]
        rw [Lexer.step_of_some hx]
        simp only [Bool.false_eq_true, if_false]
        exact symbol_table.put_kind_lexical _ _ _ _ ht (by simp [hi])

theorem Lexer.step_error_spelling {lx : Lexer}
    (h : ∃ c, (lx.rest.dropWhile is_space).head? = some c ∧ punct_kind c = none ∧
      is_ident_start c = false) :
    (lx.step.tok.spelling lx.step.table).length = 1 ∧
      lx.step.first = lx.token_start + 1 := by
  obtain ⟨c, hc, hp, hi⟩ := h
  cases hr : lx.rest.dropWhile is_space with
  | nil => rw [hr] at hc; simp at hc
  | cons d tl =>
    rw [hr] at hc
    simp only [List.head?_cons, Option.some.injEq] at hc
    subst hc
    have hx : next_lexeme (lx.rest.dropWhile is_space) = some (Lexeme.error d) := by
      rw [hr]; simp [next_lexeme, hp, hi]
    have hle : lx.first ≤ lx.buf.length := by
      by_contra hn
      have : lx.rest = [] := by
        simp only [Lexer.rest]
        exact List.drop_of_length_le (by omega)
      rw [this] at hr
      simp at hr
    refine ⟨?_, ?_⟩
    · rw [Lexer.step_of_some hx]
      simp [Lexer.with_token, Lexeme.intern, symbol_table.get_text,
        symbol_table.put_spelling]
    · rw [Lexer.token_start_add lx hle, hx]
      rfl

theorem first_char_kind_punct {c : Char} {k : Symbol.Kind}
    (h : (c, k) ∈ [('(', Symbol.Kind.Lparen), (')', Symbol.Kind.Rparen),
      ('\\', Symbol.Kind.Backslash), ('.', Symbol.Kind.Dot), (';', Symbol.Kind.Semicolon),
      ('=', Symbol.Kind.Equal)]) (o : Option Char) :
    first_char_kind o = k ↔ o = some c := by
  have hk : punct_kind c = some k ∧ ∀ d, punct_kind d = some k → d = c := by
    simp only [List.mem_cons, Prod.mk.injEq, List.mem_nil_iff, or_false] at h
    rcases h with ⟨rfl, rfl⟩ | ⟨rfl, rfl⟩ | ⟨rfl, rfl⟩ | ⟨rfl, rfl⟩ | ⟨rfl, rfl⟩ | ⟨rfl, rfl⟩ <;>
      refine ⟨by decide, fun d hd => ?_⟩ <;>
      simp only [punct_kind] at hd <;> split_ifs at hd <;> first | assumption | cases hd
  have hne : k ≠ Symbol.Kind.Eof ∧ k ≠ Symbol.Kind.Identifier ∧ k ≠ Symbol.Kind.Error := by
    simp only [List.mem_cons, Prod.mk.injEq, List.mem_nil_iff, or_false] at h
    rcases h with ⟨_, rfl⟩ | ⟨_, rfl⟩ | ⟨_, rfl⟩ | ⟨_, rfl⟩ | ⟨_, rfl⟩ | ⟨_, rfl⟩ <;> decide
  cases o with
  | none => simp [first_char_kind, hne.1.symm]
  | some d =>
    simp only [first_char_kind, Option.some.injEq]
    cases hp : punct_kind d with
    | some k' =>
      simp only
      constructor
      · intro hkk; subst hkk; exact hk.2 d hp
      · intro hd; subst hd; rw [hk.1] at hp; cases hp; rfl
    | none =>
      simp only
      constructor
      · intro hkk
        split_ifs at hkk
        · exact absurd hkk.symm hne.2.1
        · exact absurd hkk.symm hne.2.2
      · intro hd; subst hd; rw [hk.1] at hp; cases hp

theorem first_char_kind_eof (o : Option Char) :
    first_char_kind o = Symbol.Kind.Eof ↔ o = none := by
  cases o with
  | none => simp [first_char_kind]
  | some d =>
    simp only [first_char_kind, reduceCtorEq, iff_false]
    cases hp : punct_kind d with
    | some k => exact punct_kind_ne_eof hp
    | none => simp only; split_ifs <;> simp

theorem punct_kind_ne_error {c : Char} {k : Symbol.Kind} (h : punct_kind c = some k) :
    k ≠ Symbol.Kind.Error := by
  simp only [punct_kind] at h
  split_ifs at h <;> cases h <;> decide

theorem first_char_kind_identifier (o : Option Char) :
    first_char_kind o = Symbol.Kind.Identifier ↔
      ∃ c, o = some c ∧ (isalpha c = true ∨ c = '_') := by
  cases o with
  | none => simp [first_char_kind]
  | some d =>
    simp only [first_char_kind, Option.some.injEq, exists_eq_left']
    have hid : (isalpha d = true ∨ d = '_') ↔ is_ident_start d = true := by
      simp [is_ident_start]
    rw [hid]
    cases hp : punct_kind d with
    | some k =>
      simp only
      constructor
      · intro hk; exact absurd hk (punct_kind_ne_identifier hp)
      · intro hi
        rw [is_ident_char_not_punct (is_ident_start_char hi)] at hp
        cases hp
    | none => simp only; split_ifs with hi <;> simp [hi]

theorem first_char_kind_error (o : Option Char) :
    first_char_kind o = Symbol.Kind.Error ↔
      ∃ c, o = some c ∧ punct_kind c = none ∧ ¬ (isalpha c = true ∨ c = '_') := by
  cases o with
  | none => simp [first_char_kind]
  | some d =>
    simp only [first_char_kind, Option.some.injEq, exists_eq_left']
    have hid : (isalpha d = true ∨ d = '_') ↔ is_ident_start d = true := by
      simp [is_ident_start]
    rw [hid]
    cases hp : punct_kind d with
    | some k =>
      simp only [reduceCtorEq, false_and, iff_false]
      exact punct_kind_ne_error hp
    | none => simp only; split_ifs with hi <;> simp [hi]

theorem symbol_table.put_text (t : symbol_table) (k : Symbol.Kind) (s : List Char) :
    ∃ i, (t.put k s).1 = SymbolRef.text i := by
  unfold symbol_table.put
  split <;> exact ⟨_, rfl⟩

/-- The symbol of the token of one call, by the first character that is not whitespace: the
canonical symbol of `Eof` or of the punctuator, or else an interned symbol, whose kind is the
one registered for its spelling, and `Identifier` resp. `Error` when none is. -/
theorem Lexer.step_sym_cases (lx : Lexer) :
    (lx.step.tok.sym = SymbolRef.canon (first_char_kind (lx.rest.dropWhile is_space).head?) ∧
      ∀ c, (lx.rest.dropWhile is_space).head? = some c → punct_kind c ≠ none) ∨
    ((∃ i, lx.step.tok.sym = SymbolRef.text i) ∧
      (∃ c, (lx.rest.dropWhile is_space).head? = some c ∧ punct_kind c = none) ∧
      lx.step.tok.kind lx.step.table =
        some ((lx.table.registered (lx.step.tok.spelling lx.step.table)).getD
          (first_char_kind (lx.rest.dropWhile is_space).head?))) := by
  cases hr : lx.rest.dropWhile is_space with
  | nil =>
    left
    have hx : next_lexeme (lx.rest.dropWhile is_space) = none := by rw [hr]; rfl
    rw [Lexer.step_of_none hx]
    exact ⟨rfl, by simp⟩
  | cons c tl =>
    simp only [List.head?_cons, first_char_kind, Option.some.injEq]
    cases hp : punct_kind c with
    | some k =>
      left
      have hx : next_lexeme (lx.rest.dropWhile is_space) = some (Lexeme.punct k) := by
        rw [hr]; simp [next_lexeme, hp]
      rw [Lexer.step_of_some hx]
      refine ⟨rfl, ?_⟩
      intro d hd
      subst hd
      simp [hp]
    | none =>
      right
      cases hi : is_ident_start c with
      | true =>
        have hx : next_lexeme (lx.rest.dropWhile is_space) =
            some (Lexeme.ident (c :: tl.takeWhile is_ident_char)) := by
          rw [hr]; simp [next_lexeme, hp, hi]
        rw [Lexer.step_of_some hx]
        simp only [if_true]
        refine ⟨symbol_table.put_text _ _ _, ⟨c, rfl, hp⟩, ?_⟩
        simp only [Lexer.with_token, Lexeme.intern, symbol_table.put_spelling]
        exact symbol_table.put_kind _ _ _ _
      | false =>
        have hx : next_lexeme (lx.rest.dropWhile is_space) = some (Lexeme.error c) := by
          rw [hr]; simp [next_lexeme, hp, hi]
        rw [Lexer.step_of_some hx]
        simp only [Bool.false_eq_true, if_false]
        refine ⟨symbol_table.put_text _ _ _, ⟨c, rfl, hp⟩, ?_⟩
        simp only [Lexer.with_token, Lexeme.intern, symbol_table.get_text,
          symbol_table.put_spelling]
        exact symbol_table.put_kind _ _ _ _

/-- C15: on a table that holds what this lexer interns, the kind of the token returned by
one call of `operator()` is a function of the first character `fc` that is not whitespace
(`none` when none is left): `Eof` if and only if there is none; the kind of a punctuator if
and only if `fc` is that punctuator; `Identifier` if and only if `fc` is a letter or an
underscore; `Error` if and only if `fc` is anything else, and then the token has one
character. On every table `fc` alone decides which symbol the token gets: the canonical
symbol of `Eof` if and only if there is none, the canonical symbol of a punctuator if and
only if `fc` is that punctuator, an interned symbol if and only if `fc` is anything else; the
kind of a canonical symbol is its own, the kind of an interned one is the kind under which the
table already registers the spelling of the token, and `Identifier` (for a letter or an
underscore) resp. `Error` when it registers none; the token made at a character that is none
of these has one character.
In particular `1abc` gives the `Error` token `1` and then the identifier `abc`. -/
theorem token_kind_by_first_char :
    (∀ (lx : Lexer) (fc : Option Char), lx.first ≤ lx.last → lx.table.lexical →
      fc = ((lx.buf.drop lx.first).dropWhile is_space).head? →
      ∃ lx', lx.operator_call = .ok lx' ∧
        lx'.tok.kind lx'.table = some (first_char_kind fc) ∧
        (lx'.tok.kind lx'.table = some Symbol.Kind.Eof ↔ fc = none) ∧
        (∀ c k, (c, k) ∈ [('(', Symbol.Kind.Lparen), (')', Symbol.Kind.Rparen),
            ('\\', Symbol.Kind.Backslash), ('.', Symbol.Kind.Dot),
            (';', Symbol.Kind.Semicolon), ('=', Symbol.Kind.Equal)] →
          (lx'.tok.kind lx'.table = some k ↔ fc = some c)) ∧
        (lx'.tok.kind lx'.table = some Symbol.Kind.Identifier ↔
          ∃ c, fc = some c ∧ (isalpha c = true ∨ c = '_')) ∧
        (lx'.tok.kind lx'.table = some Symbol.Kind.Error ↔
          ∃ c, fc = some c ∧ punct_kind c = none ∧ ¬ (isalpha c = true ∨ c = '_')) ∧
        (lx'.tok.kind lx'.table = some Symbol.Kind.Error →
          (lx'.tok.spelling lx'.table).length = 1 ∧ lx'.first = lx.token_start + 1)) ∧
    (∀ (lx : Lexer) (fc : Option Char), lx.first ≤ lx.last →
      fc = ((lx.buf.drop lx.first).dropWhile is_space).head? →
      ∃ lx', lx.operator_call = .ok lx' ∧
        (lx'.tok.sym = lx'.table.get Symbol.Kind.Eof ↔ fc = none) ∧
        (∀ c k, (c, k) ∈ [('(', Symbol.Kind.Lparen), (')', Symbol.Kind.Rparen),
            ('\\', Symbol.Kind.Backslash), ('.', Symbol.Kind.Dot),
            (';', Symbol.Kind.Semicolon), ('=', Symbol.Kind.Equal)] →
          (lx'.tok.sym = lx'.table.get k ↔ fc = some c)) ∧
        ((∃ i, lx'.tok.sym = SymbolRef.text i) ↔ ∃ c, fc = some c ∧ punct_kind c = none) ∧
        (∀ k, lx'.tok.sym = lx'.table.get k → lx'.tok.kind lx'.table = some k) ∧
        (∀ i, lx'.tok.sym = SymbolRef.text i →
          lx'.tok.kind lx'.table =
            some ((lx.table.registered (lx'.tok.spelling lx'.table)).getD
              (first_char_kind fc))) ∧
        ((∃ c, fc = some c ∧ punct_kind c = none ∧ ¬ (isalpha c = true ∨ c = '_')) →
          (lx'.tok.spelling lx'.table).length = 1 ∧ lx'.first = lx.token_start + 1)) ∧
    (∀ tok0 : Token, ∃ lx1 lx2,
      (Lexer.init ⟨[]⟩ ['1', 'a', 'b', 'c'] tok0).operator_call = .ok lx1 ∧
      lx1.tok.kind lx1.table = some Symbol.Kind.Error ∧
      lx1.tok.spelling lx1.table = ['1'] ∧
      lx1.operator_call = .ok lx2 ∧
      lx2.tok.kind lx2.table = some Symbol.Kind.Identifier ∧
      lx2.tok.spelling lx2.table = ['a', 'b', 'c']) := by
  constructor
  · intro lx fc hle ht hfc
    have hk : lx.step.tok.kind lx.step.table = some (first_char_kind fc) := by
      rw [hfc]; exact Lexer.step_kind ht
    refine ⟨lx.step, Lexer.operator_call_eq_step hle, hk, ?_, ?_, ?_, ?_, ?_⟩
    · rw [hk, Option.some.injEq]; exact first_char_kind_eof fc
    · intro c k hck
      rw [hk, Option.some.injEq]; exact first_char_kind_punct hck fc
    · rw [hk, Option.some.injEq]; exact first_char_kind_identifier fc
    · rw [hk, Option.some.injEq]; exact first_char_kind_error fc
    · intro he
      rw [hk, Option.some.injEq] at he
      obtain ⟨c, hc, hp, hi⟩ := (first_char_kind_error fc).mp he
      apply Lexer.step_error_spelling
      refine ⟨c, by rw [← hc, hfc]; rfl, hp, ?_⟩
      simpa [is_ident_start] using hi
  constructor
  · intro lx fc hle hfc
    have hfc' : fc = (lx.rest.dropWhile is_space).head? := hfc
    refine ⟨lx.step, Lexer.operator_call_eq_step hle, ?_, ?_, ?_, ?_, ?_, ?_⟩
    · rcases Lexer.step_sym_cases lx with ⟨h1, _⟩ | ⟨⟨i, hi⟩, ⟨c, hc, _⟩, _⟩
      · rw [h1, ← hfc']
        simp only [symbol_table.get, SymbolRef.canon.injEq]
        exact first_char_kind_eof fc
      · rw [hi, hfc', hc]
        simp [symbol_table.get]
    · intro c k hck
      rcases Lexer.step_sym_cases lx with ⟨h1, _⟩ | ⟨⟨i, hi⟩, ⟨d, hd, hp⟩, _⟩
      · rw [h1, ← hfc']
        simp only [symbol_table.get, SymbolRef.canon.injEq]
        exact first_char_kind_punct hck fc
      · rw [hi, hfc', hd]
        simp only [symbol_table.get, reduceCtorEq, Option.some.injEq, false_iff]
        rintro rfl
        simp only [List.mem_cons, Prod.mk.injEq, List.mem_nil_iff, or_false] at hck
        rcases hck with ⟨rfl, _⟩ | ⟨rfl, _⟩ | ⟨rfl, _⟩ | ⟨rfl, _⟩ | ⟨rfl, _⟩ | ⟨rfl, _⟩ <;>
          revert hp <;> decide
    · rcases Lexer.step_sym_cases lx with ⟨h1, h2⟩ | ⟨hi, hc, _⟩
      · rw [h1]
        simp only [reduceCtorEq, exists_false, false_iff, not_exists, not_and]
        intro c hc
        exact h2 c (by rw [← hfc', hc])
      · rw [hfc']
        exact ⟨fun _ => hc, fun _ => hi⟩
    · intro k hk
      simp only [symbol_table.get] at hk
      simp [Token.kind, hk, symbol_table.deref]
    · intro i hi
      rcases Lexer.step_sym_cases lx with ⟨h1, _⟩ | ⟨_, _, h3⟩
      · rw [h1] at hi
        cases hi
      · rw [hfc']
        exact h3
    · rintro ⟨c, hc, hp, hi⟩
      apply Lexer.step_error_spelling
      refine ⟨c, by rw [← hc, hfc]; rfl, hp, ?_⟩
      simpa [is_ident_start] using hi
  · intro tok0
    exact ⟨_, _, rfl, rfl, rfl, rfl, rfl, rfl⟩

theorem token_kind_by_first_char_witness :
    (∃ lx', (Lexer.init ⟨[]⟩ [' ', '1', 'a'] ⟨.canon .Eof, ⟨0, 0⟩⟩).operator_call = .ok lx' ∧
      lx'.tok.kind lx'.table = some Symbol.Kind.Error ∧
      (lx'.tok.spelling lx'.table).length = 1) ∧
    (∃ lx', (Lexer.init ⟨[⟨Symbol.Kind.Error, ['a']⟩]⟩ [' ', 'a']
        ⟨.canon .Eof, ⟨0, 0⟩⟩).operator_call = .ok lx' ∧
      (∃ i, lx'.tok.sym = SymbolRef.text i) ∧
      lx'.tok.kind lx'.table =
        some ((symbol_table.registered ⟨[⟨Symbol.Kind.Error, ['a']⟩]⟩
          (lx'.tok.spelling lx'.table)).getD Symbol.Kind.Identifier)) := by
  constructor
  · obtain ⟨lx', h1, h2, _, _, _, _, h7⟩ :=
      token_kind_by_first_char.1 (Lexer.init ⟨[]⟩ [' ', '1', 'a'] ⟨.canon .Eof, ⟨0, 0⟩⟩)
        (some '1') (by decide) symbol_table.lexical_empty rfl
    have h2' : lx'.tok.kind lx'.table = some Symbol.Kind.Error := h2
    exact ⟨lx', h1, h2', (h7 h2').1⟩
  · obtain ⟨lx', h1, _, _, h4, _, h6, _⟩ :=
      token_kind_by_first_char.2.1
        (Lexer.init ⟨[⟨Symbol.Kind.Error, ['a']⟩]⟩ [' ', 'a'] ⟨.canon .Eof, ⟨0, 0⟩⟩)
        (some 'a') (by decide) rfl
    obtain ⟨i, hi⟩ := h4.mpr ⟨'a', rfl, by decide⟩
    exact ⟨lx', h1, ⟨i, hi⟩, h6 i hi⟩

/-- C15, as stated for every table, fails: the kind of an interned symbol is the one under
which its spelling was first registered, and the table is handed in by the caller. The same
first character `a` gives a token of kind `Identifier` on the empty table and of kind `Error`
on a table that registers `a` under `Error`, so no function of the first character gives the
kind; and on a table that registers `ab` under `Error` the input `ab` gives an `Error` token
of two characters. -/
theorem token_kind_by_first_char_counterexample :
    (∃ lx1 lx2,
      (Lexer.init ⟨[]⟩ ['a'] ⟨.canon .Eof, ⟨0, 0⟩⟩).operator_call = .ok lx1 ∧
      (Lexer.init ⟨[⟨Symbol.Kind.Error, ['a']⟩]⟩ ['a'] ⟨.canon .Eof, ⟨0, 0⟩⟩).operator_call
        = .ok lx2 ∧
      lx1.tok.kind lx1.table = some Symbol.Kind.Identifier ∧
      lx2.tok.kind lx2.table = some Symbol.Kind.Error) ∧
    (∃ lx3,
      (Lexer.init ⟨[⟨Symbol.Kind.Error, ['a', 'b']⟩]⟩ ['a', 'b']
        ⟨.canon .Eof, ⟨0, 0⟩⟩).operator_call = .ok lx3 ∧
      lx3.tok.kind lx3.table = some Symbol.Kind.Error ∧
      lx3.tok.spelling lx3.table = ['a', 'b']) ∧
    ¬ ∃ f : Option Char → Symbol.Kind, ∀ (lx lx' : Lexer), lx.first ≤ lx.last →
      lx.operator_call = .ok lx' →
      lx'.tok.kind lx'.table = some (f ((lx.buf.drop lx.first).dropWhile is_space).head?) := by
  refine ⟨⟨_, _, rfl, rfl, rfl, rfl⟩, ⟨_, rfl, rfl, rfl⟩, ?_⟩
  rintro ⟨f, hf⟩
  have h1 := hf (Lexer.init ⟨[]⟩ ['a'] ⟨.canon .Eof, ⟨0, 0⟩⟩)
    (Lexer.init ⟨[]⟩ ['a'] ⟨.canon .Eof, ⟨0, 0⟩⟩).step (by decide) rfl
  have h2 := hf (Lexer.init ⟨[⟨Symbol.Kind.Error, ['a']⟩]⟩ ['a'] ⟨.canon .Eof, ⟨0, 0⟩⟩)
    (Lexer.init ⟨[⟨Symbol.Kind.Error, ['a']⟩]⟩ ['a'] ⟨.canon .Eof, ⟨0, 0⟩⟩).step
    (by decide) rfl
  have h3 : some Symbol.Kind.Identifier = some (f (some 'a')) := h1
  have h4 : some Symbol.Kind.Error = some (f (some 'a')) := h2
  rw [← h3] at h4
  cases h4

/-! ## Parsing: the tokens the parser pulls -/

theorem Parser.consume_eq {p : Parser} (h : p.lex.first ≤ p.lex.buf.length) :
    p.consume = .ok (p.tok, p.next) := by
  simp only [Parser.consume, Lexer.operator_call_eq_step h, Parser.next]

theorem Parser.match_eq {p : Parser} {k : Symbol.Kind} (h : p.lex.first ≤ p.lex.buf.length)
    (hk : p.tok.kind p.lex.table = some k) : p.match_ k = .ok (p.tok, p.next) := by
  simp only [Parser.match_, hk, if_true, Parser.consume_eq h]

theorem Parser.next_sound {p : Parser} (h : p.sound) : p.next.sound :=
  ⟨(Lexer.step_first_le h.1).2, Lexer.step_lexical h.2⟩

theorem Parser.next_kind {p : Parser} (h : p.sound) :
    p.next.tok.kind p.next.lex.table =
      some (first_char_kind (p.lex.rest.dropWhile is_space).head?) :=
  Lexer.step_kind h.2

theorem Parser.next_rest (p : Parser) :
    p.next.lex.rest = (p.lex.rest.dropWhile is_space).drop
      (lexeme_length (next_lexeme (p.lex.rest.dropWhile is_space))) :=
  Lexer.step_rest p.lex

theorem Parser.next_spells_mono {p : Parser} {r : SymbolRef} {s : List Char}
    (h : p.lex.table.spells r s) : p.next.lex.table.spells r s :=
  Lexer.step_spells_mono h

theorem Parser.next_buf (p : Parser) : p.next.lex.buf = p.lex.buf :=
  Lexer.step_buf p.lex

theorem is_identifier_spelling_cons {x : List Char} (h : is_identifier_spelling x = true) :
    ∃ c tl, x = c :: tl ∧ is_ident_start c = true ∧ ∀ d ∈ tl, is_ident_char d = true := by
  cases x with
  | nil => simp [is_identifier_spelling] at h
  | cons c tl =>
    simp only [is_identifier_spelling, Bool.and_eq_true, List.all_eq_true] at h
    exact ⟨c, tl, rfl, h.1, h.2⟩

theorem takeWhile_of_all_head (p : Char → Bool) (a b : List Char)
    (ha : ∀ c ∈ a, p c = true) (hb : ∀ c ∈ b.head?, p c = false) :
    (a ++ b).takeWhile p = a := by
  rw [takeWhile_append_of_all p a b ha]
  cases b with
  | nil => simp
  | cons d b =>
    have hd : p d = false := hb d (by simp)
    simp [List.takeWhile_cons, hd]

/-- The lexeme at an identifier that is followed by no letter, digit or underscore is the
identifier. -/
theorem next_lexeme_identifier {x r : List Char} (hx : is_identifier_spelling x = true)
    (hr : ∀ d ∈ r.head?, is_ident_char d = false) :
    next_lexeme (x ++ r) = some (Lexeme.ident x) ∧
      first_char_kind (x ++ r).head? = Symbol.Kind.Identifier := by
  obtain ⟨c, tl, rfl, hc, htl⟩ := is_identifier_spelling_cons hx
  have hp := is_ident_char_not_punct (is_ident_start_char hc)
  refine ⟨?_, ?_⟩
  · simp only [List.cons_append, next_lexeme, hp, hc, if_true]
    rw [takeWhile_of_all_head is_ident_char tl r htl hr]
  · simp [first_char_kind, hp, hc]

theorem dropWhile_space_of_head {l : List Char} (h : ∀ c ∈ l.head?, is_space c = false) :
    l.dropWhile is_space = l := by
  cases l with
  | nil => rfl
  | cons c tl =>
    have hc : is_space c = false := h c (by simp)
    simp [List.dropWhile_cons, hc]

/-- The parser pulls an identifier that is followed by no letter, digit or underscore. -/
theorem Parser.next_identifier {p : Parser} {ws x r : List Char} (hs : p.sound)
    (hrest : p.lex.rest = ws ++ (x ++ r)) (hws : ∀ c ∈ ws, is_space c = true)
    (hx : is_identifier_spelling x = true) (hr : ∀ d ∈ r.head?, is_ident_char d = false) :
    p.next.tok.kind p.next.lex.table = some Symbol.Kind.Identifier ∧
      p.next.lex.table.spells p.next.tok.sym x ∧ p.next.lex.rest = r ∧ p.next.sound := by
  obtain ⟨hl, hk⟩ := next_lexeme_identifier hx hr
  have hhead : ∀ c ∈ (x ++ r).head?, is_space c = false := by
    obtain ⟨c, tl, rfl, hc, _⟩ := is_identifier_spelling_cons hx
    intro d hd
    simp only [List.cons_append, List.head?_cons, Option.mem_def, Option.some.injEq] at hd
    subst hd
    exact is_ident_char_not_space (is_ident_start_char hc)
  have hdw : p.lex.rest.dropWhile is_space = x ++ r := by
    rw [hrest, dropWhile_append_of_all _ _ _ hws, dropWhile_space_of_head hhead]
  refine ⟨?_, ?_, ?_, Parser.next_sound hs⟩
  · rw [Parser.next_kind hs, hdw, hk]
  · have := Lexer.step_spells (show next_lexeme (p.lex.rest.dropWhile is_space) = _ from
      hdw ▸ hl)
    exact this
  · rw [Parser.next_rest, hdw, hl]
    simp only [lexeme_length, Lexeme.length]
    exact List.drop_left x r

/-- The parser pulls a punctuator. -/
theorem Parser.next_punct {p : Parser} {ws r : List Char} {c : Char} {k : Symbol.Kind}
    (hs : p.sound) (hrest : p.lex.rest = ws ++ c :: r) (hws : ∀ c ∈ ws, is_space c = true)
    (hc : punct_kind c = some k) :
    p.next.tok.kind p.next.lex.table = some k ∧ p.next.lex.rest = r ∧ p.next.sound := by
  have hdw : p.lex.rest.dropWhile is_space = c :: r := by
    rw [hrest, dropWhile_append_of_all _ _ _ hws,
      dropWhile_space_of_head (head_not_space (punct_not_space hc))]
  refine ⟨?_, ?_, Parser.next_sound hs⟩
  · rw [Parser.next_kind hs, hdw]
    simp [first_char_kind, hc]
  · rw [Parser.next_rest, hdw]
    simp [next_lexeme, hc, lexeme_length, Lexeme.length]

/-- The parser pulls `Eof` at the end of the input. -/
theorem Parser.next_eof {p : Parser} (hs : p.sound) (hrest : p.lex.rest = []) :
    p.next.tok.kind p.next.lex.table = some Symbol.Kind.Eof ∧ p.next.lex.rest = [] ∧
      p.next.sound := by
  refine ⟨?_, ?_, Parser.next_sound hs⟩
  · rw [Parser.next_kind hs, hrest]
    rfl
  · rw [Parser.next_rest, hrest]
    rfl

theorem Parser.parse_primary_identifier (e : Parser → Except ParseError (Term × Parser))
    {p : Parser} (hs : p.sound)
    (hk : p.tok.kind p.lex.table = some Symbol.Kind.Identifier) :
    p.parse_primary e = .ok (Term.Variable p.tok.sym, p.next) ∧ p.at_primary = true := by
  constructor
  · simp [Parser.parse_primary, hk, Parser.parse_variable, Parser.match_eq hs.1 hk]
  · simp [Parser.at_primary, hk]

theorem Parser.at_primary_eof {p : Parser}
    (hk : p.tok.kind p.lex.table = some Symbol.Kind.Eof) : p.at_primary = false := by
  simp [Parser.at_primary, hk]

theorem spaced_cons (y : List Char) (ys : List (List Char)) :
    spaced (y :: ys) = [' '] ++ (y ++ spaced ys) := by
  simp [spaced]

theorem spaced_head (ys : List (List Char)) :
    ∀ d ∈ (spaced ys).head?, is_ident_char d = false := by
  intro d hd
  cases ys with
  | nil => simp [spaced] at hd
  | cons y ys =>
    rw [spaced_cons] at hd
    simp only [List.singleton_append, List.head?_cons, Option.mem_def,
      Option.some.injEq] at hd
    subst hd
    decide

theorem length_le_spaced (ys : List (List Char)) : ys.length ≤ (spaced ys).length := by
  induction ys with
  | nil => simp
  | cons y ys ih =>
    rw [spaced_cons]
    simp only [List.length_cons, List.length_append, List.length_nil]
    omega

/-- From a lookahead that is the identifier `x`, followed to the end of the input by the
identifiers `xs`, each after a space, the primaries are the variables of `x` and of `xs`. -/
theorem Parser.primaries_identifiers (e : Parser → Except ParseError (Term × Parser)) :
    ∀ (xs : List (List Char)) (p : Parser) (x : List Char), p.sound →
      p.tok.kind p.lex.table = some Symbol.Kind.Identifier →
      p.lex.table.spells p.tok.sym x → p.lex.rest = spaced xs →
      (∀ y ∈ xs, is_identifier_spelling y = true) →
      ∃ syms p', Parser.primaries (Parser.parse_primary e) p
          ((p.tok.sym :: syms).map Term.Variable) p' ∧
        List.Forall₂ p'.lex.table.spells (p.tok.sym :: syms) (x :: xs) ∧
        p'.tok.kind p'.lex.table = some Symbol.Kind.Eof ∧ p'.sound ∧
        p'.lex.buf = p.lex.buf ∧
        ∀ r s, p.lex.table.spells r s → p'.lex.table.spells r s := by
  intro xs
  induction xs with
  | nil =>
    intro p x hs hk hsp hrest _
    obtain ⟨hprim, hat⟩ := Parser.parse_primary_identifier e hs hk
    obtain ⟨hk', _, hs'⟩ := Parser.next_eof hs (by simpa [spaced] using hrest)
    refine ⟨[], p.next, ?_, ?_, hk', hs', Parser.next_buf p,
      fun r s h => Parser.next_spells_mono h⟩
    · exact Parser.primaries.more p p.next p.next _ [] hat hprim
        (Parser.primaries.done p.next (Parser.at_primary_eof hk'))
    · exact List.Forall₂.cons (Parser.next_spells_mono hsp) List.Forall₂.nil
  | cons y ys ih =>
    intro p x hs hk hsp hrest hxs
    obtain ⟨hprim, hat⟩ := Parser.parse_primary_identifier e hs hk
    obtain ⟨hk1, hsp1, hrest1, hs1⟩ := Parser.next_identifier hs
      (show p.lex.rest = [' '] ++ (y ++ spaced ys) by rw [hrest, spaced_cons])
      (by decide) (hxs y (by simp)) (spaced_head ys)
    obtain ⟨syms, p', hprims, hall, hk', hs', hbuf, hmono⟩ :=
      ih p.next y hs1 hk1 hsp1 hrest1 (fun z hz => hxs z (by simp [hz]))
    refine ⟨p.next.tok.sym :: syms, p', ?_, ?_, hk', hs', by rw [hbuf, Parser.next_buf],
      fun r s h => hmono r s (Parser.next_spells_mono h)⟩
    · exact Parser.primaries.more p p.next p' _ _ hat hprim hprims
    · exact List.Forall₂.cons (hmono _ _ (Parser.next_spells_mono hsp)) hall

/-- The loop of `parse_application` applies what has been parsed to each further primary in
turn. -/
theorem Parser.parse_application_loop_primaries
    {primary : Parser → Except ParseError (Term × Parser)} {p p' : Parser} {ts : List Term}
    (h : Parser.primaries primary p ts p') :
    ∀ (fuel : Nat) (t : Term), ts.length < fuel →
      Parser.parse_application_loop primary fuel t p = .ok (ts.foldl Term.Application t, p') := by
  induction h with
  | done p hat =>
    intro fuel t hf
    obtain ⟨f, rfl⟩ : ∃ f, fuel = f + 1 := ⟨fuel - 1, by simp at hf; omega⟩
    simp [Parser.parse_application_loop, hat]
  | more p p1 p2 t2 ts hat hp _ ih =>
    intro fuel t hf
    obtain ⟨f, rfl⟩ : ∃ f, fuel = f + 1 := ⟨fuel - 1, by simp at hf; omega⟩
    simp only [Parser.parse_application_loop, hat, if_true, hp, List.foldl_cons]
    exact ih f _ (by simp at hf; omega)

theorem Parser.parse_application_primaries
    {primary : Parser → Except ParseError (Term × Parser)} {p p' : Parser} {t : Term}
    {ts : List Term} (h : Parser.primaries primary p (t :: ts) p') (fuel : Nat)
    (hf : ts.length < fuel) :
    Parser.parse_application primary fuel p = .ok (ts.foldl Term.Application t, p') := by
  cases h with
  | more _ p1 _ _ _ hat hp hr =>
    simp only [Parser.parse_application, hp]
    exact Parser.parse_application_loop_primaries hr fuel t hf

theorem symbol_table.spells_deref {t : symbol_table} {r : SymbolRef} {s : List Char}
    (h : t.spells r s) : (t.deref r).map Symbol.spelling = some s := by
  rcases h with ⟨k, rfl, hs⟩ | ⟨i, rfl, hf⟩
  · simp [symbol_table.deref, hs]
  · obtain ⟨_, ⟨e, he, hes⟩, _⟩ := symbol_table.find_some hf
    simp only [Nat.sub_zero] at he
    simp [symbol_table.deref, he, hes]

theorem Parser.init_eq {lex : Lexer} (h : lex.first ≤ lex.buf.length) :
    Parser.init lex = .ok (Parser.next { lex := lex, tok := lex.tok }) := by
  simp only [Parser.init, Lexer.operator_call_eq_step h, Parser.next]

theorem Parser.parse_expression_succ (fuel : Nat) (p : Parser) :
    Parser.parse_expression (fuel + 1) p =
      Parser.parse_application (Parser.parse_primary (Parser.parse_expression fuel))
        (fuel + 1) p := rfl

/-- The expression made of the identifier `x` and the identifiers `xs`, each after a space,
parses to the application of the variable of `x` to the variables of `xs` in turn. -/
theorem parse_expression_of_identifiers (t : symbol_table) (tok0 : Token) (x : List Char)
    (xs : List (List Char)) (ht : t.lexical) (hx : is_identifier_spelling x = true)
    (hxs : ∀ y ∈ xs, is_identifier_spelling y = true) :
    ∃ s syms p', parse_expression_of (Lexer.init t (x ++ spaced xs) tok0) =
        .ok ((syms.map Term.Variable).foldl Term.Application (Term.Variable s), p') ∧
      List.Forall₂ p'.lex.table.spells (s :: syms) (x :: xs) := by
  have hs0 : Parser.sound
      (Parser.mk (Lexer.init t (x ++ spaced xs) tok0) (Lexer.init t (x ++ spaced xs) tok0).tok) :=
    ⟨Nat.zero_le _, ht⟩
  obtain ⟨hk, hsp, hrest, hs⟩ := Parser.next_identifier hs0
    (show (Lexer.init t (x ++ spaced xs) tok0).rest = [] ++ (x ++ spaced xs) from rfl)
    (by simp) hx (spaced_head xs)
  obtain ⟨syms, p', hprims, hall, _, _, _, _⟩ :=
    Parser.primaries_identifiers
      (Parser.parse_expression ((Lexer.init t (x ++ spaced xs) tok0).buf.length + 1))
      xs _ x hs hk hsp hrest hxs
  have hlen : syms.length = xs.length := by
    have := hall.length_eq
    simpa using this
  have hfuel : (syms.map Term.Variable).length <
      (Lexer.init t (x ++ spaced xs) tok0).buf.length + 1 + 1 := by
    have := length_le_spaced xs
    simp only [List.length_map, hlen, Lexer.init, List.length_append]
    omega
  have hinit := Parser.init_eq (show (Lexer.init t (x ++ spaced xs) tok0).first ≤
    (Lexer.init t (x ++ spaced xs) tok0).buf.length from Nat.zero_le _)
  refine ⟨_, syms, p', ?_, hall⟩
  simp only [parse_expression_of, hinit]
  show Parser.parse_expression ((Lexer.init t (x ++ spaced xs) tok0).buf.length + 1 + 1) _ = _
  rw [Parser.parse_expression_succ]
  exact Parser.parse_application_primaries hprims _ hfuel

/-! ## Application and abstraction -/

/-- C12: in the parser modelled from the spec, application is left-associative. For all
identifiers `a`, `b`, `c`, the expression `a b c` parses to
`Application (Application (Variable a) (Variable b)) (Variable c)`, which is not
`Application (Variable a) (Application (Variable b) (Variable c))`; an identifier followed by
further identifiers parses to the application of its variable to theirs in turn; and
whatever the primaries are, `parse_application` on `n` primaries that follow each other
returns the left-nested application of them in order. -/
theorem application_left_associative :
    (∀ (t : symbol_table) (tok0 : Token) (a b c : List Char), t.lexical →
      is_identifier_spelling a = true → is_identifier_spelling b = true →
      is_identifier_spelling c = true →
      ∃ sa sb sc p', parse_expression_of (Lexer.init t (a ++ ' ' :: (b ++ ' ' :: c)) tok0) =
          .ok (Term.Application (Term.Application (Term.Variable sa) (Term.Variable sb))
            (Term.Variable sc), p') ∧
        (p'.lex.table.deref sa).map Symbol.spelling = some a ∧
        (p'.lex.table.deref sb).map Symbol.spelling = some b ∧
        (p'.lex.table.deref sc).map Symbol.spelling = some c ∧
        Term.Application (Term.Application (Term.Variable sa) (Term.Variable sb))
            (Term.Variable sc) ≠
          Term.Application (Term.Variable sa)
            (Term.Application (Term.Variable sb) (Term.Variable sc))) ∧
    (∀ (t : symbol_table) (tok0 : Token) (x : List Char) (xs : List (List Char)), t.lexical →
      is_identifier_spelling x = true → (∀ y ∈ xs, is_identifier_spelling y = true) →
      ∃ s syms p', parse_expression_of (Lexer.init t (x ++ spaced xs) tok0) =
          .ok ((syms.map Term.Variable).foldl Term.Application (Term.Variable s), p') ∧
        List.Forall₂ (fun r y => (p'.lex.table.deref r).map Symbol.spelling = some y)
          (s :: syms) (x :: xs)) ∧
    (∀ (primary : Parser → Except ParseError (Term × Parser)) (p p' : Parser) (t : Term)
        (ts : List Term) (fuel : Nat),
      Parser.primaries primary p (t :: ts) p' → ts.length < fuel →
      Parser.parse_application primary fuel p = .ok (ts.foldl Term.Application t, p')) := by
  refine ⟨?_, ?_, ?_⟩
  · intro t tok0 a b c ht ha hb hc
    obtain ⟨s, syms, p', hparse, hall⟩ := parse_expression_of_identifiers t tok0 a [b, c] ht ha
      (by intro y hy; simp at hy; rcases hy with rfl | rfl <;> assumption)
    have hin : a ++ spaced [b, c] = a ++ ' ' :: (b ++ ' ' :: c) := by simp [spaced]
    rw [hin] at hparse
    cases hall with
    | cons h1 hall =>
      cases hall with
      | cons h2 hall =>
        cases hall with
        | cons h3 hall =>
          cases hall
          exact ⟨_, _, _, p', hparse, symbol_table.spells_deref h1,
            symbol_table.spells_deref h2, symbol_table.spells_deref h3, by simp⟩
  · intro t tok0 x xs ht hx hxs
    obtain ⟨s, syms, p', hparse, hall⟩ := parse_expression_of_identifiers t tok0 x xs ht hx hxs
    exact ⟨s, syms, p', hparse, hall.imp (fun _ _ h => symbol_table.spells_deref h)⟩
  · intro primary p p' t ts fuel h hf
    exact Parser.parse_application_primaries h fuel hf

theorem application_left_associative_witness :
    ∃ sa sb sc p',
      parse_expression_of (Lexer.init ⟨[]⟩ (['f'] ++ ' ' :: (['x', '1'] ++ ' ' :: ['_', 'y']))
        ⟨.canon .Eof, ⟨0, 0⟩⟩) =
        .ok (Term.Application (Term.Application (Term.Variable sa) (Term.Variable sb))
          (Term.Variable sc), p') ∧
      (p'.lex.table.deref sa).map Symbol.spelling = some ['f'] ∧
      (p'.lex.table.deref sb).map Symbol.spelling = some ['x', '1'] ∧
      (p'.lex.table.deref sc).map Symbol.spelling = some ['_', 'y'] := by
  obtain ⟨sa, sb, sc, p', h1, h2, h3, h4, _⟩ :=
    application_left_associative.1 ⟨[]⟩ ⟨.canon .Eof, ⟨0, 0⟩⟩ ['f'] ['x', '1'] ['_', 'y']
      symbol_table.lexical_empty (by decide) (by decide) (by decide)
  exact ⟨sa, sb, sc, p', h1, h2, h3, h4⟩

/-- C13: in the parser modelled from the spec, the body of an abstraction extends as far to
the right as possible. For all identifiers `x`, `a`, `b`, the expression `\x. a b` parses to
`Abstraction x (Application (Variable a) (Variable b))`, which is not
`Application (Abstraction x (Variable a)) (Variable b)`. -/
theorem abstraction_extent (t : symbol_table) (tok0 : Token) (x a b : List Char)
    (ht : t.lexical) (hx : is_identifier_spelling x = true)
    (ha : is_identifier_spelling a = true) (hb : is_identifier_spelling b = true) :
    ∃ sx sa sb p',
      parse_expression_of
          (Lexer.init t ('\\' :: (x ++ '.' :: ' ' :: (a ++ ' ' :: b))) tok0) =
        .ok (Term.Abstraction sx (Term.Application (Term.Variable sa) (Term.Variable sb)),
          p') ∧
      (p'.lex.table.deref sx).map Symbol.spelling = some x ∧
      (p'.lex.table.deref sa).map Symbol.spelling = some a ∧
      (p'.lex.table.deref sb).map Symbol.spelling = some b ∧
      Term.Abstraction sx (Term.Application (Term.Variable sa) (Term.Variable sb)) ≠
        Term.Application (Term.Abstraction sx (Term.Variable sa)) (Term.Variable sb) := by
  have hin : '\\' :: (x ++ '.' :: ' ' :: (a ++ ' ' :: b)) =
      [] ++ '\\' :: (x ++ '.' :: ([' '] ++ (a ++ spaced [b]))) := by simp [spaced]
  rw [hin]
  generalize hI : ([] ++ '\\' :: (x ++ '.' :: ([' '] ++ (a ++ spaced [b]))) : List Char) = I
  have hs : Parser.sound (Parser.mk (Lexer.init t I tok0) (Lexer.init t I tok0).tok) :=
    ⟨Nat.zero_le _, ht⟩
  -- the lookahead after the initial pull is the backslash
  obtain ⟨hk0, hr0, hs0⟩ := Parser.next_punct hs
    (show (Lexer.init t I tok0).rest = [] ++ '\\' :: (x ++ '.' :: ([' '] ++ (a ++ spaced [b])))
      from hI.symm) (by simp) (show punct_kind '\\' = some Symbol.Kind.Backslash by decide)
  generalize hp0 : Parser.next (Parser.mk (Lexer.init t I tok0) (Lexer.init t I tok0).tok) =
    p0 at hk0 hr0 hs0
  -- then the identifier `x`
  obtain ⟨hk1, hsp1, hr1, hs1⟩ := Parser.next_identifier hs0
    (show p0.lex.rest = [] ++ (x ++ '.' :: ([' '] ++ (a ++ spaced [b]))) from hr0) (by simp) hx
    (by intro d hd; simp at hd; subst hd; decide)
  -- then the dot
  obtain ⟨hk2, hr2, hs2⟩ := Parser.next_punct hs1
    (show p0.next.lex.rest = [] ++ '.' :: ([' '] ++ (a ++ spaced [b])) from hr1) (by simp)
    (show punct_kind '.' = some Symbol.Kind.Dot by decide)
  -- then the identifier `a`, and `b` to the end of the input
  obtain ⟨hk3, hsp3, hr3, hs3⟩ := Parser.next_identifier hs2 hr2 (by decide) ha
    (spaced_head [b])
  obtain ⟨syms, p', hprims, hall, hk', _, _, hmono⟩ :=
    Parser.primaries_identifiers (Parser.parse_expression I.length)
      [b] p0.next.next.next a hs3 hk3 hsp3 hr3
      (by intro y hy; simp at hy; subst hy; exact hb)
  have hlen : syms.length = 1 := by
    have := hall.length_eq
    simpa using this
  obtain ⟨sb, rfl⟩ : ∃ sb, syms = [sb] := by
    rcases syms with _ | ⟨sb, _ | ⟨_, _⟩⟩
    · simp at hlen
    · exact ⟨sb, rfl⟩
    · simp at hlen
  simp only [List.forall₂_cons, List.forall₂_nil_right_iff, and_true] at hall
  -- the body is parsed as a whole expression
  have hbody : Parser.parse_expression (I.length + 1) p0.next.next.next =
      .ok (Term.Application (Term.Variable p0.next.next.next.tok.sym) (Term.Variable sb),
        p') := by
    have hIpos : 0 < I.length := by rw [← hI]; simp
    rw [Parser.parse_expression_succ]
    exact Parser.parse_application_primaries hprims _ (by simpa using hIpos)
  have hprim : Parser.parse_primary (Parser.parse_expression (I.length + 1)) p0 =
      .ok (Term.Abstraction p0.next.tok.sym
        (Term.Application (Term.Variable p0.next.next.next.tok.sym) (Term.Variable sb)),
        p') := by
    simp [Parser.parse_primary, hk0, Parser.parse_abstraction, Parser.match_eq hs0.1 hk0,
      Parser.parse_variable, Parser.match_eq hs1.1 hk1, Parser.match_eq hs2.1 hk2, hbody]
  have hat : p0.at_primary = true := by simp [Parser.at_primary, hk0]
  have htop := Parser.parse_application_primaries
    (Parser.primaries.more p0 p' p' _ [] hat hprim
      (Parser.primaries.done p' (Parser.at_primary_eof hk')))
    (I.length + 1 + 1) (by simp)
  have hinit := Parser.init_eq (show (Lexer.init t I tok0).first ≤
    (Lexer.init t I tok0).buf.length from Nat.zero_le _)
  refine ⟨p0.next.tok.sym, p0.next.next.next.tok.sym, sb, p', ?_, ?_,
    symbol_table.spells_deref hall.1, symbol_table.spells_deref hall.2, by simp⟩
  · simp only [parse_expression_of, hinit, hp0]
    show Parser.parse_expression (I.length + 1 + 1) p0 = _
    rw [Parser.parse_expression_succ]
    exact htop
  · exact symbol_table.spells_deref
      (hmono _ _ (Parser.next_spells_mono (Parser.next_spells_mono hsp1)))

theorem abstraction_extent_witness :
    ∃ sx sa sb p',
      parse_expression_of
          (Lexer.init ⟨[]⟩ ('\\' :: (['x'] ++ '.' :: ' ' :: (['a', 'b'] ++ ' ' :: ['c'])))
            ⟨.canon .Eof, ⟨0, 0⟩⟩) =
        .ok (Term.Abstraction sx (Term.Application (Term.Variable sa) (Term.Variable sb)),
          p') ∧
      (p'.lex.table.deref sx).map Symbol.spelling = some ['x'] ∧
      (p'.lex.table.deref sa).map Symbol.spelling = some ['a', 'b'] ∧
      (p'.lex.table.deref sb).map Symbol.spelling = some ['c'] := by
  obtain ⟨sx, sa, sb, p', h1, h2, h3, h4, _⟩ :=
    abstraction_extent ⟨[]⟩ ⟨.canon .Eof, ⟨0, 0⟩⟩ ['x'] ['a', 'b'] ['c']
      symbol_table.lexical_empty (by decide) (by decide) (by decide)
  exact ⟨sx, sa, sb, p', h1, h2, h3, h4⟩

end Lambda
